import Mathlib

/-!
Verification of the response-normalization pipeline of `src/app.py`
(`/api/proxy_chat`: payload extraction, reply assembly, text sanitization,
and the proxy orchestrator), together with the URL normalization helper
`build_ollama_api_url`.

Strings are modelled as `List Char`.  The regular-expression substitutions
of the sanitizer (lines 295-302 of `src/app.py`) are modelled by explicit
one-pass state machines that reproduce the leftmost, non-overlapping
semantics of Python `re.sub` for each of the concrete patterns involved.
Character classes follow Python: `\s` (and `str.strip`) is the Unicode
whitespace set, `.` matches every character except `'\n'`, and `\w` is
modelled by its ASCII portion (letters, digits, underscore).
-/

namespace DatingApp

/-- Characters accepted by Python's `\s` / `str.strip()` whitespace class. -/
def wsChars : List Char :=
  ([32, 9, 10, 13, 11, 12, 28, 29, 30, 31, 133, 160, 5760,
    8192, 8193, 8194, 8195, 8196, 8197, 8198, 8199, 8200, 8201, 8202,
    8232, 8233, 8239, 8287, 12288] : List Nat).map Char.ofNat

def isWs (c : Char) : Bool := wsChars.contains c

/-- ASCII model of Python's `\w` word-character class. -/
def isWordChar (c : Char) : Bool := c.isAlphanum || c = '_'

/-- The punctuation set of the pass `re.sub(r"\s+([.,!?;:])", r"\1", s)`. -/
def isPunct (c : Char) : Bool :=
  c = '.' || c = ',' || c = '!' || c = '?' || c = ';' || c = ':'

/-- The apostrophe character (written by code point to keep literals plain). -/
def quoteChar : Char := Char.ofNat 39

/-- Case-insensitive character comparison used by the `re.I` backreference. -/
def ciEq (a b : Char) : Bool := a.toLower = b.toLower

/-! ### Pass 1 and 2: `re.sub(r"\[.*?\]", '', s)` and `re.sub(r"<.*?>", '', s)`

One-pass machine: after an opening delimiter, buffer the interior; a closing
delimiter discards the buffered match, while a `'\n'` (which `.` cannot
match) or the end of input flushes the buffer verbatim. -/

def stripTagsGo (op cl : Char) : Option (List Char) → List Char → List Char
  | none, [] => []
  | none, c :: rest =>
      if c = op then stripTagsGo op cl (some []) rest
      else c :: stripTagsGo op cl none rest
  | some acc, [] => op :: acc
  | some acc, c :: rest =>
      if c = cl then stripTagsGo op cl none rest
      else if c = '\n' then (op :: acc) ++ '\n' :: stripTagsGo op cl none rest
      else stripTagsGo op cl (some (acc ++ [c])) rest

def stripTags (op cl : Char) (s : List Char) : List Char :=
  stripTagsGo op cl none s

/-! ### Pass 3: `re.sub(r"\s+'\s+", "'", s)` -/

inductive QSt3
  | main
  | run (acc : List Char)
  | sawQ (acc : List Char)
  | absorb

def pass3Go : QSt3 → List Char → List Char
  | .main, [] => []
  | .run acc, [] => acc
  | .sawQ acc, [] => acc ++ [quoteChar]
  | .absorb, [] => []
  | .main, c :: rest =>
      if isWs c then pass3Go (.run [c]) rest
      else c :: pass3Go .main rest
  | .run acc, c :: rest =>
      if isWs c then pass3Go (.run (acc ++ [c])) rest
      else if c = quoteChar then pass3Go (.sawQ acc) rest
      else acc ++ c :: pass3Go .main rest
  | .sawQ acc, c :: rest =>
      if isWs c then quoteChar :: pass3Go .absorb rest
      else if c = quoteChar then acc ++ quoteChar :: quoteChar :: pass3Go .main rest
      else acc ++ quoteChar :: c :: pass3Go .main rest
  | .absorb, c :: rest =>
      if isWs c then pass3Go .absorb rest
      else if c = quoteChar then quoteChar :: pass3Go .main rest
      else c :: pass3Go .main rest

def pass3 (s : List Char) : List Char := pass3Go .main s

/-! ### Pass 4: `re.sub(r"\s+'", "'", s)` -/

def pass4Go : Option (List Char) → List Char → List Char
  | none, [] => []
  | some acc, [] => acc
  | none, c :: rest =>
      if isWs c then pass4Go (some [c]) rest
      else c :: pass4Go none rest
  | some acc, c :: rest =>
      if isWs c then pass4Go (some (acc ++ [c])) rest
      else if c = quoteChar then quoteChar :: pass4Go none rest
      else acc ++ c :: pass4Go none rest

def pass4 (s : List Char) : List Char := pass4Go none s

/-! ### Pass 5: `re.sub(r"'\s+", "'", s)` -/

def pass5Go : Bool → List Char → List Char
  | _, [] => []
  | false, c :: rest =>
      if c = quoteChar then quoteChar :: pass5Go true rest
      else c :: pass5Go false rest
  | true, c :: rest =>
      if isWs c then pass5Go true rest
      else if c = quoteChar then quoteChar :: pass5Go true rest
      else c :: pass5Go false rest

def pass5 (s : List Char) : List Char := pass5Go false s

/-! ### Pass 6: `re.sub(r"\b(\w+)(?:\s+\1\b)+", r"\1", s, flags=re.I)`

The pattern is deterministic for this shape: `(\w+)` must take a whole
maximal word run (a shorter prefix is followed by a word character, not
`\s`), each repeat consumes a maximal whitespace run followed by a
case-insensitive copy of the word ending at a boundary, and the greedy `+`
takes as many repeats as possible. -/

inductive DupSt
  | idle
  | reading (w : List Char)
  | afterW (w : List Char) (run : List Char)
  | rep (w : List Char) (run : List Char) (cons : List Char) (rem : List Char)

def pass6Go : DupSt → List Char → List Char
  | .idle, [] => []
  | .reading w, [] => w
  | .afterW w run, [] => w ++ run
  | .rep w run cons rem, [] => if rem = [] then w else w ++ run ++ cons
  | .idle, c :: rest =>
      if isWordChar c then pass6Go (.reading [c]) rest
      else c :: pass6Go .idle rest
  | .reading w, c :: rest =>
      if isWordChar c then pass6Go (.reading (w ++ [c])) rest
      else if isWs c then pass6Go (.afterW w [c]) rest
      else w ++ c :: pass6Go .idle rest
  | .afterW w run, c :: rest =>
      if isWs c then pass6Go (.afterW w (run ++ [c])) rest
      else if isWordChar c then
        match w with
        | h :: t =>
            if ciEq c h then pass6Go (.rep w run [c] t) rest
            else w ++ run ++ pass6Go (.reading [c]) rest
        | [] => w ++ run ++ pass6Go (.reading [c]) rest
      else w ++ run ++ c :: pass6Go .idle rest
  | .rep w run cons rem, c :: rest =>
      if isWordChar c then
        match rem with
        | h :: t =>
            if ciEq c h then pass6Go (.rep w run (cons ++ [c]) t) rest
            else w ++ run ++ pass6Go (.reading (cons ++ [c])) rest
        | [] => w ++ run ++ pass6Go (.reading (cons ++ [c])) rest
      else if isWs c then
        if rem = [] then pass6Go (.afterW w [c]) rest
        else w ++ run ++ pass6Go (.afterW cons [c]) rest
      else
        if rem = [] then w ++ c :: pass6Go .idle rest
        else w ++ run ++ cons ++ c :: pass6Go .idle rest

def pass6 (s : List Char) : List Char := pass6Go .idle s

/-! ### Pass 7: `re.sub(r"\s+([.,!?;:])", r"\1", s)` -/

def pass7Go : Option (List Char) → List Char → List Char
  | none, [] => []
  | some acc, [] => acc
  | none, c :: rest =>
      if isWs c then pass7Go (some [c]) rest
      else c :: pass7Go none rest
  | some acc, c :: rest =>
      if isWs c then pass7Go (some (acc ++ [c])) rest
      else if isPunct c then c :: pass7Go none rest
      else acc ++ c :: pass7Go none rest

def pass7 (s : List Char) : List Char := pass7Go none s

/-! ### Pass 8: `re.sub(r"\s+", ' ', s).strip()` -/

def collapseWsGo : Bool → List Char → List Char
  | _, [] => []
  | inRun, c :: rest =>
      if isWs c then
        if inRun then collapseWsGo true rest else ' ' :: collapseWsGo true rest
      else c :: collapseWsGo false rest

def collapseWs (s : List Char) : List Char := collapseWsGo false s

/-- Python `str.strip()`: drop leading and trailing whitespace. -/
def stripL (s : List Char) : List Char :=
  ((s.dropWhile isWs).reverse.dropWhile isWs).reverse

def pass8 (s : List Char) : List Char := stripL (collapseWs s)

/-- The seven cleanup passes applied inline in `api_proxy_chat`
(lines 295-302 of `src/app.py`), in source order. -/
def sanitize (s : List Char) : List Char :=
  pass8 (pass7 (pass6 (pass5 (pass4 (pass3
    (stripTags '<' '>' (stripTags '[' ']' s)))))))

/-! ## JSON values

Python values observed by the extractor.  Numbers are never emitted as
fragments; their only observable property is truthiness, so they are
modelled by an `isZero` flag. -/

inductive JVal
  | jnull
  | jbool (b : Bool)
  | jnum (isZero : Bool)
  | jstr (s : String)
  | jarr (elems : List JVal)
  | jobj (fields : List (String × JVal))
deriving Repr

/-- Python truthiness of a JSON value. -/
def truthy : JVal → Bool
  | .jnull => false
  | .jbool b => b
  | .jnum z => !z
  | .jstr s => s != ""
  | .jarr l => !l.isEmpty
  | .jobj l => !l.isEmpty

/-- `dict.get`: the parser keeps keys unique, first match suffices. -/
def getKey (kvs : List (String × JVal)) (k : String) : Option JVal :=
  match kvs with
  | [] => none
  | (k2, v) :: rest => if k2 = k then some v else getKey rest k

/-- Python `x or {}` applied to a `dict.get` result. -/
def orEmptyObj : Option JVal → JVal
  | some v => if truthy v then v else .jobj []
  | none => .jobj []

/-! ## The per-object matcher `collect_from_obj` (lines 234-257)

A truthy non-dict `message` value inside a `choices` element makes the
Python code call `.get` on a non-dict and raise `AttributeError`; this is
modelled by `Except.error ()`. -/

/-- `if isinstance(v, str) and v: pieces.append(v)`: emit a looked-up value
exactly when it is a non-empty string. -/
def strFrag : Option JVal → List String
  | some (.jstr s) => if s = "" then [] else [s]
  | _ => []

/-- `if isinstance(msg, dict): c = msg.get('content'); if isinstance(c, str) and c`. -/
def contentOfMsg (m : JVal) : List String :=
  match m with
  | .jobj mkvs => strFrag (getKey mkvs "content")
  | _ => []

/-- `v = obj.get(k); if isinstance(v, str) and v`. -/
def directKeyFrag (kvs : List (String × JVal)) (k : String) : List String :=
  strFrag (getKey kvs k)

def collectChoice (ch : JVal) : Except Unit (List String) :=
  match ch with
  | .jobj ckvs =>
      match orEmptyObj (getKey ckvs "message") with
      | .jobj mkvs => .ok (strFrag (getKey mkvs "content") ++ directKeyFrag ckvs "text")
      | _ => .error ()
  | _ => .ok []

def collectChoices : List JVal → Except Unit (List String)
  | [] => .ok []
  | ch :: rest => do
      let f ← collectChoice ch
      let r ← collectChoices rest
      return f ++ r

def collect_from_obj (obj : JVal) : Except Unit (List String) :=
  if truthy obj = false then .ok [] else
  match obj with
  | .jobj kvs => do
      let msgFrag := contentOfMsg (orEmptyObj (getKey kvs "message"))
      let direct := directKeyFrag kvs "content" ++ directKeyFrag kvs "text"
        ++ directKeyFrag kvs "reply"
      let chFrags ← match getKey kvs "choices" with
        | some (.jarr l) => collectChoices l
        | _ => .ok []
      return msgFrag ++ direct ++ chFrags
  | .jstr s => .ok [s]
  | _ => .ok []

/-! ## JSON parsing (`json.loads` and `JSONDecoder.raw_decode`)

A recursive-descent parser mirroring Python's `json` scanner: JSON
whitespace is `[ \t\n\r]`, numbers follow `NUMBER_RE`, the literals
`true`, `false`, `null`, `NaN`, `Infinity` and `-Infinity` are accepted
(the latter three parse to floats in Python), strings reject raw
control characters and decode the standard escapes.  Structural recursion
on an explicit fuel (two steps per consumed character suffice). -/

def jsonWsChar (c : Char) : Bool := c = ' ' || c = '\t' || c = '\n' || c = '\r'

def skipJsonWs (s : List Char) : List Char := s.dropWhile jsonWsChar

def hexVal (c : Char) : Option Nat :=
  if '0' ≤ c ∧ c ≤ '9' then some (c.toNat - 48)
  else if 'a' ≤ c ∧ c ≤ 'f' then some (c.toNat - 87)
  else if 'A' ≤ c ∧ c ≤ 'F' then some (c.toNat - 55)
  else none

def hex4 (h1 h2 h3 h4 : Char) : Option Nat :=
  match hexVal h1, hexVal h2, hexVal h3, hexVal h4 with
  | some a, some b, some c, some d => some (((a * 16 + b) * 16 + c) * 16 + d)
  | _, _, _, _ => none

/-- Parse the body of a JSON string (the opening quote already consumed).
Lone surrogate escapes are rejected (they have no `Char` counterpart). -/
def parseJStr : List Char → Option (List Char × List Char)
  | [] => none
  | '"' :: rest => some ([], rest)
  | '\\' :: 'u' :: h1 :: h2 :: h3 :: h4 :: rest =>
      match hex4 h1 h2 h3 h4 with
      | none => none
      | some n =>
        if 0xD800 ≤ n ∧ n ≤ 0xDBFF then
          match rest with
          | '\\' :: 'u' :: k1 :: k2 :: k3 :: k4 :: rest2 =>
              match hex4 k1 k2 k3 k4 with
              | none => none
              | some m =>
                if 0xDC00 ≤ m ∧ m ≤ 0xDFFF then
                  match parseJStr rest2 with
                  | some (cs, rem) =>
                      some (Char.ofNat (0x10000 + (n - 0xD800) * 0x400 + (m - 0xDC00)) :: cs, rem)
                  | none => none
                else none
          | _ => none
        else if 0xDC00 ≤ n ∧ n ≤ 0xDFFF then none
        else
          match parseJStr rest with
          | some (cs, rem) => some (Char.ofNat n :: cs, rem)
          | none => none
  | '\\' :: e :: rest =>
      let decoded : Option Char :=
        if e = '"' then some '"'
        else if e = '\\' then some '\\'
        else if e = '/' then some '/'
        else if e = 'b' then some (Char.ofNat 8)
        else if e = 'f' then some (Char.ofNat 12)
        else if e = 'n' then some '\n'
        else if e = 'r' then some '\r'
        else if e = 't' then some '\t'
        else none
      match decoded with
      | some d => do
          let (cs, rem) ← parseJStr rest
          return (d :: cs, rem)
      | none => none
  | c :: rest =>
      if c.toNat < 32 then none
      else do
        let (cs, rem) ← parseJStr rest
        return (c :: cs, rem)

def isDigitCh (c : Char) : Bool := '0' ≤ c && c ≤ '9'

/-- JSON number per Python's `NUMBER_RE`; returns whether the numeric value
is zero together with the remainder. -/
def parseNum (s : List Char) : Option (Bool × List Char) :=
  let s1 := match s with
    | '-' :: t => t
    | _ => s
  match s1 with
  | '0' :: t => parseNumFrac true t
  | c :: t =>
      if isDigitCh c ∧ c ≠ '0' then
        let (ds, t2) := (c :: t).span isDigitCh
        parseNumFrac (ds.all (· = '0')) t2
      else none
  | [] => none
where
  parseNumFrac (intZero : Bool) (t : List Char) : Option (Bool × List Char) :=
    let (mantZero, t) :=
      match t with
      | '.' :: t2 =>
          let (ds, t3) := t2.span isDigitCh
          if ds = [] then (intZero, '.' :: t2) else (intZero && ds.all (· = '0'), t3)
      | _ => (intZero, t)
    match t with
    | e :: t2 =>
        if e = 'e' ∨ e = 'E' then
          let (_, t3) := match t2 with
            | '+' :: u => (false, u)
            | '-' :: u => (true, u)
            | _ => (false, t2)
          let (ds, t4) := t3.span isDigitCh
          if ds = [] then some (mantZero, t) else some (mantZero, t4)
        else some (mantZero, t)
    | [] => some (mantZero, t)

/-- Mode of the fueled parser: a value, or the element/member loop of an
array or object under construction. -/
inductive PMode
  | value
  | arrLoop (acc : List JVal)
  | objLoop (acc : List (String × JVal))

/-- `dict` insertion: an existing key keeps its position, the value is
replaced; a new key is appended. -/
def upsert (acc : List (String × JVal)) (k : String) (v : JVal) :
    List (String × JVal) :=
  match acc with
  | [] => [(k, v)]
  | (k2, w) :: rest => if k2 = k then (k2, v) :: rest else (k2, w) :: upsert rest k v

def parseF : Nat → PMode → List Char → Option (JVal × List Char)
  | 0, _, _ => none
  | fuel + 1, .value, s =>
      match s with
      | [] => none
      | '"' :: rest => do
          let (cs, rem) ← parseJStr rest
          return (.jstr (String.mk cs), rem)
      | '{' :: rest =>
          let r := skipJsonWs rest
          (match r with
           | '}' :: r2 => some (.jobj [], r2)
           | _ => parseF fuel (.objLoop []) r)
      | '[' :: rest =>
          let r := skipJsonWs rest
          (match r with
           | ']' :: r2 => some (.jarr [], r2)
           | _ => parseF fuel (.arrLoop []) r)
      | 't' :: 'r' :: 'u' :: 'e' :: rest => some (.jbool true, rest)
      | 'f' :: 'a' :: 'l' :: 's' :: 'e' :: rest => some (.jbool false, rest)
      | 'n' :: 'u' :: 'l' :: 'l' :: rest => some (.jnull, rest)
      | 'N' :: 'a' :: 'N' :: rest => some (.jnum false, rest)
      | 'I' :: 'n' :: 'f' :: 'i' :: 'n' :: 'i' :: 't' :: 'y' :: rest =>
          some (.jnum false, rest)
      | '-' :: 'I' :: 'n' :: 'f' :: 'i' :: 'n' :: 'i' :: 't' :: 'y' :: rest =>
          some (.jnum false, rest)
      | _ => do
          let (z, rem) ← parseNum s
          return (.jnum z, rem)
  | fuel + 1, .arrLoop acc, s => do
      let (v, r) ← parseF fuel .value s
      let r := skipJsonWs r
      match r with
      | ',' :: r2 => parseF fuel (.arrLoop (acc ++ [v])) (skipJsonWs r2)
      | ']' :: r2 => some (.jarr (acc ++ [v]), r2)
      | _ => none
  | fuel + 1, .objLoop acc, s =>
      match s with
      | '"' :: rest => do
          let (kcs, r1) ← parseJStr rest
          let r2 := skipJsonWs r1
          match r2 with
          | ':' :: r3 => do
              let (v, r4) ← parseF fuel .value (skipJsonWs r3)
              let acc2 := upsert acc (String.mk kcs) v
              let r5 := skipJsonWs r4
              match r5 with
              | ',' :: r6 =>
                  let r7 := skipJsonWs r6
                  parseF fuel (.objLoop acc2) r7
              | '}' :: r6 => some (.jobj acc2, r6)
              | _ => none
          | _ => none
      | _ => none

/-- `json.loads`: leading and trailing whitespace allowed, the whole input
must be one JSON document. -/
def jsonLoads (s : List Char) : Option JVal :=
  let s1 := skipJsonWs s
  match parseF (2 * s1.length + 2) .value s1 with
  | some (v, r) => if skipJsonWs r = [] then some v else none
  | none => none

/-- `JSONDecoder().raw_decode`: a JSON value must start at index 0 (no
leading whitespace); trailing content is ignored. -/
def rawDecode (s : List Char) : Option JVal :=
  (parseF (2 * s.length + 2) .value s).map (·.1)

/-! ## The extractor (lines 259-292) -/

/-- `str.splitlines()` line-break characters (besides `"\r\n"`). -/
def isLineBr (c : Char) : Bool :=
  ([10, 13, 11, 12, 28, 29, 30, 133, 8232, 8233] : List Nat).contains c.toNat

def splitlinesGo : List Char → List Char → List (List Char)
  | acc, [] => if acc = [] then [] else [acc]
  | acc, '\r' :: '\n' :: rest => acc :: splitlinesGo [] rest
  | acc, '\r' :: rest => acc :: splitlinesGo [] rest
  | acc, c :: rest =>
      if isLineBr c then acc :: splitlinesGo [] rest
      else splitlinesGo (acc ++ [c]) rest

def splitlines (s : List Char) : List (List Char) := splitlinesGo [] s

/-- One iteration of the NDJSON loop body for a stripped non-blank line:
strict parse, then lenient first-value parse, then the literal line. -/
def lineStep (line : List Char) : Except Unit (List String) :=
  match jsonLoads line with
  | some obj => collect_from_obj obj
  | none =>
      match rawDecode line with
      | some obj => collect_from_obj obj
      | none => .ok [String.mk line]

/-- The `for line in text_body.splitlines()` loop, with the mutable
`pieces` list as accumulator. -/
def phase2Acc (pieces : List String) : List (List Char) → Except Unit (List String)
  | [] => .ok pieces
  | l :: rest =>
      let line := stripL l
      if line = [] then phase2Acc pieces rest
      else
        match lineStep line with
        | .error e => .error e
        | .ok f => phase2Acc (pieces ++ f) rest

/-- `for item in jr: collect_from_obj(item)`. -/
def collectList : List JVal → Except Unit (List String)
  | [] => .ok []
  | v :: rest => do
      let f ← collect_from_obj v
      let r ← collectList rest
      return f ++ r

/-- Whole-body parse attempt (`jr = resp.json()` plus the `if jr:` block). -/
def phase1 (tb : List Char) : Except Unit (List String) :=
  match jsonLoads tb with
  | none => .ok []
  | some jr =>
      if truthy jr then
        match jr with
        | .jarr l => collectList l
        | _ => collect_from_obj jr
      else .ok []

/-- The full fragment extraction: whole-body JSON first, then the NDJSON
line mode when no fragments were found and the body is non-empty. -/
def extractPieces (tb : List Char) : Except Unit (List String) :=
  match phase1 tb with
  | .error e => .error e
  | .ok ps => if ps = [] ∧ tb ≠ [] then phase2Acc ps (splitlines tb) else .ok ps

/-! ## Assembly and the orchestrator (lines 289-307) -/

def joinPieces : List String → List Char
  | [] => []
  | s :: rest => s.toList ++ joinPieces rest

/-- `reply_text = ''.join(pieces).strip() if pieces else text_body.strip()`. -/
def replyTextOf (ps : List String) (tb : List Char) : List Char :=
  if ps = [] then stripL tb else stripL (joinPieces ps)

def assembleSanitized (ps : List String) (tb : List Char) : List Char :=
  sanitize (replyTextOf ps tb)

inductive ProxyResult
  | success (reply : List Char)
  | errMissingMessages
  | errConnectionFailed
  | errNoReply (status : Nat) (body : List Char)
  | serverError
deriving DecidableEq, Repr

/-- HTTP status attached to each outcome of `api_proxy_chat`
(`serverError` is Flask's 500 for an uncaught exception). -/
def httpStatus : ProxyResult → Nat
  | .success _ => 200
  | .errMissingMessages => 400
  | .errConnectionFailed => 502
  | .errNoReply _ _ => 502
  | .serverError => 500

/-- `body = request.get_json(silent=True) or {}`. -/
def requestBody : Option JVal → JVal
  | some v => if truthy v then v else .jobj []
  | none => .jobj []

/-- `messages = body.get('messages') or []`. -/
def requestMessages (kvs : List (String × JVal)) : JVal :=
  match getKey kvs "messages" with
  | some v => if truthy v then v else .jarr []
  | none => .jarr []

/-- `api_proxy_chat`: `reqBody` is the parsed request body (`none` when the
body is absent or not valid JSON, mirroring `get_json(silent=True)`), and
`resp` is the outcome of the single outbound call (`none` = transport
error).  The upstream call is passed as data, so that a result independent
of `resp` models "no network call observable". -/
def proxy_chat (reqBody : Option JVal) (resp : Option (Nat × List Char)) :
    ProxyResult :=
  match requestBody reqBody with
  | .jobj kvs =>
      if truthy (requestMessages kvs) = false then .errMissingMessages
      else
        match resp with
        | none => .errConnectionFailed
        | some (status, tb) =>
            match extractPieces tb with
            | .error _ => .serverError
            | .ok ps =>
                if assembleSanitized ps tb = [] then .errNoReply status (tb.take 2000)
                else .success (assembleSanitized ps tb)
  | _ => .serverError

/-! ## `build_ollama_api_url` (lines 58-79) -/

/-- `host.startswith(pre)`. -/
def leadsWith : List Char → List Char → Bool
  | [], _ => true
  | _ :: _, [] => false
  | p :: ps, c :: cs => p = c && leadsWith ps cs

/-- `host.rstrip('/')`. -/
def rstripSlash (s : List Char) : List Char :=
  (s.reverse.dropWhile (· = '/')).reverse

def build_ollama_api_url (hostCfg : Option String) : List Char :=
  let host := stripL ((hostCfg.getD "").toList)
  let host := if host = [] then "localhost:11434".toList else host
  if leadsWith "http://".toList host ∨ leadsWith "https://".toList host then
    rstripSlash host ++ "/api/chat".toList
  else
    let host := if host.contains ':' then host else host ++ ":11434".toList
    "http://".toList ++ host ++ "/api/chat".toList

/-! ## Spec-side definitions used to compare code behaviour with the
specification text -/

/-- The spec's URL normalization rule (section 4.4), taken verbatim: a value
already prefixed with a scheme is used as-is (trailing slash trimmed);
otherwise append the default port `11434` if none specified, then prefix
with `http://`; append the fixed chat path. -/
def specNormalizeHost (host : List Char) : List Char :=
  if leadsWith "http://".toList host ∨ leadsWith "https://".toList host then
    rstripSlash host ++ "/api/chat".toList
  else
    let h2 := if host.contains ':' then host else host ++ ":11434".toList
    "http://".toList ++ h2 ++ "/api/chat".toList

/-- A `choices` element on which the Python matcher raises `AttributeError`
(truthy non-dict `message`). -/
def badChoice (ch : JVal) : Bool :=
  match ch with
  | .jobj ckvs =>
      match getKey ckvs "message" with
      | some (.jobj _) => false
      | some v => truthy v
      | none => false
  | _ => false

/-- Fragments contributed by one `choices` element: `message.content`,
then `text`, each emitted when a non-empty string. -/
def choiceFragsSpec (ch : JVal) : List String :=
  match ch with
  | .jobj ckvs =>
      (match getKey ckvs "message" with
       | some (.jobj mkvs) => strFrag (getKey mkvs "content")
       | _ => []) ++ strFrag (getKey ckvs "text")
  | _ => []

/-- Declarative description of the per-object matcher: the recognized
positions in code order — the object itself when a string, `message.content`,
the direct keys `content`, `text`, `reply`, then `message.content` and
`text` of each `choices` element — emitting exactly the non-empty strings
among them (a falsy object contributes nothing). -/
def collectSpec (obj : JVal) : Except Unit (List String) :=
  if truthy obj = false then .ok [] else
  match obj with
  | .jstr s => .ok [s]
  | .jobj kvs =>
      let msgPart :=
        match getKey kvs "message" with
        | some (.jobj mkvs) => strFrag (getKey mkvs "content")
        | _ => []
      let directPart := strFrag (getKey kvs "content") ++ strFrag (getKey kvs "text")
        ++ strFrag (getKey kvs "reply")
      match getKey kvs "choices" with
      | some (.jarr l) =>
          if l.any badChoice then .error ()
          else .ok (msgPart ++ directPart ++ (l.map choiceFragsSpec).flatten)
      | _ => .ok (msgPart ++ directPart)
  | _ => .ok []

/-- A closing delimiter occurs before any newline (the condition under which
`[.*?]` can match from a given opening delimiter). -/
def closeReachable (cl : Char) : List Char → Bool
  | [] => false
  | c :: rest => if c = cl then true else if c = '\n' then false else closeReachable cl rest

/-- The string still contains a removable tag: some opening delimiter with a
closing delimiter reachable before a newline. -/
def hasTagMatch (op cl : Char) : List Char → Bool
  | [] => false
  | c :: rest => (c = op && closeReachable cl rest) || hasTagMatch op cl rest

/-- Declarative form of the NDJSON loop: per stripped non-blank line,
`lineStep` fragments concatenated in order. -/
def lineFragsSpec : List (List Char) → Except Unit (List String)
  | [] => .ok []
  | l :: rest =>
      let line := stripL l
      if line = [] then lineFragsSpec rest
      else do
        let f ← lineStep line
        let r ← lineFragsSpec rest
        return f ++ r

/-! ## Predicates for the idempotence analysis

Character-adjacency predicates, a no-pair predicate for tag delimiters, a
deletion/whitespace-substitution refinement relation between strings, and a
Boolean mirror of the duplicate-word machine recording whether it ever
completes a collapse. -/

def noAdj (p : Char → Char → Bool) : List Char → Bool
  | [] => true
  | [_] => true
  | a :: b :: r => !p a b && noAdj p (b :: r)

/-- Whitespace immediately before a quote (what pass 4 deletes). -/
def pWQ (a b : Char) : Bool := isWs a && b = quoteChar

/-- Whitespace immediately after a quote (what pass 5 deletes). -/
def pQW (a b : Char) : Bool := a = quoteChar && isWs b

/-- Whitespace immediately before punctuation (what pass 7 deletes). -/
def pWP (a b : Char) : Bool := isWs a && isPunct b

/-- Two adjacent whitespace characters (what pass 8 collapses). -/
def pWW (a b : Char) : Bool := isWs a && isWs b

def headNotWs : List Char → Bool
  | [] => true
  | c :: _ => !isWs c

def headNotWord : List Char → Bool
  | [] => true
  | c :: _ => !isWordChar c

def onlySpace (s : List Char) : Bool := s.all (fun c => !isWs c || c = ' ')

/-- The canonical whitespace shape of a `pass8` output: every whitespace
character is a plain space, no two adjacent, none at either end. -/
def canonicalWs (s : List Char) : Bool :=
  onlySpace s && noAdj pWW s && headNotWs s && headNotWs s.reverse

/-- No opening delimiter is followed (anywhere later) by a closing one;
on newline-free strings this is exactly the absence of a removable tag. -/
def noPairB (op cl : Char) : Bool → List Char → Bool
  | _, [] => true
  | seen, c :: r =>
      if seen = true ∧ c = cl then false
      else noPairB op cl (seen || c = op) r

/-- `WSub l m`: `m` is obtained from `l` by deleting characters and
replacing whitespace characters by `' '` — the only rewritings any
sanitizer pass performs. -/
inductive WSub : List Char → List Char → Prop
  | nil : WSub [] []
  | skip {l m : List Char} (c : Char) : WSub l m → WSub (c :: l) m
  | keep {l m : List Char} (c : Char) : WSub l m → WSub (c :: l) (c :: m)
  | subst {l m : List Char} {c : Char} : isWs c = true → WSub l m →
      WSub (c :: l) (' ' :: m)

/-- Boolean mirror of the duplicate-word machine, following the branch
structure of `pass6Go` exactly: `true` iff a repeat ever completes, i.e.
iff the pass deletes something. -/
def hasDup : DupSt → List Char → Bool
  | .idle, [] => false
  | .reading _, [] => false
  | .afterW _ _, [] => false
  | .rep _ _ _ rem, [] => rem.isEmpty
  | .idle, c :: rest =>
      if isWordChar c then hasDup (.reading [c]) rest else hasDup .idle rest
  | .reading w, c :: rest =>
      if isWordChar c then hasDup (.reading (w ++ [c])) rest
      else if isWs c then hasDup (.afterW w [c]) rest
      else hasDup .idle rest
  | .afterW w run, c :: rest =>
      if isWs c then hasDup (.afterW w (run ++ [c])) rest
      else if isWordChar c then
        match w with
        | h :: t =>
            if ciEq c h then hasDup (.rep w run [c] t) rest
            else hasDup (.reading [c]) rest
        | [] => hasDup (.reading [c]) rest
      else hasDup .idle rest
  | .rep w run cons rem, c :: rest =>
      if isWordChar c then
        match rem with
        | h :: t =>
            if ciEq c h then hasDup (.rep w run (cons ++ [c]) t) rest
            else hasDup (.reading (cons ++ [c])) rest
        | [] => hasDup (.reading (cons ++ [c])) rest
      else if isWs c then
        if rem = [] then true else hasDup (.afterW cons [c]) rest
      else
        if rem = [] then true else hasDup .idle rest

/-- `ciPre cons w rem`: `cons` matches a prefix of `w` case-insensitively,
with `rem` the remaining suffix of `w`. -/
inductive ciPre : List Char → List Char → List Char → Prop
  | nil (w : List Char) : ciPre [] w w
  | cons {c h : Char} {cs w rem : List Char} :
      ciEq c h = true → ciPre cs w rem → ciPre (c :: cs) (h :: w) rem

/-- What the duplicate-word machine emits at once if told to flush. -/
def stFlush : DupSt → List Char
  | .idle => []
  | .reading w => w
  | .afterW w run => w ++ run
  | .rep w run cons _ => w ++ run ++ cons

/-- Invariant of the states reachable by the duplicate-word machine. -/
def goodSt : DupSt → Prop
  | .idle => True
  | .reading w => w ≠ [] ∧ (∀ c ∈ w, isWordChar c = true)
  | .afterW w run => w ≠ [] ∧ (∀ c ∈ w, isWordChar c = true) ∧
      run ≠ [] ∧ (∀ c ∈ run, isWs c = true)
  | .rep w run cons rem => w ≠ [] ∧ (∀ c ∈ w, isWordChar c = true) ∧
      run ≠ [] ∧ (∀ c ∈ run, isWs c = true) ∧
      cons ≠ [] ∧ (∀ c ∈ cons, isWordChar c = true) ∧ ciPre cons w rem

/-! ## Supporting lemmas -/

theorem closeReachable_of_no_cl (cl : Char) :
    ∀ s : List Char, s.all (· ≠ cl) → closeReachable cl s = false := by
  intro s h
  induction s with
  | nil => rfl
  | cons a as ih =>
      simp only [List.all_cons, Bool.and_eq_true, decide_eq_true_eq] at h
      rw [closeReachable, if_neg h.1]
      by_cases ha : a = '\n'
      · rw [if_pos ha]
      · rw [if_neg ha]; exact ih h.2

theorem closeReachable_append_nl (cl : Char) (hcl : cl ≠ '\n') (T : List Char) :
    ∀ acc : List Char, acc.all (· ≠ cl) →
      closeReachable cl (acc ++ '\n' :: T) = false := by
  intro acc h
  induction acc with
  | nil =>
      rw [List.nil_append, closeReachable, if_neg (fun he => hcl he.symm), if_pos rfl]
  | cons a as ih =>
      simp only [List.all_cons, Bool.and_eq_true, decide_eq_true_eq] at h
      rw [List.cons_append, closeReachable, if_neg h.1]
      by_cases ha : a = '\n'
      · rw [if_pos ha]
      · rw [if_neg ha]; exact ih h.2

theorem hasTagMatch_append_nl (op cl : Char) (hop : op ≠ '\n') (hcl : cl ≠ '\n')
    (T : List Char) :
    ∀ acc : List Char, acc.all (· ≠ cl) →
      hasTagMatch op cl (acc ++ '\n' :: T) = hasTagMatch op cl T := by
  intro acc h
  induction acc with
  | nil =>
      simp only [List.nil_append, hasTagMatch]
      have hne : ('\n' = op) = False := by
        simp only [eq_iff_iff, iff_false]; exact fun he => hop he.symm
      simp [hne]
  | cons a as ih =>
      simp only [List.all_cons, Bool.and_eq_true, decide_eq_true_eq] at h
      rw [List.cons_append, hasTagMatch,
        closeReachable_append_nl cl hcl T as h.2, ih h.2]
      simp

theorem hasTagMatch_of_no_cl (op cl : Char) :
    ∀ s : List Char, s.all (· ≠ cl) → hasTagMatch op cl s = false := by
  intro s h
  induction s with
  | nil => rfl
  | cons a as ih =>
      simp only [List.all_cons, Bool.and_eq_true, decide_eq_true_eq] at h
      rw [hasTagMatch, closeReachable_of_no_cl cl as h.2, ih h.2]
      simp

/-- After the tag-stripping pass no removable tag remains (for any buffered
interior free of the closing delimiter). -/
theorem stripTagsGo_no_match (op cl : Char) (hop : op ≠ '\n') (hcl : cl ≠ '\n') :
    ∀ s : List Char,
      hasTagMatch op cl (stripTagsGo op cl none s) = false ∧
      (∀ acc : List Char, acc.all (· ≠ cl) →
        hasTagMatch op cl (stripTagsGo op cl (some acc) s) = false) := by
  intro s
  induction s with
  | nil =>
      refine ⟨rfl, fun acc hacc => ?_⟩
      rw [stripTagsGo, hasTagMatch, closeReachable_of_no_cl cl acc hacc,
        hasTagMatch_of_no_cl op cl acc hacc]
      simp
  | cons c rest ih =>
      constructor
      · rw [stripTagsGo]
        by_cases hc : c = op
        · rw [if_pos hc]; exact ih.2 [] rfl
        · rw [if_neg hc, hasTagMatch, ih.1]
          simp [hc]
      · intro acc hacc
        rw [stripTagsGo]
        by_cases hc : c = cl
        · rw [if_pos hc]; exact ih.1
        · rw [if_neg hc]
          by_cases hn : c = '\n'
          · rw [if_pos hn, List.cons_append, hasTagMatch,
              closeReachable_append_nl cl hcl _ acc hacc,
              hasTagMatch_append_nl op cl hop hcl _ acc hacc, ih.1]
            simp
          · rw [if_neg hn]
            refine ih.2 (acc ++ [c]) ?_
            simp only [List.all_append, hacc, List.all_cons, List.all_nil,
              Bool.and_true, Bool.true_and, decide_eq_true_eq]
            exact hc

/-- When no removable tag is present the tag-stripping pass is the
identity (with the general buffered form needed for the induction). -/
theorem stripTagsGo_id_of_no_match (op cl : Char) :
    ∀ s : List Char,
      (hasTagMatch op cl s = false → stripTagsGo op cl none s = s) ∧
      (∀ acc : List Char, closeReachable cl s = false →
        hasTagMatch op cl s = false →
        stripTagsGo op cl (some acc) s = (op :: acc) ++ s) := by
  intro s
  induction s with
  | nil => exact ⟨fun _ => rfl, fun acc _ _ => by simp [stripTagsGo]⟩
  | cons c rest ih =>
      constructor
      · intro hm
        rw [hasTagMatch, Bool.or_eq_false_iff, Bool.and_eq_false_iff] at hm
        rw [stripTagsGo]
        by_cases hc : c = op
        · rw [if_pos hc, hc]
          have hcr : closeReachable cl rest = false := by
            rcases hm.1 with h | h
            · exact absurd hc (by simpa using h)
            · exact h
          exact ih.2 [] hcr hm.2
        · rw [if_neg hc, ih.1 hm.2]
      · intro acc hcr hm
        rw [closeReachable] at hcr
        rw [hasTagMatch, Bool.or_eq_false_iff] at hm
        by_cases hc : c = cl
        · rw [if_pos hc] at hcr; exact absurd hcr (by simp)
        · rw [if_neg hc] at hcr
          rw [stripTagsGo, if_neg hc]
          by_cases hn : c = '\n'
          · rw [if_pos hn, ih.1 hm.2, hn]
          · rw [if_neg hn] at hcr
            rw [if_neg hn, ih.2 (acc ++ [c]) hcr hm.2]
            simp

/-! ## Whitespace-class facts -/

theorem mem_wsChars_of_isWs {c : Char} (h : isWs c = true) : c ∈ wsChars := by
  rw [isWs] at h
  simpa using h

theorem wsChars_facts : ∀ c ∈ wsChars,
    isWordChar c = false ∧ c ≠ quoteChar ∧ isPunct c = false ∧
    c ≠ '[' ∧ c ≠ ']' ∧ c ≠ '<' ∧ c ≠ '>' := by decide

theorem ws_not_word {c : Char} (h : isWs c = true) : isWordChar c = false :=
  (wsChars_facts c (mem_wsChars_of_isWs h)).1

theorem ws_not_quote {c : Char} (h : isWs c = true) : c ≠ quoteChar :=
  (wsChars_facts c (mem_wsChars_of_isWs h)).2.1

theorem ws_not_punct {c : Char} (h : isWs c = true) : isPunct c = false :=
  (wsChars_facts c (mem_wsChars_of_isWs h)).2.2.1

theorem ws_not_lbracket {c : Char} (h : isWs c = true) : c ≠ '[' :=
  (wsChars_facts c (mem_wsChars_of_isWs h)).2.2.2.1

theorem ws_not_rbracket {c : Char} (h : isWs c = true) : c ≠ ']' :=
  (wsChars_facts c (mem_wsChars_of_isWs h)).2.2.2.2.1

theorem ws_not_langle {c : Char} (h : isWs c = true) : c ≠ '<' :=
  (wsChars_facts c (mem_wsChars_of_isWs h)).2.2.2.2.2.1

theorem ws_not_rangle {c : Char} (h : isWs c = true) : c ≠ '>' :=
  (wsChars_facts c (mem_wsChars_of_isWs h)).2.2.2.2.2.2

theorem quote_not_ws : isWs quoteChar = false := by decide

theorem quote_ws_false : ¬ (isWs quoteChar = true) := by decide

/-! ## Machine step equations (definitional, used for rewriting) -/

theorem stripTagsGo_none_cons (op cl c : Char) (rest : List Char) :
    stripTagsGo op cl none (c :: rest) =
      if c = op then stripTagsGo op cl (some []) rest
      else c :: stripTagsGo op cl none rest := rfl

theorem stripTagsGo_some_cons (op cl c : Char) (acc rest : List Char) :
    stripTagsGo op cl (some acc) (c :: rest) =
      if c = cl then stripTagsGo op cl none rest
      else if c = '\n' then (op :: acc) ++ '\n' :: stripTagsGo op cl none rest
      else stripTagsGo op cl (some (acc ++ [c])) rest := rfl

theorem pass3Go_main_cons (c : Char) (rest : List Char) :
    pass3Go .main (c :: rest) =
      if isWs c = true then pass3Go (.run [c]) rest
      else c :: pass3Go .main rest := rfl

theorem pass3Go_run_cons (acc : List Char) (c : Char) (rest : List Char) :
    pass3Go (.run acc) (c :: rest) =
      if isWs c = true then pass3Go (.run (acc ++ [c])) rest
      else if c = quoteChar then pass3Go (.sawQ acc) rest
      else acc ++ c :: pass3Go .main rest := rfl

theorem pass3Go_sawQ_cons (acc : List Char) (c : Char) (rest : List Char) :
    pass3Go (.sawQ acc) (c :: rest) =
      if isWs c = true then quoteChar :: pass3Go .absorb rest
      else if c = quoteChar then acc ++ quoteChar :: quoteChar :: pass3Go .main rest
      else acc ++ quoteChar :: c :: pass3Go .main rest := rfl

theorem pass3Go_absorb_cons (c : Char) (rest : List Char) :
    pass3Go .absorb (c :: rest) =
      if isWs c = true then pass3Go .absorb rest
      else if c = quoteChar then quoteChar :: pass3Go .main rest
      else c :: pass3Go .main rest := rfl

theorem pass4Go_none_cons (c : Char) (rest : List Char) :
    pass4Go none (c :: rest) =
      if isWs c = true then pass4Go (some [c]) rest
      else c :: pass4Go none rest := rfl

theorem pass4Go_some_cons (acc : List Char) (c : Char) (rest : List Char) :
    pass4Go (some acc) (c :: rest) =
      if isWs c = true then pass4Go (some (acc ++ [c])) rest
      else if c = quoteChar then quoteChar :: pass4Go none rest
      else acc ++ c :: pass4Go none rest := rfl

theorem pass5Go_false_cons (c : Char) (rest : List Char) :
    pass5Go false (c :: rest) =
      if c = quoteChar then quoteChar :: pass5Go true rest
      else c :: pass5Go false rest := rfl

theorem pass5Go_true_cons (c : Char) (rest : List Char) :
    pass5Go true (c :: rest) =
      if isWs c = true then pass5Go true rest
      else if c = quoteChar then quoteChar :: pass5Go true rest
      else c :: pass5Go false rest := rfl

theorem pass7Go_none_cons (c : Char) (rest : List Char) :
    pass7Go none (c :: rest) =
      if isWs c = true then pass7Go (some [c]) rest
      else c :: pass7Go none rest := rfl

theorem pass7Go_some_cons (acc : List Char) (c : Char) (rest : List Char) :
    pass7Go (some acc) (c :: rest) =
      if isWs c = true then pass7Go (some (acc ++ [c])) rest
      else if isPunct c = true then c :: pass7Go none rest
      else acc ++ c :: pass7Go none rest := rfl

theorem collapseWsGo_cons (b : Bool) (c : Char) (rest : List Char) :
    collapseWsGo b (c :: rest) =
      if isWs c = true then
        if b then collapseWsGo true rest else ' ' :: collapseWsGo true rest
      else c :: collapseWsGo false rest := rfl

/-! ## Pass 4 and pass 5 structure lemmas

`pass4` deletes each maximal whitespace run that immediately precedes an
apostrophe; `pass5` deletes each whitespace run that immediately follows
one.  The lemmas below factor their machines around apostrophes. -/

theorem pass4Go_none_eq_some_nil : ∀ z, pass4Go none z = pass4Go (some []) z := by
  intro z
  cases z with
  | nil => rfl
  | cons c rest =>
      rw [pass4Go_none_cons, pass4Go_some_cons]
      by_cases hw : isWs c = true
      · rw [if_pos hw, if_pos hw]; rfl
      · rw [if_neg hw, if_neg hw]
        by_cases hq : c = quoteChar
        · rw [if_pos hq, hq]
        · rw [if_neg hq, List.nil_append]

/-- Processing a whitespace run directly followed by an apostrophe from any
state yields just the apostrophe (the run is deleted). -/
theorem pass4Go_wsrun_quote : ∀ r : List Char, (∀ c ∈ r, isWs c = true) →
    ∀ st w, pass4Go st (r ++ quoteChar :: w) = quoteChar :: pass4Go none w := by
  intro r hr
  induction r with
  | nil =>
      intro st w
      cases st with
      | none => rw [List.nil_append, pass4Go_none_cons, if_neg quote_ws_false]
      | some acc =>
          rw [List.nil_append, pass4Go_some_cons, if_neg quote_ws_false, if_pos rfl]
  | cons d r ih =>
      intro st w
      have hd : isWs d = true := hr d (by simp)
      have hr2 : ∀ c ∈ r, isWs c = true := fun c hc => hr c (by simp [hc])
      rw [List.cons_append]
      cases st with
      | none => rw [pass4Go_none_cons, if_pos hd]; exact ih hr2 _ w
      | some acc => rw [pass4Go_some_cons, if_pos hd]; exact ih hr2 _ w

/-- A whitespace run before an apostrophe is invisible to `pass4`, in any
left context and from any state. -/
theorem pass4Go_del_wsrun_before_quote (r : List Char) (hr : ∀ c ∈ r, isWs c = true) :
    ∀ (u : List Char) (st : Option (List Char)) (w : List Char),
      pass4Go st (u ++ r ++ quoteChar :: w) = pass4Go st (u ++ quoteChar :: w) := by
  intro u
  induction u with
  | nil =>
      intro st w
      rw [List.nil_append, List.nil_append, pass4Go_wsrun_quote r hr st w]
      rw [show (quoteChar :: w) = [] ++ quoteChar :: w from rfl,
        pass4Go_wsrun_quote [] (by simp) st w]
  | cons c u ih =>
      intro st w
      rw [List.cons_append, List.cons_append, List.cons_append]
      cases st with
      | none =>
          rw [pass4Go_none_cons, pass4Go_none_cons]
          by_cases hw : isWs c = true
          · rw [if_pos hw, if_pos hw]
            exact ih _ w
          · rw [if_neg hw, if_neg hw, ih _ w]
      | some acc =>
          rw [pass4Go_some_cons, pass4Go_some_cons]
          by_cases hw : isWs c = true
          · rw [if_pos hw, if_pos hw]
            exact ih _ w
          · rw [if_neg hw, if_neg hw]
            by_cases hq : c = quoteChar
            · rw [if_pos hq, if_pos hq, ih _ w]
            · rw [if_neg hq, if_neg hq, ih _ w]

/-- `pass4` factors at an apostrophe: everything after it is processed from
the initial state. -/
theorem pass4Go_split_at_quote : ∀ (u : List Char) (st : Option (List Char)) (w : List Char),
    pass4Go st (u ++ quoteChar :: w) =
      pass4Go st (u ++ [quoteChar]) ++ pass4Go none w := by
  intro u
  induction u with
  | nil =>
      intro st w
      cases st with
      | none =>
          simp only [List.nil_append]
          rw [pass4Go_none_cons, pass4Go_none_cons, if_neg quote_ws_false,
            if_neg quote_ws_false]
          rfl
      | some acc =>
          simp only [List.nil_append]
          rw [pass4Go_some_cons, pass4Go_some_cons, if_neg quote_ws_false,
            if_neg quote_ws_false, if_pos rfl, if_pos rfl]
          rfl
  | cons c u ih =>
      intro st w
      rw [List.cons_append, List.cons_append]
      cases st with
      | none =>
          rw [pass4Go_none_cons, pass4Go_none_cons]
          by_cases hw : isWs c = true
          · rw [if_pos hw, if_pos hw]
            exact ih _ w
          · rw [if_neg hw, if_neg hw, ih _ w]
            rfl
      | some acc =>
          rw [pass4Go_some_cons, pass4Go_some_cons]
          by_cases hw : isWs c = true
          · rw [if_pos hw, if_pos hw]
            exact ih _ w
          · rw [if_neg hw, if_neg hw]
            by_cases hq : c = quoteChar
            · rw [if_pos hq, if_pos hq, ih _ w]
              rfl
            · rw [if_neg hq, if_neg hq, ih _ w, List.append_assoc]
              rfl

/-- A `pass4` output of a string ending in an apostrophe ends in that
apostrophe. -/
theorem pass4Go_ends_quote : ∀ (u : List Char) (st : Option (List Char)),
    ∃ X : List Char, pass4Go st (u ++ [quoteChar]) = X ++ [quoteChar] := by
  intro u
  induction u with
  | nil =>
      intro st
      refine ⟨[], ?_⟩
      cases st with
      | none =>
          rw [List.nil_append, pass4Go_none_cons, if_neg quote_ws_false]
          rfl
      | some acc =>
          rw [List.nil_append, pass4Go_some_cons, if_neg quote_ws_false, if_pos rfl]
          rfl
  | cons c u ih =>
      intro st
      rw [List.cons_append]
      cases st with
      | none =>
          rw [pass4Go_none_cons]
          by_cases hw : isWs c = true
          · obtain ⟨X, hX⟩ := ih (some [c])
            exact ⟨X, by rw [if_pos hw]; exact hX⟩
          · obtain ⟨X, hX⟩ := ih none
            refine ⟨c :: X, ?_⟩
            rw [if_neg hw, hX]
            rfl
      | some acc =>
          rw [pass4Go_some_cons]
          by_cases hw : isWs c = true
          · obtain ⟨X, hX⟩ := ih (some (acc ++ [c]))
            exact ⟨X, by rw [if_pos hw]; exact hX⟩
          · by_cases hq : c = quoteChar
            · obtain ⟨X, hX⟩ := ih none
              refine ⟨quoteChar :: X, ?_⟩
              rw [if_neg hw, if_pos hq, hX]
              rfl
            · obtain ⟨X, hX⟩ := ih none
              refine ⟨acc ++ c :: X, ?_⟩
              rw [if_neg hw, if_neg hq, hX, List.append_assoc]
              rfl

/-- After an apostrophe `pass5` deletes any whitespace run. -/
theorem pass5Go_true_wsrun : ∀ r : List Char, (∀ c ∈ r, isWs c = true) →
    ∀ t, pass5Go true (r ++ t) = pass5Go true t := by
  intro r hr
  induction r with
  | nil => intro t; rfl
  | cons d r ih =>
      intro t
      have hd : isWs d = true := hr d (by simp)
      rw [List.cons_append, pass5Go_true_cons, if_pos hd]
      exact ih (fun c hc => hr c (by simp [hc])) t

/-- `pass5` factors at an apostrophe: the rest is processed in the
after-apostrophe state. -/
theorem pass5Go_split_at_quote : ∀ (X : List Char) (st : Bool) (w : List Char),
    pass5Go st (X ++ quoteChar :: w) =
      pass5Go st (X ++ [quoteChar]) ++ pass5Go true w := by
  intro X
  induction X with
  | nil =>
      intro st w
      cases st with
      | false =>
          simp only [List.nil_append]
          rw [pass5Go_false_cons, pass5Go_false_cons, if_pos rfl, if_pos rfl]
          rfl
      | true =>
          simp only [List.nil_append]
          rw [pass5Go_true_cons, pass5Go_true_cons, if_neg quote_ws_false,
            if_neg quote_ws_false, if_pos rfl, if_pos rfl]
          rfl
  | cons c X ih =>
      intro st w
      rw [List.cons_append, List.cons_append]
      cases st with
      | false =>
          rw [pass5Go_false_cons, pass5Go_false_cons]
          by_cases hq : c = quoteChar
          · rw [if_pos hq, if_pos hq, ih true w]
            rfl
          · rw [if_neg hq, if_neg hq, ih false w]
            rfl
      | true =>
          rw [pass5Go_true_cons, pass5Go_true_cons]
          by_cases hw : isWs c = true
          · rw [if_pos hw, if_pos hw]
            exact ih true w
          · rw [if_neg hw, if_neg hw]
            by_cases hq : c = quoteChar
            · rw [if_pos hq, if_pos hq, ih true w]
              rfl
            · rw [if_neg hq, if_neg hq, ih false w]
              rfl

/-- After an apostrophe, the `pass5` image of a `pass4` run-state result
does not depend on the pending whitespace run. -/
theorem pass45_true_run_irrelevant : ∀ (v acc1 acc2 : List Char),
    (∀ c ∈ acc1, isWs c = true) → (∀ c ∈ acc2, isWs c = true) →
    pass5Go true (pass4Go (some acc1) v) = pass5Go true (pass4Go (some acc2) v) := by
  intro v
  induction v with
  | nil =>
      intro acc1 acc2 h1 h2
      show pass5Go true acc1 = pass5Go true acc2
      rw [show acc1 = acc1 ++ [] by simp, show acc2 = acc2 ++ [] by simp,
        pass5Go_true_wsrun acc1 h1, pass5Go_true_wsrun acc2 h2]
  | cons c v ih =>
      intro acc1 acc2 h1 h2
      rw [pass4Go_some_cons, pass4Go_some_cons]
      by_cases hw : isWs c = true
      · rw [if_pos hw, if_pos hw]
        refine ih (acc1 ++ [c]) (acc2 ++ [c]) ?_ ?_
        · intro d hd
          rcases List.mem_append.1 hd with hd | hd
          · exact h1 d hd
          · simp at hd; subst hd; exact hw
        · intro d hd
          rcases List.mem_append.1 hd with hd | hd
          · exact h2 d hd
          · simp at hd; subst hd; exact hw
      · rw [if_neg hw, if_neg hw]
        by_cases hq : c = quoteChar
        · rw [if_pos hq, if_pos hq]
        · rw [if_neg hq, if_neg hq, pass5Go_true_wsrun acc1 h1, pass5Go_true_wsrun acc2 h2]

/-- Whitespace between an apostrophe and what follows is invisible to
`pass5 ∘ pass4`. -/
theorem pass45_ws_after_quote (u v : List Char) (d : Char) (hd : isWs d = true) :
    pass5 (pass4 (u ++ quoteChar :: d :: v)) = pass5 (pass4 (u ++ quoteChar :: v)) := by
  obtain ⟨X, hX⟩ := pass4Go_ends_quote u none
  have key : ∀ w, pass5 (pass4 (u ++ quoteChar :: w)) =
      pass5Go false (X ++ [quoteChar]) ++ pass5Go true (pass4Go none w) := by
    intro w
    show pass5Go false (pass4Go none (u ++ quoteChar :: w)) = _
    rw [pass4Go_split_at_quote u none w, hX, List.append_assoc, List.singleton_append,
      pass5Go_split_at_quote X false (pass4Go none w)]
  rw [key (d :: v), key v]
  congr 1
  rw [pass4Go_none_cons, if_pos hd, pass4Go_none_eq_some_nil]
  exact pass45_true_run_irrelevant v [d] [] (by simpa using hd) (by simp)

/-- A whitespace run before an apostrophe is invisible to `pass5 ∘ pass4`. -/
theorem pass45_del_run_before_quote (acc : List Char) (hacc : ∀ c ∈ acc, isWs c = true)
    (p w : List Char) :
    pass5 (pass4 (p ++ (acc ++ quoteChar :: w))) =
      pass5 (pass4 (p ++ quoteChar :: w)) := by
  rw [show p ++ (acc ++ quoteChar :: w) = p ++ acc ++ quoteChar :: w from
    (List.append_assoc p acc _).symm]
  unfold pass4
  rw [pass4Go_del_wsrun_before_quote acc hacc p none w]

/-- The pattern `\s+'\s+` pass is absorbed by the following two passes: in
any left context, `pass5 ∘ pass4` does not see its effect (stated for every
machine state to make the induction go through). -/
theorem pass3_absorb : ∀ z : List Char,
    (∀ p : List Char, pass5 (pass4 (p ++ pass3Go .main z)) = pass5 (pass4 (p ++ z))) ∧
    (∀ p acc : List Char, (∀ c ∈ acc, isWs c = true) →
      pass5 (pass4 (p ++ pass3Go (.run acc) z)) = pass5 (pass4 (p ++ (acc ++ z)))) ∧
    (∀ p acc : List Char, (∀ c ∈ acc, isWs c = true) →
      pass5 (pass4 (p ++ pass3Go (.sawQ acc) z)) =
        pass5 (pass4 (p ++ (acc ++ quoteChar :: z)))) ∧
    (∀ p : List Char, pass5 (pass4 (p ++ quoteChar :: pass3Go .absorb z)) =
      pass5 (pass4 (p ++ quoteChar :: z))) := by
  intro z
  induction z with
  | nil =>
      refine ⟨fun p => rfl, fun p acc _ => by rw [List.append_nil]; rfl, fun p acc _ => rfl,
        fun p => rfl⟩
  | cons c z ih =>
      obtain ⟨ihM, ihR, ihQ, ihA⟩ := ih
      refine ⟨?_, ?_, ?_, ?_⟩
      · intro p
        rw [pass3Go_main_cons]
        by_cases hw : isWs c = true
        · rw [if_pos hw]
          have h := ihR p [c] (by intro d hd; simp at hd; subst hd; exact hw)
          simpa [List.append_assoc, List.cons_append, List.singleton_append] using h
        · rw [if_neg hw]
          have h := ihM (p ++ [c])
          simpa [List.append_assoc, List.cons_append, List.singleton_append] using h
      · intro p acc hacc
        rw [pass3Go_run_cons]
        by_cases hw : isWs c = true
        · rw [if_pos hw]
          have hacc2 : ∀ d ∈ acc ++ [c], isWs d = true := by
            intro d hd
            rcases List.mem_append.1 hd with hd | hd
            · exact hacc d hd
            · simp at hd; subst hd; exact hw
          have h := ihR p (acc ++ [c]) hacc2
          simpa [List.append_assoc, List.cons_append, List.singleton_append] using h
        · rw [if_neg hw]
          by_cases hq : c = quoteChar
          · rw [if_pos hq, hq]
            exact ihQ p acc hacc
          · rw [if_neg hq]
            have h := ihM (p ++ acc ++ [c])
            simpa [List.append_assoc, List.cons_append, List.singleton_append] using h
      · intro p acc hacc
        rw [pass3Go_sawQ_cons]
        by_cases hw : isWs c = true
        · rw [if_pos hw]
          rw [show p ++ quoteChar :: pass3Go .absorb z =
            p ++ quoteChar :: pass3Go .absorb z from rfl]
          rw [ihA p, pass45_del_run_before_quote acc hacc p (c :: z),
            pass45_ws_after_quote p z c hw]
        · rw [if_neg hw]
          by_cases hq : c = quoteChar
          · rw [if_pos hq, hq]
            have h := ihM (p ++ acc ++ [quoteChar, quoteChar])
            simpa [List.append_assoc, List.cons_append, List.singleton_append] using h
          · rw [if_neg hq]
            have h := ihM (p ++ acc ++ [quoteChar, c])
            simpa [List.append_assoc, List.cons_append, List.singleton_append] using h
      · intro p
        rw [pass3Go_absorb_cons]
        by_cases hw : isWs c = true
        · rw [if_pos hw, ihA p]
          exact (pass45_ws_after_quote p z c hw).symm
        · rw [if_neg hw]
          by_cases hq : c = quoteChar
          · rw [if_pos hq, hq]
            have h := ihM (p ++ [quoteChar, quoteChar])
            simpa [List.append_assoc, List.cons_append, List.singleton_append] using h
          · rw [if_neg hq]
            have h := ihM (p ++ [quoteChar, c])
            simpa [List.append_assoc, List.cons_append, List.singleton_append] using h

/-- `pass5 ∘ pass4 ∘ pass3 = pass5 ∘ pass4`. -/
theorem pass345_eq_pass45 (s : List Char) :
    pass5 (pass4 (pass3 s)) = pass5 (pass4 s) := by
  have h := (pass3_absorb s).1 []
  simpa [pass3] using h

/-! ## Boundary-whitespace absorption, per pass -/

theorem pass5Go_false_wsrun : ∀ r : List Char, (∀ c ∈ r, isWs c = true) →
    pass5Go false r = r := by
  intro r hr
  induction r with
  | nil => rfl
  | cons c r ih =>
      rw [pass5Go_false_cons, if_neg (ws_not_quote (hr c (by simp))),
        ih (fun d hd => hr d (by simp [hd]))]

theorem pass45_run_absorb (c : Char) (hc : isWs c = true) : ∀ (z acc : List Char),
    (∀ d ∈ acc, isWs d = true) →
    pass5 (pass4Go (some (c :: acc)) z) = pass5 (pass4Go (some acc) z) ∨
    pass5 (pass4Go (some (c :: acc)) z) = c :: pass5 (pass4Go (some acc) z) := by
  intro z
  induction z with
  | nil =>
      intro acc hacc
      right
      show pass5Go false (c :: acc) = c :: pass5Go false acc
      rw [pass5Go_false_cons, if_neg (ws_not_quote hc), pass5Go_false_wsrun acc hacc]
  | cons e z ih =>
      intro acc hacc
      rw [pass4Go_some_cons, pass4Go_some_cons]
      by_cases hw : isWs e = true
      · rw [if_pos hw, if_pos hw, List.cons_append]
        refine ih (acc ++ [e]) ?_
        intro d hd
        rcases List.mem_append.1 hd with hd | hd
        · exact hacc d hd
        · simp at hd; subst hd; exact hw
      · rw [if_neg hw, if_neg hw]
        by_cases hq : e = quoteChar
        · rw [if_pos hq, if_pos hq]
          left; rfl
        · rw [if_neg hq, if_neg hq]
          right
          show pass5Go false ((c :: acc) ++ e :: pass4Go none z) = _
          rw [List.cons_append, pass5Go_false_cons, if_neg (ws_not_quote hc)]
          rfl

theorem qblock_cons_ws (c : Char) (hc : isWs c = true) (z : List Char) :
    pass5 (pass4 (pass3 (c :: z))) = pass5 (pass4 (pass3 z)) ∨
    pass5 (pass4 (pass3 (c :: z))) = c :: pass5 (pass4 (pass3 z)) := by
  rw [pass345_eq_pass45, pass345_eq_pass45, pass4, pass4,
    pass4Go_none_cons, if_pos hc, pass4Go_none_eq_some_nil]
  exact pass45_run_absorb c hc z [] (by simp)

theorem pass4Go_append_ws (c : Char) (hc : isWs c = true) :
    ∀ (z : List Char) (st : Option (List Char)),
      pass4Go st (z ++ [c]) = pass4Go st z ++ [c] := by
  intro z
  induction z with
  | nil =>
      intro st
      cases st with
      | none => rw [List.nil_append, pass4Go_none_cons, if_pos hc]; rfl
      | some acc => rw [List.nil_append, pass4Go_some_cons, if_pos hc]; rfl
  | cons e z ih =>
      intro st
      rw [List.cons_append]
      cases st with
      | none =>
          rw [pass4Go_none_cons, pass4Go_none_cons]
          by_cases hw : isWs e = true
          · rw [if_pos hw, if_pos hw]; exact ih _
          · rw [if_neg hw, if_neg hw, ih none]; rfl
      | some acc =>
          rw [pass4Go_some_cons, pass4Go_some_cons]
          by_cases hw : isWs e = true
          · rw [if_pos hw, if_pos hw]; exact ih _
          · rw [if_neg hw, if_neg hw]
            by_cases hq : e = quoteChar
            · rw [if_pos hq, if_pos hq, ih none]; rfl
            · rw [if_neg hq, if_neg hq, ih none, List.append_assoc]; rfl

theorem pass5Go_append_ws (c : Char) (hc : isWs c = true) :
    ∀ (z : List Char) (st : Bool),
      pass5Go st (z ++ [c]) = pass5Go st z ++ [c] ∨
      pass5Go st (z ++ [c]) = pass5Go st z := by
  intro z
  induction z with
  | nil =>
      intro st
      cases st with
      | false =>
          left
          rw [List.nil_append, pass5Go_false_cons, if_neg (ws_not_quote hc)]
          rfl
      | true =>
          right
          rw [List.nil_append, pass5Go_true_cons, if_pos hc]
  | cons e z ih =>
      intro st
      rw [List.cons_append]
      cases st with
      | false =>
          rw [pass5Go_false_cons, pass5Go_false_cons]
          by_cases hq : e = quoteChar
          · rw [if_pos hq, if_pos hq]
            rcases ih true with h | h
            · left; rw [h]; rfl
            · right; rw [h]
          · rw [if_neg hq, if_neg hq]
            rcases ih false with h | h
            · left; rw [h]; rfl
            · right; rw [h]
      | true =>
          rw [pass5Go_true_cons, pass5Go_true_cons]
          by_cases hw : isWs e = true
          · rw [if_pos hw, if_pos hw]; exact ih true
          · rw [if_neg hw, if_neg hw]
            by_cases hq : e = quoteChar
            · rw [if_pos hq, if_pos hq]
              rcases ih true with h | h
              · left; rw [h]; rfl
              · right; rw [h]
            · rw [if_neg hq, if_neg hq]
              rcases ih false with h | h
              · left; rw [h]; rfl
              · right; rw [h]

theorem qblock_append_ws (c : Char) (hc : isWs c = true) (z : List Char) :
    pass5 (pass4 (pass3 (z ++ [c]))) = pass5 (pass4 (pass3 z)) ∨
    pass5 (pass4 (pass3 (z ++ [c]))) = pass5 (pass4 (pass3 z)) ++ [c] := by
  rw [pass345_eq_pass45, pass345_eq_pass45, pass4, pass4, pass4Go_append_ws c hc z none]
  rcases pass5Go_append_ws c hc (pass4Go none z) false with h | h
  · right; exact h
  · left; exact h

theorem stripTags_cons_ne (op cl c : Char) (hop : c ≠ op) (s : List Char) :
    stripTags op cl (c :: s) = c :: stripTags op cl s := by
  rw [stripTags, stripTagsGo_none_cons, if_neg hop]; rfl

theorem stripTagsGo_append_ws (op cl c : Char) (hop : c ≠ op) (hcl : c ≠ cl) :
    ∀ (s : List Char) (st : Option (List Char)),
      stripTagsGo op cl st (s ++ [c]) = stripTagsGo op cl st s ++ [c] := by
  intro s
  induction s with
  | nil =>
      intro st
      cases st with
      | none => rw [List.nil_append, stripTagsGo_none_cons, if_neg hop]; rfl
      | some acc =>
          rw [List.nil_append, stripTagsGo_some_cons, if_neg hcl]
          by_cases hn : c = '\n'
          · rw [if_pos hn, hn]; rfl
          · rw [if_neg hn]; simp [stripTagsGo]
  | cons e s ih =>
      intro st
      rw [List.cons_append]
      cases st with
      | none =>
          rw [stripTagsGo_none_cons, stripTagsGo_none_cons]
          by_cases he : e = op
          · rw [if_pos he, if_pos he]; exact ih _
          · rw [if_neg he, if_neg he, ih none]; rfl
      | some acc =>
          rw [stripTagsGo_some_cons, stripTagsGo_some_cons]
          by_cases hecl : e = cl
          · rw [if_pos hecl, if_pos hecl]; exact ih _
          · rw [if_neg hecl, if_neg hecl]
            by_cases hen : e = '\n'
            · rw [if_pos hen, if_pos hen, ih none, List.append_assoc]; rfl
            · rw [if_neg hen, if_neg hen]; exact ih _

/-! ## Pass 6 step equations and whitespace boundary lemmas -/

theorem pass6Go_idle_cons (c : Char) (rest : List Char) :
    pass6Go .idle (c :: rest) =
      if isWordChar c = true then pass6Go (.reading [c]) rest
      else c :: pass6Go .idle rest := rfl

theorem pass6Go_reading_cons (w : List Char) (c : Char) (rest : List Char) :
    pass6Go (.reading w) (c :: rest) =
      if isWordChar c = true then pass6Go (.reading (w ++ [c])) rest
      else if isWs c = true then pass6Go (.afterW w [c]) rest
      else w ++ c :: pass6Go .idle rest := rfl

theorem pass6Go_afterW_cons_wnil (run : List Char) (c : Char) (rest : List Char) :
    pass6Go (.afterW [] run) (c :: rest) =
      if isWs c = true then pass6Go (.afterW [] (run ++ [c])) rest
      else if isWordChar c = true then [] ++ run ++ pass6Go (.reading [c]) rest
      else [] ++ run ++ c :: pass6Go .idle rest := rfl

theorem pass6Go_afterW_cons_wcons (h : Char) (t run : List Char) (c : Char)
    (rest : List Char) :
    pass6Go (.afterW (h :: t) run) (c :: rest) =
      if isWs c = true then pass6Go (.afterW (h :: t) (run ++ [c])) rest
      else if isWordChar c = true then
        (if ciEq c h then pass6Go (.rep (h :: t) run [c] t) rest
         else (h :: t) ++ run ++ pass6Go (.reading [c]) rest)
      else (h :: t) ++ run ++ c :: pass6Go .idle rest := rfl

theorem pass6Go_rep_nil (w run cons rem : List Char) :
    pass6Go (.rep w run cons rem) [] =
      if rem = [] then w else w ++ run ++ cons := rfl

theorem pass6Go_rep_cons_remnil (w run cons : List Char) (c : Char)
    (rest : List Char) :
    pass6Go (.rep w run cons []) (c :: rest) =
      if isWordChar c = true then w ++ run ++ pass6Go (.reading (cons ++ [c])) rest
      else if isWs c = true then pass6Go (.afterW w [c]) rest
      else w ++ c :: pass6Go .idle rest := rfl

theorem pass6Go_rep_cons_remcons (w run cons : List Char) (h : Char) (t : List Char)
    (c : Char) (rest : List Char) :
    pass6Go (.rep w run cons (h :: t)) (c :: rest) =
      if isWordChar c = true then
        (if ciEq c h then pass6Go (.rep w run (cons ++ [c]) t) rest
         else w ++ run ++ pass6Go (.reading (cons ++ [c])) rest)
      else if isWs c = true then w ++ run ++ pass6Go (.afterW cons [c]) rest
      else w ++ run ++ cons ++ c :: pass6Go .idle rest := rfl

theorem pass6Go_afterW_cons_ws (w run : List Char) (c : Char) (hc : isWs c = true)
    (rest : List Char) :
    pass6Go (.afterW w run) (c :: rest) = pass6Go (.afterW w (run ++ [c])) rest := by
  cases w with
  | nil => rw [pass6Go_afterW_cons_wnil, if_pos hc]
  | cons h t => rw [pass6Go_afterW_cons_wcons, if_pos hc]

theorem pass6Go_rep_cons_ws (w run cons rem : List Char) (c : Char)
    (hc : isWs c = true) (rest : List Char) :
    pass6Go (.rep w run cons rem) (c :: rest) =
      if rem = [] then pass6Go (.afterW w [c]) rest
      else w ++ run ++ pass6Go (.afterW cons [c]) rest := by
  have hw : isWordChar c = false := ws_not_word hc
  cases rem with
  | nil =>
      rw [pass6Go_rep_cons_remnil, if_neg (by simp [hw]), if_pos hc, if_pos rfl]
  | cons h t =>
      rw [pass6Go_rep_cons_remcons, if_neg (by simp [hw]), if_pos hc,
        if_neg (List.cons_ne_nil h t)]

theorem pass6_cons_nonword (c : Char) (h : isWordChar c = false) (s : List Char) :
    pass6 (c :: s) = c :: pass6 s := by
  rw [pass6, pass6Go_idle_cons, if_neg (by simp [h])]; rfl

theorem pass6Go_append_ws (c : Char) (hc : isWs c = true) :
    ∀ (s : List Char) (st : DupSt),
      pass6Go st (s ++ [c]) = pass6Go st s ++ [c] := by
  have hw : isWordChar c = false := ws_not_word hc
  intro s
  induction s with
  | nil =>
      intro st
      cases st with
      | idle => rw [List.nil_append, pass6Go_idle_cons, if_neg (by simp [hw])]; rfl
      | reading w =>
          rw [List.nil_append, pass6Go_reading_cons, if_neg (by simp [hw]), if_pos hc]
          rfl
      | afterW w run =>
          rw [List.nil_append, pass6Go_afterW_cons_ws w run c hc]
          show w ++ (run ++ [c]) = (w ++ run) ++ [c]
          exact (List.append_assoc w run [c]).symm
      | rep w run cons rem =>
          rw [List.nil_append, pass6Go_rep_cons_ws w run cons rem c hc,
            pass6Go_rep_nil]
          by_cases hrem : rem = []
          · rw [if_pos hrem, if_pos hrem]; rfl
          · rw [if_neg hrem, if_neg hrem]
            show (w ++ run) ++ (cons ++ [c]) = ((w ++ run) ++ cons) ++ [c]
            exact (List.append_assoc (w ++ run) cons [c]).symm
  | cons e s ih =>
      intro st
      rw [List.cons_append]
      cases st with
      | idle =>
          rw [pass6Go_idle_cons, pass6Go_idle_cons]
          by_cases he : isWordChar e = true
          · rw [if_pos he, if_pos he]; exact ih _
          · rw [if_neg he, if_neg he, ih .idle]; rfl
      | reading w =>
          rw [pass6Go_reading_cons, pass6Go_reading_cons]
          by_cases he : isWordChar e = true
          · rw [if_pos he, if_pos he]; exact ih _
          · rw [if_neg he, if_neg he]
            by_cases hew : isWs e = true
            · rw [if_pos hew, if_pos hew]; exact ih _
            · rw [if_neg hew, if_neg hew, ih .idle]
              simp [List.append_assoc]
      | afterW w run =>
          by_cases hew : isWs e = true
          · rw [pass6Go_afterW_cons_ws w run e hew, pass6Go_afterW_cons_ws w run e hew]
            exact ih _
          · cases w with
            | nil =>
                rw [pass6Go_afterW_cons_wnil, pass6Go_afterW_cons_wnil,
                  if_neg hew, if_neg hew]
                by_cases he : isWordChar e = true
                · rw [if_pos he, if_pos he, ih _]
                  simp [List.append_assoc]
                · rw [if_neg he, if_neg he, ih .idle]
                  simp [List.append_assoc]
            | cons h t =>
                rw [pass6Go_afterW_cons_wcons, pass6Go_afterW_cons_wcons,
                  if_neg hew, if_neg hew]
                by_cases he : isWordChar e = true
                · rw [if_pos he, if_pos he]
                  by_cases hci : ciEq e h
                  · rw [if_pos hci, if_pos hci]; exact ih _
                  · rw [if_neg hci, if_neg hci, ih _]
                    simp [List.append_assoc]
                · rw [if_neg he, if_neg he, ih .idle]
                  simp [List.append_assoc]
      | rep w run cons rem =>
          by_cases hew : isWs e = true
          · rw [pass6Go_rep_cons_ws w run cons rem e hew,
              pass6Go_rep_cons_ws w run cons rem e hew]
            by_cases hrem : rem = []
            · rw [if_pos hrem, if_pos hrem]; exact ih _
            · rw [if_neg hrem, if_neg hrem, ih _]
              simp [List.append_assoc]
          · cases rem with
            | nil =>
                rw [pass6Go_rep_cons_remnil, pass6Go_rep_cons_remnil,
                  if_neg hew, if_neg hew]
                by_cases he : isWordChar e = true
                · rw [if_pos he, if_pos he, ih _]
                  simp [List.append_assoc]
                · rw [if_neg he, if_neg he, ih .idle]
                  simp [List.append_assoc]
            | cons h t =>
                rw [pass6Go_rep_cons_remcons, pass6Go_rep_cons_remcons,
                  if_neg hew, if_neg hew]
                by_cases he : isWordChar e = true
                · rw [if_pos he, if_pos he]
                  by_cases hci : ciEq e h
                  · rw [if_pos hci, if_pos hci]; exact ih _
                  · rw [if_neg hci, if_neg hci, ih _]
                    simp [List.append_assoc]
                · rw [if_neg he, if_neg he, ih .idle]
                  simp [List.append_assoc]

/-! ## Pass 7 and pass 8 boundary lemmas -/

theorem pass7Go_none_eq_some_nil : ∀ z, pass7Go none z = pass7Go (some []) z := by
  intro z
  cases z with
  | nil => rfl
  | cons c rest =>
      rw [pass7Go_none_cons, pass7Go_some_cons]
      by_cases hw : isWs c = true
      · rw [if_pos hw, if_pos hw]; rfl
      · rw [if_neg hw, if_neg hw]
        by_cases hp : isPunct c = true
        · rw [if_pos hp]
        · rw [if_neg hp, List.nil_append]

theorem pass7Go_append_ws (c : Char) (hc : isWs c = true) :
    ∀ (z : List Char) (st : Option (List Char)),
      pass7Go st (z ++ [c]) = pass7Go st z ++ [c] := by
  intro z
  induction z with
  | nil =>
      intro st
      cases st with
      | none => rw [List.nil_append, pass7Go_none_cons, if_pos hc]; rfl
      | some acc => rw [List.nil_append, pass7Go_some_cons, if_pos hc]; rfl
  | cons e z ih =>
      intro st
      rw [List.cons_append]
      cases st with
      | none =>
          rw [pass7Go_none_cons, pass7Go_none_cons]
          by_cases hw : isWs e = true
          · rw [if_pos hw, if_pos hw]; exact ih _
          · rw [if_neg hw, if_neg hw, ih none]; rfl
      | some acc =>
          rw [pass7Go_some_cons, pass7Go_some_cons]
          by_cases hw : isWs e = true
          · rw [if_pos hw, if_pos hw]; exact ih _
          · rw [if_neg hw, if_neg hw]
            by_cases hp : isPunct e = true
            · rw [if_pos hp, if_pos hp, ih none]; rfl
            · rw [if_neg hp, if_neg hp, ih none, List.append_assoc]; rfl

theorem collapseWsGo_true_dropWhile : ∀ t : List Char,
    collapseWsGo true t = collapseWsGo false (t.dropWhile isWs) := by
  intro t
  induction t with
  | nil => rfl
  | cons d t ih =>
      by_cases hw : isWs d = true
      · rw [collapseWsGo_cons, if_pos hw, List.dropWhile_cons_of_pos hw]
        exact ih
      · rw [collapseWsGo_cons, if_neg hw, List.dropWhile_cons_of_neg hw,
          collapseWsGo_cons, if_neg hw]

theorem stripL_cons_ws (c : Char) (hc : isWs c = true) (X : List Char) :
    stripL (c :: X) = stripL X := by
  rw [stripL, stripL, List.dropWhile_cons_of_pos hc]

theorem stripL_collapse_dropWhile : ∀ t : List Char,
    stripL (collapseWsGo false t) = stripL (collapseWsGo false (t.dropWhile isWs)) := by
  intro t
  cases t with
  | nil => rfl
  | cons d t =>
      by_cases hw : isWs d = true
      · rw [collapseWsGo_cons, if_pos hw, List.dropWhile_cons_of_pos hw,
          if_neg (by decide : ¬ (false = true))]
        rw [stripL_cons_ws ' ' (by decide), collapseWsGo_true_dropWhile]
      · rw [List.dropWhile_cons_of_neg hw]

theorem pass8_cons_ws (c : Char) (hc : isWs c = true) (t : List Char) :
    pass8 (c :: t) = pass8 t := by
  rw [pass8, pass8, collapseWs, collapseWs, collapseWsGo_cons, if_pos hc,
    if_neg (by decide : ¬ (false = true)), stripL_cons_ws ' ' (by decide),
    collapseWsGo_true_dropWhile, ← stripL_collapse_dropWhile]

theorem pass8_wsrun_absorb : ∀ r : List Char, (∀ c ∈ r, isWs c = true) →
    ∀ X, pass8 (r ++ X) = pass8 X := by
  intro r hr
  induction r with
  | nil => intro X; rw [List.nil_append]
  | cons c r ih =>
      intro X
      rw [List.cons_append, pass8_cons_ws c (hr c (by simp))]
      exact ih (fun d hd => hr d (by simp [hd])) X

theorem pass8_wsrun_nil (r : List Char) (hr : ∀ c ∈ r, isWs c = true) :
    pass8 r = [] := by
  have h := pass8_wsrun_absorb r hr []
  rw [List.append_nil] at h
  rw [h]
  rfl

theorem collapseWsGo_append_ws (c : Char) (hc : isWs c = true) :
    ∀ (t : List Char) (b : Bool),
      collapseWsGo b (t ++ [c]) = collapseWsGo b t ++ [' '] ∨
      collapseWsGo b (t ++ [c]) = collapseWsGo b t := by
  intro t
  induction t with
  | nil =>
      intro b
      cases b with
      | false =>
          left
          rw [List.nil_append, collapseWsGo_cons, if_pos hc,
            if_neg (by decide : ¬ (false = true))]
          rfl
      | true => right; rw [List.nil_append, collapseWsGo_cons, if_pos hc, if_pos rfl]
  | cons e t ih =>
      intro b
      rw [List.cons_append, collapseWsGo_cons, collapseWsGo_cons]
      by_cases hw : isWs e = true
      · rw [if_pos hw, if_pos hw]
        cases b with
        | false =>
            rw [if_neg (by decide : ¬ (false = true)),
              if_neg (by decide : ¬ (false = true))]
            rcases ih true with h | h
            · left; rw [h]; rfl
            · right; rw [h]
        | true =>
            rw [if_pos rfl, if_pos rfl]
            exact ih true
      · rw [if_neg hw, if_neg hw]
        rcases ih false with h | h
        · left; rw [h]; rfl
        · right; rw [h]

theorem mem_takeWhile_ws {p : Char → Bool} : ∀ (l : List Char) (a : Char),
    a ∈ l.takeWhile p → p a = true := by
  intro l
  induction l with
  | nil => intro a ha; simp [List.takeWhile] at ha
  | cons c l ih =>
      intro a ha
      by_cases hc : p c = true
      · rw [List.takeWhile_cons_of_pos hc] at ha
        rcases List.mem_cons.1 ha with rfl | ha
        · exact hc
        · exact ih a ha
      · rw [List.takeWhile_cons_of_neg hc] at ha
        simp at ha

theorem stripL_append_ws (c : Char) (hc : isWs c = true) (X : List Char) :
    stripL (X ++ [c]) = stripL X := by
  rw [stripL, stripL]
  by_cases he : X.dropWhile isWs = []
  · rw [List.dropWhile_append]
    simp only [he, List.isEmpty_nil, if_true, reduceIte]
    rw [List.dropWhile_cons_of_pos hc]
    simp [he]
  · rw [List.dropWhile_append]
    simp only [List.isEmpty_eq_true, he, if_false, reduceIte]
    rw [List.reverse_append]
    show ((c :: (X.dropWhile isWs).reverse).dropWhile isWs).reverse = _
    rw [List.dropWhile_cons_of_pos hc]

theorem pass8_append_ws (c : Char) (hc : isWs c = true) (Y : List Char) :
    pass8 (Y ++ [c]) = pass8 Y := by
  rw [pass8, pass8, collapseWs, collapseWs]
  rcases collapseWsGo_append_ws c hc Y false with h | h
  · rw [h, stripL_append_ws ' ' (by decide)]
  · rw [h]

theorem pass78_run_irrelevant : ∀ (v acc1 acc2 : List Char),
    (∀ c ∈ acc1, isWs c = true) → (∀ c ∈ acc2, isWs c = true) →
    pass8 (pass7Go (some acc1) v) = pass8 (pass7Go (some acc2) v) := by
  intro v
  induction v with
  | nil =>
      intro acc1 acc2 h1 h2
      show pass8 acc1 = pass8 acc2
      rw [pass8_wsrun_nil acc1 h1, pass8_wsrun_nil acc2 h2]
  | cons e v ih =>
      intro acc1 acc2 h1 h2
      rw [pass7Go_some_cons, pass7Go_some_cons]
      by_cases hw : isWs e = true
      · rw [if_pos hw, if_pos hw]
        refine ih (acc1 ++ [e]) (acc2 ++ [e]) ?_ ?_ <;>
        · intro d hd
          rcases List.mem_append.1 hd with hd | hd
          · first
              | exact h1 d hd
              | exact h2 d hd
          · simp at hd; subst hd; exact hw
      · rw [if_neg hw, if_neg hw]
        by_cases hp : isPunct e = true
        · rw [if_pos hp, if_pos hp]
        · rw [if_neg hp, if_neg hp]
          show pass8 (acc1 ++ e :: pass7Go none v) = pass8 (acc2 ++ e :: pass7Go none v)
          rw [pass8_wsrun_absorb acc1 h1, pass8_wsrun_absorb acc2 h2]

theorem pass78_cons_ws (c : Char) (hc : isWs c = true) (v : List Char) :
    pass8 (pass7 (c :: v)) = pass8 (pass7 v) := by
  rw [pass7, pass7, pass7Go_none_cons, if_pos hc, pass7Go_none_eq_some_nil]
  exact pass78_run_irrelevant v [c] [] (by simpa using hc) (by simp)

theorem pass78_append_ws (c : Char) (hc : isWs c = true) (v : List Char) :
    pass8 (pass7 (v ++ [c])) = pass8 (pass7 v) := by
  rw [pass7, pass7, pass7Go_append_ws c hc v none, pass8_append_ws c hc]

/-! ## Whitespace at the boundary is invisible to the whole sanitizer -/

theorem sanitize_cons_ws (c : Char) (hc : isWs c = true) (x : List Char) :
    sanitize (c :: x) = sanitize x := by
  rw [sanitize, sanitize, stripTags_cons_ne '[' ']' c (ws_not_lbracket hc) x,
    stripTags_cons_ne '<' '>' c (ws_not_langle hc) _]
  rcases qblock_cons_ws c hc (stripTags '<' '>' (stripTags '[' ']' x)) with h | h
  · rw [h]
  · rw [h, pass6_cons_nonword c (ws_not_word hc), pass78_cons_ws c hc]

theorem sanitize_append_ws (c : Char) (hc : isWs c = true) (x : List Char) :
    sanitize (x ++ [c]) = sanitize x := by
  rw [sanitize, sanitize, stripTags, stripTags,
    stripTagsGo_append_ws '[' ']' c (ws_not_lbracket hc) (ws_not_rbracket hc) x none,
    ← stripTags, ← stripTags,
    stripTags, stripTags,
    stripTagsGo_append_ws '<' '>' c (ws_not_langle hc) (ws_not_rangle hc) _ none,
    ← stripTags, ← stripTags]
  rcases qblock_append_ws c hc (stripTags '<' '>' (stripTags '[' ']' x)) with h | h
  · rw [h]
  · rw [h, pass6, pass6Go_append_ws c hc _ .idle, ← pass6, pass78_append_ws c hc]

theorem sanitize_dropWhile_ws : ∀ s : List Char,
    sanitize (s.dropWhile isWs) = sanitize s := by
  intro s
  induction s with
  | nil => rfl
  | cons c s ih =>
      by_cases hc : isWs c = true
      · rw [List.dropWhile_cons_of_pos hc, ih, sanitize_cons_ws c hc]
      · rw [List.dropWhile_cons_of_neg hc]

theorem sanitize_append_wsrun : ∀ r : List Char, (∀ c ∈ r, isWs c = true) →
    ∀ t, sanitize (t ++ r) = sanitize t := by
  intro r
  induction r with
  | nil => intro _ t; rw [List.append_nil]
  | cons c r ih =>
      intro hr t
      rw [show t ++ c :: r = (t ++ [c]) ++ r by simp,
        ih (fun d hd => hr d (by simp [hd])) (t ++ [c]),
        sanitize_append_ws c (hr c (by simp))]

/-- Stripping boundary whitespace does not change the sanitized result. -/
theorem sanitize_stripL (s : List Char) : sanitize (stripL s) = sanitize s := by
  rw [stripL]
  have h1 : sanitize (s.dropWhile isWs) = sanitize s := sanitize_dropWhile_ws s
  rw [← h1]
  have h2 : (s.dropWhile isWs).reverse.takeWhile isWs ++
      (s.dropWhile isWs).reverse.dropWhile isWs = (s.dropWhile isWs).reverse :=
    List.takeWhile_append_dropWhile isWs (s.dropWhile isWs).reverse
  have h3 : s.dropWhile isWs =
      ((s.dropWhile isWs).reverse.dropWhile isWs).reverse ++
      ((s.dropWhile isWs).reverse.takeWhile isWs).reverse := by
    conv_lhs => rw [← List.reverse_reverse (s.dropWhile isWs), ← h2]
    rw [List.reverse_append]
  conv_rhs => rw [h3]
  rw [sanitize_append_wsrun]
  intro d hd
  rw [List.mem_reverse] at hd
  exact mem_takeWhile_ws _ d hd

/-- C5: the assembler output is the sanitizer applied to the concatenated
fragments (or to the raw body when there are none): the intermediate
`.strip()` is absorbed by the sanitizer. -/
theorem C5_assembler_is_sanitize_of_concat (ps : List String) (tb : List Char) :
    assembleSanitized ps tb =
      if ps = [] then sanitize tb else sanitize (joinPieces ps) := by
  rw [assembleSanitized, replyTextOf]
  by_cases h : ps = []
  · rw [if_pos h, if_pos h, sanitize_stripL]
  · rw [if_neg h, if_neg h, sanitize_stripL]

/-! ## Adjacency-predicate toolbox -/

theorem noAdj_nil (p : Char → Char → Bool) : noAdj p [] = true := rfl

theorem noAdj_one (p : Char → Char → Bool) (a : Char) : noAdj p [a] = true := rfl

theorem noAdj_cons_cons (p : Char → Char → Bool) (a b : Char) (r : List Char) :
    noAdj p (a :: b :: r) = (!p a b && noAdj p (b :: r)) := rfl

theorem noAdj_tail {p : Char → Char → Bool} {a : Char} {r : List Char}
    (h : noAdj p (a :: r) = true) : noAdj p r = true := by
  cases r with
  | nil => rfl
  | cons b r =>
      rw [noAdj_cons_cons, Bool.and_eq_true] at h
      exact h.2

theorem noAdj_head {p : Char → Char → Bool} {a b : Char} {r : List Char}
    (h : noAdj p (a :: b :: r) = true) : p a b = false := by
  rw [noAdj_cons_cons, Bool.and_eq_true] at h
  simpa using h.1

theorem noAdj_intro_cons {p : Char → Char → Bool} {a b : Char} {r : List Char}
    (h1 : p a b = false) (h2 : noAdj p (b :: r) = true) :
    noAdj p (a :: b :: r) = true := by
  rw [noAdj_cons_cons, h1, h2]
  rfl

theorem noAdj_append_right {p : Char → Char → Bool} :
    ∀ (A B : List Char), noAdj p (A ++ B) = true → noAdj p B = true := by
  intro A
  induction A with
  | nil => intro B h; exact h
  | cons a A ih => intro B h; exact ih B (noAdj_tail h)

theorem noAdj_append_left {p : Char → Char → Bool} :
    ∀ (A B : List Char), noAdj p (A ++ B) = true → noAdj p A = true := by
  intro A
  induction A with
  | nil => intro B _; rfl
  | cons a A ih =>
      intro B h
      cases A with
      | nil => rfl
      | cons b A2 =>
          exact noAdj_intro_cons (noAdj_head h) (ih B (noAdj_tail h))

theorem noAdj_infix {p : Char → Char → Bool} (A M B : List Char)
    (h : noAdj p (A ++ M ++ B) = true) : noAdj p M = true :=
  noAdj_append_left M B (noAdj_append_right A (M ++ B) (by simpa [List.append_assoc] using h))

theorem glast_cons {a b : Char} {l : List Char} :
    (a :: b :: l).getLast? = (b :: l).getLast? := rfl

theorem noAdj_append_intro {p : Char → Char → Bool} :
    ∀ (A B : List Char), noAdj p A = true → noAdj p B = true →
      (∀ a b, A.getLast? = some a → B.head? = some b → p a b = false) →
      noAdj p (A ++ B) = true := by
  intro A
  induction A with
  | nil => intro B _ hB _; exact hB
  | cons a A ih =>
      intro B hA hB hj
      cases A with
      | nil =>
          cases B with
          | nil => rfl
          | cons b B2 =>
              exact noAdj_intro_cons (hj a b rfl rfl) hB
      | cons a2 A2 =>
          refine noAdj_intro_cons (noAdj_head hA) ?_
          exact ih B (noAdj_tail hA) hB
            (fun x y hx hy => hj x y ((@glast_cons a a2 A2).trans hx) hy)

/-- Every adjacent pair of a whitespace run is whitespace-whitespace, so a
predicate whose pairs are never both-whitespace-with-the-given-shape holds.
Specialised forms for the runs the machines buffer. -/
theorem noAdj_of_all {p : Char → Char → Bool} (q : Char → Bool)
    (hq : ∀ a b, q a = true → q b = true → p a b = false) :
    ∀ l : List Char, (∀ c ∈ l, q c = true) → noAdj p l = true := by
  intro l
  induction l with
  | nil => intro _; rfl
  | cons a l ih =>
      intro hl
      cases l with
      | nil => rfl
      | cons b l2 =>
          refine noAdj_intro_cons (hq a b (hl a (by simp)) (hl b (by simp))) ?_
          exact ih (fun c hc => hl c (by simp [hc]))

/-! ## The no-pair predicate and its bridges to `hasTagMatch` -/

theorem noPairB_nil (op cl : Char) (seen : Bool) : noPairB op cl seen [] = true := rfl

theorem noPairB_cons (op cl : Char) (seen : Bool) (c : Char) (r : List Char) :
    noPairB op cl seen (c :: r) =
      if seen = true ∧ c = cl then false
      else noPairB op cl (seen || c = op) r := rfl

theorem noPairB_mono_seen (op cl : Char) :
    ∀ r : List Char, noPairB op cl true r = true → noPairB op cl false r = true := by
  intro r
  induction r with
  | nil => intro _; rfl
  | cons c r ih =>
      intro h
      rw [noPairB_cons] at h
      by_cases hc : c = cl
      · rw [if_pos ⟨rfl, hc⟩] at h; exact absurd h (by simp)
      · rw [if_neg (fun hx => hc hx.2), Bool.true_or] at h
        rw [noPairB_cons, if_neg (fun hx => Bool.false_ne_true hx.1), Bool.false_or]
        by_cases ho : c = op
        · rw [show (decide (c = op)) = true by simp [ho]]
          exact h
        · rw [show (decide (c = op)) = false by simp [ho]]
          exact ih h

theorem noPairB_of_no_cl (op cl : Char) :
    ∀ r : List Char, cl ∉ r → ∀ seen, noPairB op cl seen r = true := by
  intro r
  induction r with
  | nil => intro _ _; rfl
  | cons c r ih =>
      intro h seen
      have hc : c ≠ cl := fun he => h (List.mem_cons.2 (Or.inl he.symm))
      rw [noPairB_cons, if_neg (fun hx => hc hx.2)]
      exact ih (fun hm => h (List.mem_cons.2 (Or.inr hm))) _

theorem noPairB_true_no_cl (op cl : Char) :
    ∀ r : List Char, noPairB op cl true r = true → cl ∉ r := by
  intro r
  induction r with
  | nil => intro _ hm; simp at hm
  | cons d r ih =>
      intro h hm
      rw [noPairB_cons] at h
      by_cases hd : d = cl
      · rw [if_pos ⟨rfl, hd⟩] at h; exact absurd h (by simp)
      · rw [if_neg (fun hx => hd hx.2), Bool.true_or] at h
        rcases List.mem_cons.1 hm with he | hm2
        · exact hd he.symm
        · exact ih h hm2

theorem no_cl_of_closeReachable_false (cl : Char) :
    ∀ r : List Char, '\n' ∉ r → closeReachable cl r = false → cl ∉ r := by
  intro r
  induction r with
  | nil => intro _ _ hm; simp at hm
  | cons c r ih =>
      intro hnl hcr hm
      rw [closeReachable] at hcr
      by_cases hc : c = cl
      · rw [if_pos hc] at hcr; exact absurd hcr (by simp)
      · rw [if_neg hc] at hcr
        have hn : c ≠ '\n' := fun he => hnl (List.mem_cons.2 (Or.inl he.symm))
        rw [if_neg hn] at hcr
        rcases List.mem_cons.1 hm with he | hm2
        · exact hc he.symm
        · exact ih (fun hx => hnl (List.mem_cons.2 (Or.inr hx))) hcr hm2

theorem closeReachable_false_of_no_cl (cl : Char) (r : List Char) (h : cl ∉ r) :
    closeReachable cl r = false := by
  refine closeReachable_of_no_cl cl r ?_
  simp only [List.all_eq_true, decide_eq_true_eq]
  intro c hc he
  exact h (he ▸ hc)

theorem hasTagMatch_false_of_noPairB (op cl : Char) :
    ∀ s : List Char, noPairB op cl false s = true → hasTagMatch op cl s = false := by
  intro s
  induction s with
  | nil => intro _; rfl
  | cons c r ih =>
      intro h
      rw [noPairB_cons, if_neg (fun hx => Bool.false_ne_true hx.1), Bool.false_or] at h
      rw [hasTagMatch]
      by_cases hc : c = op
      · have h1 : noPairB op cl true r = true := by
          rw [show (decide (c = op)) = true by simp [hc]] at h
          exact h
        have hnc : cl ∉ r := noPairB_true_no_cl op cl r h1
        rw [closeReachable_false_of_no_cl cl r hnc, ih (noPairB_mono_seen op cl r h1)]
        simp
      · rw [show (decide (c = op)) = false by simp [hc]] at h
        rw [ih h]
        simp [hc]

theorem noPairB_of_hasTagMatch_false (op cl : Char) :
    ∀ s : List Char, '\n' ∉ s → hasTagMatch op cl s = false →
      noPairB op cl false s = true := by
  intro s
  induction s with
  | nil => intro _ _; rfl
  | cons c r ih =>
      intro hnl hm
      rw [hasTagMatch, Bool.or_eq_false_iff, Bool.and_eq_false_iff] at hm
      rw [noPairB_cons, if_neg (fun hx => Bool.false_ne_true hx.1), Bool.false_or]
      by_cases hc : c = op
      · rcases hm.1 with h | h
        · exact absurd hc (by simpa using h)
        · have hncl : cl ∉ r :=
            no_cl_of_closeReachable_false cl r
              (fun hx => hnl (List.mem_cons.2 (Or.inr hx))) h
          rw [show (decide (c = op)) = true by simp [hc]]
          exact noPairB_of_no_cl op cl r hncl true
      · rw [show (decide (c = op)) = false by simp [hc]]
        exact ih (fun hx => hnl (List.mem_cons.2 (Or.inr hx))) hm.2

/-! ## The refinement relation and its preservation facts -/

theorem WSub.refl : ∀ l : List Char, WSub l l := by
  intro l
  induction l with
  | nil => exact WSub.nil
  | cons c l ih => exact WSub.keep c ih

theorem WSub.skipAll : ∀ (j : List Char) {l m : List Char}, WSub l m → WSub (j ++ l) m := by
  intro j
  induction j with
  | nil => intro l m h; exact h
  | cons c j ih => intro l m h; exact WSub.skip c (ih h)

theorem WSub.keepPrefix : ∀ (p : List Char) {l m : List Char}, WSub l m →
    WSub (p ++ l) (p ++ m) := by
  intro p
  induction p with
  | nil => intro l m h; exact h
  | cons c p ih => intro l m h; exact WSub.keep c (ih h)

theorem WSub.prefixOnly : ∀ (p q : List Char), WSub (p ++ q) p := by
  intro p q
  induction p with
  | nil =>
      have h := WSub.skipAll q (WSub.nil)
      rw [List.append_nil] at h
      exact h
  | cons c p ih => exact WSub.keep c ih

theorem WSub.graft : ∀ (a j : List Char) {b m : List Char}, WSub (a ++ b) m →
    WSub (a ++ (j ++ b)) m := by
  intro a
  induction a with
  | nil => intro j b m h; exact WSub.skipAll j h
  | cons c a ih =>
      intro j b m h
      rw [List.cons_append] at h ⊢
      cases h with
      | skip _ h2 => exact WSub.skip c (ih j h2)
      | keep _ h2 => exact WSub.keep c (ih j h2)
      | subst hw h2 => exact WSub.subst hw (ih j h2)

theorem WSub.no_nl {l m : List Char} (h : WSub l m) (hnl : '\n' ∉ l) : '\n' ∉ m := by
  induction h with
  | nil => exact hnl
  | skip c h2 ih => exact ih (fun hx => hnl (List.mem_cons.2 (Or.inr hx)))
  | keep c h2 ih =>
      intro hm
      rcases List.mem_cons.1 hm with he | hm2
      · exact hnl (List.mem_cons.2 (Or.inl he))
      · exact ih (fun hx => hnl (List.mem_cons.2 (Or.inr hx))) hm2
  | subst hw h2 ih =>
      intro hm
      rcases List.mem_cons.1 hm with he | hm2
      · exact absurd he (by decide)
      · exact ih (fun hx => hnl (List.mem_cons.2 (Or.inr hx))) hm2

theorem noPairB_WSub (op cl : Char) (hop : isWs op = false) (hcl : isWs cl = false)
    {l m : List Char} (h : WSub l m) :
    ∀ seen, noPairB op cl seen l = true → noPairB op cl seen m = true := by
  induction h with
  | nil => intro _ _; rfl
  | skip c h2 ih =>
      intro seen hl
      rw [noPairB_cons] at hl
      by_cases hcc : seen = true ∧ c = cl
      · rw [if_pos hcc] at hl; exact absurd hl (by simp)
      · rw [if_neg hcc] at hl
        by_cases ho : c = op
        · rw [show (decide (c = op)) = true by simp [ho], Bool.or_true] at hl
          have h1 := ih true hl
          cases seen with
          | true => exact h1
          | false => exact noPairB_mono_seen op cl _ h1
        · rw [show (decide (c = op)) = false by simp [ho], Bool.or_false] at hl
          exact ih seen hl
  | keep c h2 ih =>
      intro seen hl
      rw [noPairB_cons] at hl
      rw [noPairB_cons]
      by_cases hcc : seen = true ∧ c = cl
      · rw [if_pos hcc] at hl; exact absurd hl (by simp)
      · rw [if_neg hcc] at hl
        rw [if_neg hcc]
        exact ih _ hl
  | @subst l2 m2 c hw h2 ih =>
      intro seen hl
      have hcw : c ≠ cl := fun he => absurd (he ▸ hw) (by simp [hcl])
      have hco : c ≠ op := fun he => absurd (he ▸ hw) (by simp [hop])
      have hsw : isWs ' ' = true := by decide
      have hscl : (' ' : Char) ≠ cl := fun he => absurd (he ▸ hsw) (by simp [hcl])
      have hsop : (' ' : Char) ≠ op := fun he => absurd (he ▸ hsw) (by simp [hop])
      rw [noPairB_cons, if_neg (fun hx => hcw hx.2),
        show (decide (c = op)) = false by simp [hco], Bool.or_false] at hl
      rw [noPairB_cons, if_neg (fun hx => hscl hx.2),
        show (decide ((' ' : Char) = op)) = false by simp [hsop], Bool.or_false]
      exact ih seen hl

/-! ## Each pass refines its input (deletions and ws-to-space only) -/

theorem WSub_stripTagsGo (op cl : Char) : ∀ s : List Char,
    WSub s (stripTagsGo op cl none s) ∧
    ∀ acc, WSub (op :: acc ++ s) (stripTagsGo op cl (some acc) s) := by
  intro s
  induction s with
  | nil =>
      refine ⟨WSub.nil, fun acc => ?_⟩
      show WSub (op :: acc ++ []) (op :: acc)
      rw [List.append_nil]
      exact WSub.refl _
  | cons c rest ih =>
      constructor
      · rw [stripTagsGo_none_cons]
        by_cases hc : c = op
        · rw [if_pos hc, hc]
          exact ih.2 []
        · rw [if_neg hc]
          exact WSub.keep c ih.1
      · intro acc
        rw [stripTagsGo_some_cons]
        by_cases hc : c = cl
        · rw [if_pos hc]
          have h2 := WSub.skipAll (op :: acc ++ [c]) ih.1
          simpa [List.append_assoc] using h2
        · rw [if_neg hc]
          by_cases hn : c = '\n'
          · rw [if_pos hn, hn]
            exact WSub.keepPrefix (op :: acc) (WSub.keep '\n' ih.1)
          · rw [if_neg hn]
            have h := ih.2 (acc ++ [c])
            simpa [List.append_assoc] using h

theorem WSub_stripTags (op cl : Char) (s : List Char) :
    WSub s (stripTags op cl s) := (WSub_stripTagsGo op cl s).1

theorem WSub_pass3Go : ∀ s : List Char,
    WSub s (pass3Go .main s) ∧
    (∀ acc, WSub (acc ++ s) (pass3Go (.run acc) s)) ∧
    (∀ acc, WSub (acc ++ quoteChar :: s) (pass3Go (.sawQ acc) s)) ∧
    WSub s (pass3Go .absorb s) := by
  intro s
  induction s with
  | nil =>
      refine ⟨WSub.nil, fun acc => ?_, fun acc => ?_, WSub.nil⟩
      · show WSub (acc ++ []) acc
        rw [List.append_nil]; exact WSub.refl _
      · show WSub (acc ++ quoteChar :: []) (acc ++ [quoteChar])
        exact WSub.refl _
  | cons c rest ih =>
      obtain ⟨ihm, ihr, ihq, iha⟩ := ih
      refine ⟨?_, fun acc => ?_, fun acc => ?_, ?_⟩
      · rw [pass3Go_main_cons]
        by_cases hw : isWs c = true
        · rw [if_pos hw]; exact ihr [c]
        · rw [if_neg hw]; exact WSub.keep c ihm
      · rw [pass3Go_run_cons]
        by_cases hw : isWs c = true
        · rw [if_pos hw]
          have h := ihr (acc ++ [c])
          simpa [List.append_assoc] using h
        · rw [if_neg hw]
          by_cases hq : c = quoteChar
          · rw [if_pos hq, hq]; exact ihq acc
          · rw [if_neg hq]
            exact WSub.keepPrefix acc (WSub.keep c ihm)
      · rw [pass3Go_sawQ_cons]
        by_cases hw : isWs c = true
        · rw [if_pos hw]
          exact WSub.skipAll acc (WSub.keep quoteChar (WSub.skip c iha))
        · rw [if_neg hw]
          by_cases hq : c = quoteChar
          · rw [if_pos hq, hq]
            exact WSub.keepPrefix acc
              (WSub.keep quoteChar (WSub.keep quoteChar ihm))
          · rw [if_neg hq]
            exact WSub.keepPrefix acc (WSub.keep quoteChar (WSub.keep c ihm))
      · rw [pass3Go_absorb_cons]
        by_cases hw : isWs c = true
        · rw [if_pos hw]; exact WSub.skip c iha
        · rw [if_neg hw]
          by_cases hq : c = quoteChar
          · rw [if_pos hq, hq]; exact WSub.keep quoteChar ihm
          · rw [if_neg hq]; exact WSub.keep c ihm

theorem WSub_pass4Go : ∀ s : List Char,
    WSub s (pass4Go none s) ∧ ∀ acc, WSub (acc ++ s) (pass4Go (some acc) s) := by
  intro s
  induction s with
  | nil =>
      refine ⟨WSub.nil, fun acc => ?_⟩
      show WSub (acc ++ []) acc
      rw [List.append_nil]; exact WSub.refl _
  | cons c rest ih =>
      constructor
      · rw [pass4Go_none_cons]
        by_cases hw : isWs c = true
        · rw [if_pos hw]; exact ih.2 [c]
        · rw [if_neg hw]; exact WSub.keep c ih.1
      · intro acc
        rw [pass4Go_some_cons]
        by_cases hw : isWs c = true
        · rw [if_pos hw]
          have h := ih.2 (acc ++ [c])
          simpa [List.append_assoc] using h
        · rw [if_neg hw]
          by_cases hq : c = quoteChar
          · rw [if_pos hq, hq]
            exact WSub.skipAll acc (WSub.keep quoteChar ih.1)
          · rw [if_neg hq]
            exact WSub.keepPrefix acc (WSub.keep c ih.1)

theorem WSub_pass5Go : ∀ s : List Char,
    WSub s (pass5Go false s) ∧ WSub s (pass5Go true s) := by
  intro s
  induction s with
  | nil => exact ⟨WSub.nil, WSub.nil⟩
  | cons c rest ih =>
      constructor
      · rw [pass5Go_false_cons]
        by_cases hq : c = quoteChar
        · rw [if_pos hq, hq]; exact WSub.keep quoteChar ih.2
        · rw [if_neg hq]; exact WSub.keep c ih.1
      · rw [pass5Go_true_cons]
        by_cases hw : isWs c = true
        · rw [if_pos hw]; exact WSub.skip c ih.2
        · rw [if_neg hw]
          by_cases hq : c = quoteChar
          · rw [if_pos hq, hq]; exact WSub.keep quoteChar ih.2
          · rw [if_neg hq]; exact WSub.keep c ih.1

theorem WSub_pass6Go : ∀ s : List Char,
    WSub s (pass6Go .idle s) ∧
    (∀ w, WSub (w ++ s) (pass6Go (.reading w) s)) ∧
    (∀ w run, WSub (w ++ run ++ s) (pass6Go (.afterW w run) s)) ∧
    (∀ w run cons rem, WSub (w ++ run ++ cons ++ s)
      (pass6Go (.rep w run cons rem) s)) := by
  intro s
  induction s with
  | nil =>
      refine ⟨WSub.nil, fun w => ?_, fun w run => ?_, fun w run cons rem => ?_⟩
      · show WSub (w ++ []) w
        rw [List.append_nil]; exact WSub.refl _
      · show WSub (w ++ run ++ []) (w ++ run)
        rw [List.append_nil]; exact WSub.refl _
      · rw [pass6Go_rep_nil]
        by_cases hrem : rem = []
        · rw [if_pos hrem]
          have h := WSub.prefixOnly w (run ++ cons ++ [])
          simpa [List.append_assoc] using h
        · rw [if_neg hrem]
          show WSub (w ++ run ++ cons ++ []) (w ++ run ++ cons)
          rw [List.append_nil]; exact WSub.refl _
  | cons c rest ih =>
      obtain ⟨ihi, ihr, iha, ihp⟩ := ih
      refine ⟨?_, fun w => ?_, fun w run => ?_, fun w run cons rem => ?_⟩
      · rw [pass6Go_idle_cons]
        by_cases hc : isWordChar c = true
        · rw [if_pos hc]; exact ihr [c]
        · rw [if_neg hc]; exact WSub.keep c ihi
      · rw [pass6Go_reading_cons]
        by_cases hc : isWordChar c = true
        · rw [if_pos hc]
          have h := ihr (w ++ [c])
          simpa [List.append_assoc] using h
        · rw [if_neg hc]
          by_cases hw : isWs c = true
          · rw [if_pos hw]
            have h := iha w [c]
            simpa [List.append_assoc] using h
          · rw [if_neg hw]
            exact WSub.keepPrefix w (WSub.keep c ihi)
      · by_cases hw : isWs c = true
        · rw [pass6Go_afterW_cons_ws w run c hw]
          have h := iha w (run ++ [c])
          simpa [List.append_assoc] using h
        · cases w with
          | nil =>
              rw [pass6Go_afterW_cons_wnil, if_neg hw]
              by_cases hc : isWordChar c = true
              · rw [if_pos hc]
                have h := WSub.keepPrefix ([] ++ run) (ihr [c])
                simpa [List.append_assoc] using h
              · rw [if_neg hc]
                have h := WSub.keepPrefix ([] ++ run) (WSub.keep c ihi)
                simpa [List.append_assoc] using h
          | cons h0 t0 =>
              rw [pass6Go_afterW_cons_wcons, if_neg hw]
              by_cases hc : isWordChar c = true
              · rw [if_pos hc]
                by_cases hci : ciEq c h0
                · rw [if_pos hci]
                  have h := ihp (h0 :: t0) run [c] t0
                  simpa [List.append_assoc] using h
                · rw [if_neg hci]
                  have h := WSub.keepPrefix ((h0 :: t0) ++ run) (ihr [c])
                  simpa [List.append_assoc] using h
              · rw [if_neg hc]
                have h := WSub.keepPrefix ((h0 :: t0) ++ run) (WSub.keep c ihi)
                simpa [List.append_assoc] using h
      · by_cases hc : isWordChar c = true
        · cases rem with
          | nil =>
              rw [pass6Go_rep_cons_remnil, if_pos hc]
              have h := WSub.keepPrefix (w ++ run) (ihr (cons ++ [c]))
              simpa [List.append_assoc] using h
          | cons h0 t0 =>
              rw [pass6Go_rep_cons_remcons, if_pos hc]
              by_cases hci : ciEq c h0
              · rw [if_pos hci]
                have h := ihp w run (cons ++ [c]) t0
                simpa [List.append_assoc] using h
              · rw [if_neg hci]
                have h := WSub.keepPrefix (w ++ run) (ihr (cons ++ [c]))
                simpa [List.append_assoc] using h
        · by_cases hw : isWs c = true
          · rw [pass6Go_rep_cons_ws w run cons rem c hw]
            by_cases hrem : rem = []
            · rw [if_pos hrem]
              have h0 : WSub (w ++ ([c] ++ rest)) (pass6Go (.afterW w [c]) rest) := by
                have h := iha w [c]
                simpa [List.append_assoc] using h
              have h := WSub.graft w (run ++ cons) h0
              simpa [List.append_assoc] using h
            · rw [if_neg hrem]
              have h := WSub.keepPrefix (w ++ run) (iha cons [c])
              simpa [List.append_assoc] using h
          · cases rem with
            | nil =>
                rw [pass6Go_rep_cons_remnil, if_neg hc, if_neg hw]
                have h := WSub.graft w (run ++ cons)
                  (WSub.keepPrefix w (WSub.keep c ihi))
                simpa [List.append_assoc] using h
            | cons h0 t0 =>
                rw [pass6Go_rep_cons_remcons, if_neg hc, if_neg hw]
                have h := WSub.keepPrefix (w ++ run ++ cons) (WSub.keep c ihi)
                simpa [List.append_assoc] using h

theorem WSub_pass7Go : ∀ s : List Char,
    WSub s (pass7Go none s) ∧ ∀ acc, WSub (acc ++ s) (pass7Go (some acc) s) := by
  intro s
  induction s with
  | nil =>
      refine ⟨WSub.nil, fun acc => ?_⟩
      show WSub (acc ++ []) acc
      rw [List.append_nil]; exact WSub.refl _
  | cons c rest ih =>
      constructor
      · rw [pass7Go_none_cons]
        by_cases hw : isWs c = true
        · rw [if_pos hw]; exact ih.2 [c]
        · rw [if_neg hw]; exact WSub.keep c ih.1
      · intro acc
        rw [pass7Go_some_cons]
        by_cases hw : isWs c = true
        · rw [if_pos hw]
          have h := ih.2 (acc ++ [c])
          simpa [List.append_assoc] using h
        · rw [if_neg hw]
          by_cases hp : isPunct c = true
          · rw [if_pos hp]
            exact WSub.skipAll acc (WSub.keep c ih.1)
          · rw [if_neg hp]
            exact WSub.keepPrefix acc (WSub.keep c ih.1)

theorem WSub_collapseWsGo : ∀ s : List Char,
    WSub s (collapseWsGo false s) ∧ WSub s (collapseWsGo true s) := by
  intro s
  induction s with
  | nil => exact ⟨WSub.nil, WSub.nil⟩
  | cons c rest ih =>
      constructor
      · rw [collapseWsGo_cons]
        by_cases hw : isWs c = true
        · rw [if_pos hw, if_neg (by decide : ¬ (false = true))]
          exact WSub.subst hw ih.2
        · rw [if_neg hw]; exact WSub.keep c ih.1
      · rw [collapseWsGo_cons]
        by_cases hw : isWs c = true
        · rw [if_pos hw, if_pos rfl]
          exact WSub.skip c ih.2
        · rw [if_neg hw]; exact WSub.keep c ih.1

theorem stripL_decomp (s : List Char) :
    s = s.takeWhile isWs ++
      (stripL s ++ ((s.dropWhile isWs).reverse.takeWhile isWs).reverse) := by
  conv_lhs => rw [← List.takeWhile_append_dropWhile isWs s]
  congr 1
  rw [stripL]
  conv_lhs => rw [← List.reverse_reverse (s.dropWhile isWs),
    ← List.takeWhile_append_dropWhile isWs (s.dropWhile isWs).reverse]
  rw [List.reverse_append]

theorem WSub_stripL (s : List Char) : WSub s (stripL s) := by
  conv_lhs => rw [stripL_decomp s]
  exact WSub.skipAll _ (WSub.prefixOnly _ _)

/-! ## Adjacency facts at the pass outputs -/

theorem noAdj_cons_all {p : Char → Char → Bool} {a : Char} {X : List Char}
    (h1 : ∀ b, p a b = false) (h2 : noAdj p X = true) : noAdj p (a :: X) = true := by
  cases X with
  | nil => rfl
  | cons b X2 => exact noAdj_intro_cons (h1 b) h2

theorem noAdj_cons_head {p : Char → Char → Bool} {a : Char} {X : List Char}
    (h1 : ∀ b, X.head? = some b → p a b = false) (h2 : noAdj p X = true) :
    noAdj p (a :: X) = true := by
  cases X with
  | nil => rfl
  | cons b X2 => exact noAdj_intro_cons (h1 b rfl) h2

theorem headNotWs_head {X : List Char} {b : Char} (h : headNotWs X = true)
    (hb : X.head? = some b) : isWs b = false := by
  cases X with
  | nil => simp at hb
  | cons c X2 =>
      have hcb := Option.some.inj hb
      subst hcb
      simpa [headNotWs] using h

theorem pWQ_of_not_ws {a : Char} (h : isWs a = false) (b : Char) : pWQ a b = false := by
  rw [pWQ, h, Bool.false_and]

theorem pWQ_of_ne_quote {b : Char} (h : b ≠ quoteChar) (a : Char) : pWQ a b = false := by
  rw [pWQ]; simp [h]

theorem pQW_of_ne_quote {a : Char} (h : a ≠ quoteChar) (b : Char) : pQW a b = false := by
  rw [pQW]; simp [h]

theorem pQW_of_not_ws {b : Char} (h : isWs b = false) (a : Char) : pQW a b = false := by
  rw [pQW, h, Bool.and_false]

theorem pWP_of_not_ws {a : Char} (h : isWs a = false) (b : Char) : pWP a b = false := by
  rw [pWP, h, Bool.false_and]

theorem pWP_of_not_punct {b : Char} (h : isPunct b = false) (a : Char) : pWP a b = false := by
  rw [pWP, h, Bool.and_false]

theorem noAdjWQ_wsrun {acc : List Char} (hacc : ∀ c ∈ acc, isWs c = true) :
    noAdj pWQ acc = true :=
  noAdj_of_all isWs (fun _ b _ hb => pWQ_of_ne_quote (ws_not_quote hb) _) acc hacc

theorem noAdjWP_wsrun {acc : List Char} (hacc : ∀ c ∈ acc, isWs c = true) :
    noAdj pWP acc = true :=
  noAdj_of_all isWs (fun _ b _ hb => pWP_of_not_punct (ws_not_punct hb) _) acc hacc

/-- After pass 4 no whitespace character immediately precedes a quote. -/
theorem pass4_out_noAdjWQ : ∀ s : List Char,
    noAdj pWQ (pass4Go none s) = true ∧
    ∀ acc, (∀ c ∈ acc, isWs c = true) → noAdj pWQ (pass4Go (some acc) s) = true := by
  intro s
  induction s with
  | nil =>
      exact ⟨rfl, fun acc hacc => noAdjWQ_wsrun hacc⟩
  | cons c rest ih =>
      constructor
      · rw [pass4Go_none_cons]
        by_cases hw : isWs c = true
        · rw [if_pos hw]
          exact ih.2 [c] (by simpa using hw)
        · rw [if_neg hw]
          exact noAdj_cons_all (pWQ_of_not_ws (by simpa using hw)) ih.1
      · intro acc hacc
        rw [pass4Go_some_cons]
        by_cases hw : isWs c = true
        · rw [if_pos hw]
          refine ih.2 (acc ++ [c]) ?_
          intro d hd
          rcases List.mem_append.1 hd with hd | hd
          · exact hacc d hd
          · simp at hd; subst hd; exact hw
        · rw [if_neg hw]
          by_cases hq : c = quoteChar
          · rw [if_pos hq]
            exact noAdj_cons_all (pWQ_of_not_ws quote_not_ws) ih.1
          · rw [if_neg hq]
            refine noAdj_append_intro acc (c :: pass4Go none rest)
              (noAdjWQ_wsrun hacc) ?_ ?_
            · exact noAdj_cons_all (pWQ_of_not_ws (by simpa using hw)) ih.1
            · intro a b _ hb
              have hbc := Option.some.inj hb
              subst hbc
              exact pWQ_of_ne_quote hq a

theorem headNotWs_pass5Go_true : ∀ s : List Char,
    headNotWs (pass5Go true s) = true := by
  intro s
  induction s with
  | nil => rfl
  | cons c rest ih =>
      rw [pass5Go_true_cons]
      by_cases hw : isWs c = true
      · rw [if_pos hw]; exact ih
      · rw [if_neg hw]
        by_cases hq : c = quoteChar
        · rw [if_pos hq]
          simp [headNotWs, quote_not_ws]
        · rw [if_neg hq]
          simpa [headNotWs] using (by simpa using hw : isWs c = false)

/-- After pass 5 no whitespace character immediately follows a quote. -/
theorem pass5_out_noAdjQW : ∀ s : List Char,
    noAdj pQW (pass5Go false s) = true ∧ noAdj pQW (pass5Go true s) = true := by
  intro s
  induction s with
  | nil => exact ⟨rfl, rfl⟩
  | cons c rest ih =>
      constructor
      · rw [pass5Go_false_cons]
        by_cases hq : c = quoteChar
        · rw [if_pos hq]
          refine noAdj_cons_head ?_ ih.2
          intro b hb
          exact pQW_of_not_ws (headNotWs_head (headNotWs_pass5Go_true rest) hb) _
        · rw [if_neg hq]
          exact noAdj_cons_all (pQW_of_ne_quote hq) ih.1
      · rw [pass5Go_true_cons]
        by_cases hw : isWs c = true
        · rw [if_pos hw]; exact ih.2
        · rw [if_neg hw]
          by_cases hq : c = quoteChar
          · rw [if_pos hq]
            refine noAdj_cons_head ?_ ih.2
            intro b hb
            exact pQW_of_not_ws (headNotWs_head (headNotWs_pass5Go_true rest) hb) _
          · rw [if_neg hq]
            exact noAdj_cons_all (pQW_of_ne_quote hq) ih.1

/-- After pass 7 no whitespace character immediately precedes punctuation. -/
theorem pass7_out_noAdjWP : ∀ s : List Char,
    noAdj pWP (pass7Go none s) = true ∧
    ∀ acc, (∀ c ∈ acc, isWs c = true) → noAdj pWP (pass7Go (some acc) s) = true := by
  intro s
  induction s with
  | nil =>
      exact ⟨rfl, fun acc hacc => noAdjWP_wsrun hacc⟩
  | cons c rest ih =>
      constructor
      · rw [pass7Go_none_cons]
        by_cases hw : isWs c = true
        · rw [if_pos hw]
          exact ih.2 [c] (by simpa using hw)
        · rw [if_neg hw]
          exact noAdj_cons_all (pWP_of_not_ws (by simpa using hw)) ih.1
      · intro acc hacc
        rw [pass7Go_some_cons]
        by_cases hw : isWs c = true
        · rw [if_pos hw]
          refine ih.2 (acc ++ [c]) ?_
          intro d hd
          rcases List.mem_append.1 hd with hd | hd
          · exact hacc d hd
          · simp at hd; subst hd; exact hw
        · rw [if_neg hw]
          by_cases hp : isPunct c = true
          · rw [if_pos hp]
            exact noAdj_cons_all (pWP_of_not_ws (by simpa using hw)) ih.1
          · rw [if_neg hp]
            refine noAdj_append_intro acc (c :: pass7Go none rest)
              (noAdjWP_wsrun hacc) ?_ ?_
            · exact noAdj_cons_all (pWP_of_not_ws (by simpa using hw)) ih.1
            · intro a b _ hb
              have hbc := Option.some.inj hb
              subst hbc
              exact pWP_of_not_punct (by simpa using hp) a

/-! ## Canonical whitespace shape of the pass-8 output -/

theorem onlySpace_cons (c : Char) (X : List Char) :
    onlySpace (c :: X) = ((!isWs c || c = ' ') && onlySpace X) := by
  rw [onlySpace, onlySpace, List.all_cons]

theorem onlySpace_collapseWsGo : ∀ (t : List Char) (b : Bool),
    onlySpace (collapseWsGo b t) = true := by
  intro t
  induction t with
  | nil => intro _; rfl
  | cons c t ih =>
      intro b
      rw [collapseWsGo_cons]
      by_cases hw : isWs c = true
      · rw [if_pos hw]
        cases b with
        | true => rw [if_pos rfl]; exact ih true
        | false =>
            rw [if_neg (by decide : ¬ (false = true)), onlySpace_cons, ih true,
              Bool.and_true]
            decide
      · rw [if_neg hw, onlySpace_cons, ih false, Bool.and_true,
          (by simpa using hw : isWs c = false)]
        rfl

theorem headNotWs_collapseWsGo_true : ∀ t : List Char,
    headNotWs (collapseWsGo true t) = true := by
  intro t
  induction t with
  | nil => rfl
  | cons c t ih =>
      rw [collapseWsGo_cons]
      by_cases hw : isWs c = true
      · rw [if_pos hw, if_pos rfl]; exact ih
      · rw [if_neg hw]
        simpa [headNotWs] using (by simpa using hw : isWs c = false)

theorem headNotWs_collapseWsGo_false {t : List Char} (ht : headNotWs t = true) :
    headNotWs (collapseWsGo false t) = true := by
  cases t with
  | nil => rfl
  | cons c t =>
      have hc : isWs c = false := by simpa [headNotWs] using ht
      rw [collapseWsGo_cons, if_neg (by simp [hc])]
      simpa [headNotWs] using hc

theorem collapse_true_eq_false_of_headNotWs {t : List Char}
    (ht : headNotWs t = true) : collapseWsGo true t = collapseWsGo false t := by
  cases t with
  | nil => rfl
  | cons c t =>
      have hc : isWs c = false := by simpa [headNotWs] using ht
      rw [collapseWsGo_cons, collapseWsGo_cons, if_neg (by simp [hc]),
        if_neg (by simp [hc])]

theorem headNotWs_dropWhile : ∀ t : List Char,
    headNotWs (t.dropWhile isWs) = true := by
  intro t
  induction t with
  | nil => rfl
  | cons c t ih =>
      by_cases hw : isWs c = true
      · rw [List.dropWhile_cons_of_pos hw]; exact ih
      · rw [List.dropWhile_cons_of_neg hw]
        simpa [headNotWs] using (by simpa using hw : isWs c = false)

theorem length_dropWhile_le (p : Char → Bool) :
    ∀ l : List Char, (l.dropWhile p).length ≤ l.length := by
  intro l
  induction l with
  | nil => exact Nat.le_refl _
  | cons c t ih =>
      by_cases hc : p c = true
      · rw [List.dropWhile_cons_of_pos hc]
        exact Nat.le_trans ih (Nat.le_succ _)
      · rw [List.dropWhile_cons_of_neg hc]

theorem noAdjWW_collapseWsGo : ∀ (n : Nat) (t : List Char), t.length ≤ n →
    noAdj pWW (collapseWsGo false t) = true := by
  intro n
  induction n with
  | zero =>
      intro t ht
      have he : t = [] := List.length_eq_zero.1 (Nat.le_zero.1 ht)
      subst he; rfl
  | succ n ih =>
      intro t ht
      cases t with
      | nil => rfl
      | cons c t2 =>
          rw [collapseWsGo_cons]
          by_cases hw : isWs c = true
          · rw [if_pos hw, if_neg (by decide : ¬ (false = true)),
              collapseWsGo_true_dropWhile]
            refine noAdj_cons_head ?_ ?_
            · intro b hb
              have hbws : isWs b = false :=
                headNotWs_head
                  (headNotWs_collapseWsGo_false (headNotWs_dropWhile t2)) hb
              rw [pWW, hbws, Bool.and_false]
            · refine ih (t2.dropWhile isWs) ?_
              calc (t2.dropWhile isWs).length
                  ≤ t2.length := length_dropWhile_le isWs t2
                _ ≤ n := Nat.le_of_succ_le_succ (by simpa using ht)
          · rw [if_neg hw]
            refine noAdj_cons_all ?_ (ih t2 (Nat.le_of_succ_le_succ (by simpa using ht)))
            intro b
            rw [pWW, (by simpa using hw : isWs c = false), Bool.false_and]

theorem prefix_head {u P Q : List Char} (h : u = P ++ Q) (hP : P ≠ []) :
    P.head? = u.head? := by
  cases P with
  | nil => exact absurd rfl hP
  | cons p P2 => rw [h]; rfl

theorem headNotWs_stripL (u : List Char) : headNotWs (stripL u) = true := by
  have hd : headNotWs (u.dropWhile isWs) = true := headNotWs_dropWhile u
  rw [stripL]
  have hsplit : u.dropWhile isWs =
      ((u.dropWhile isWs).reverse.dropWhile isWs).reverse ++
      ((u.dropWhile isWs).reverse.takeWhile isWs).reverse := by
    conv_lhs => rw [← List.reverse_reverse (u.dropWhile isWs),
      ← List.takeWhile_append_dropWhile isWs (u.dropWhile isWs).reverse]
    rw [List.reverse_append]
  cases he : ((u.dropWhile isWs).reverse.dropWhile isWs).reverse with
  | nil => rfl
  | cons c r =>
      rw [he] at hsplit
      have hh : (c :: r).head? = (u.dropWhile isWs).head? :=
        prefix_head hsplit (by simp)
      have hc : isWs c = false := headNotWs_head hd hh.symm
      simpa [headNotWs] using hc

theorem reverse_stripL (u : List Char) :
    (stripL u).reverse = (u.dropWhile isWs).reverse.dropWhile isWs := by
  rw [stripL, List.reverse_reverse]

theorem lastNotWs_stripL (u : List Char) : headNotWs (stripL u).reverse = true := by
  rw [reverse_stripL]; exact headNotWs_dropWhile _

theorem onlySpace_infix {A S B u : List Char} (h : u = A ++ (S ++ B))
    (hu : onlySpace u = true) : onlySpace S = true := by
  subst h
  rw [onlySpace, List.all_append, List.all_append, Bool.and_eq_true,
    Bool.and_eq_true] at hu
  exact hu.2.1

theorem onlySpace_stripL {u : List Char} (hu : onlySpace u = true) :
    onlySpace (stripL u) = true :=
  onlySpace_infix (stripL_decomp u) hu

theorem noAdj_stripL {p : Char → Char → Bool} {u : List Char}
    (hu : noAdj p u = true) : noAdj p (stripL u) = true := by
  have h := stripL_decomp u
  rw [h] at hu
  exact noAdj_append_left _ _ (noAdj_append_right _ _ hu)

theorem canonicalWs_pass8 (z : List Char) : canonicalWs (pass8 z) = true := by
  rw [canonicalWs, pass8, collapseWs]
  have h1 : onlySpace (stripL (collapseWsGo false z)) = true :=
    onlySpace_stripL (onlySpace_collapseWsGo z false)
  have h2 : noAdj pWW (stripL (collapseWsGo false z)) = true :=
    noAdj_stripL (noAdjWW_collapseWsGo z.length z (Nat.le_refl _))
  have h3 := headNotWs_stripL (collapseWsGo false z)
  have h4 := lastNotWs_stripL (collapseWsGo false z)
  rw [h1, h2, h3, h4]
  rfl

/-! ## Pass 8 is the identity on canonical strings -/

theorem collapseWsGo_false_id : ∀ y : List Char, onlySpace y = true →
    noAdj pWW y = true → collapseWsGo false y = y := by
  intro y
  induction y with
  | nil => intro _ _; rfl
  | cons c t ih =>
      intro hs ha
      rw [onlySpace_cons, Bool.and_eq_true] at hs
      rw [collapseWsGo_cons]
      by_cases hw : isWs c = true
      · rw [if_pos hw, if_neg (by decide : ¬ (false = true))]
        have hc : c = ' ' := by
          have h1 := hs.1
          rw [hw] at h1
          simpa using h1
        have hht : headNotWs t = true := by
          cases t with
          | nil => rfl
          | cons d t2 =>
              have hp := noAdj_head ha
              rw [pWW, hw, Bool.true_and] at hp
              simpa [headNotWs] using hp
        rw [collapse_true_eq_false_of_headNotWs hht, ih hs.2 (noAdj_tail ha), hc]
      · rw [if_neg hw, ih hs.2 (noAdj_tail ha)]

theorem dropWhile_id_of_headNotWs {y : List Char} (h : headNotWs y = true) :
    y.dropWhile isWs = y := by
  cases y with
  | nil => rfl
  | cons c t =>
      have hc : isWs c = false := by simpa [headNotWs] using h
      rw [List.dropWhile_cons_of_neg (by simp [hc])]

theorem stripL_id {y : List Char} (h1 : headNotWs y = true)
    (h2 : headNotWs y.reverse = true) : stripL y = y := by
  rw [stripL, dropWhile_id_of_headNotWs h1, dropWhile_id_of_headNotWs h2,
    List.reverse_reverse]

theorem pass8_id_of_canonical {y : List Char} (h : canonicalWs y = true) :
    pass8 y = y := by
  rw [canonicalWs] at h
  simp only [Bool.and_eq_true] at h
  obtain ⟨⟨⟨hs, ha⟩, hh⟩, hl⟩ := h
  rw [pass8, collapseWs, collapseWsGo_false_id y hs ha, stripL_id hh hl]

/-! ## Head lemmas and adjacency preservation through the later passes -/

theorem ciPre_snoc : ∀ {cs w rem2 : List Char}, ciPre cs w rem2 →
    ∀ {c h : Char} {rem : List Char}, rem2 = h :: rem → ciEq c h = true →
      ciPre (cs ++ [c]) w rem := by
  intro cs w rem2 hp
  induction hp with
  | nil =>
      intro c h rem he hc
      subst he
      exact ciPre.cons hc (ciPre.nil rem)
  | cons hce hp2 ih =>
      intro c h rem he hc
      exact ciPre.cons hce (ih he hc)

theorem getLast?_mem : ∀ {A : List Char} {a : Char}, A.getLast? = some a → a ∈ A := by
  intro A
  induction A with
  | nil => intro a ha; simp at ha
  | cons x A2 ih =>
      intro a ha
      cases A2 with
      | nil =>
          obtain rfl : x = a := Option.some.inj ha
          simp
      | cons y A3 =>
          exact List.mem_cons.2 (Or.inr (ih (glast_cons.symm.trans ha)))

theorem noAdj_junction {p : Char → Char → Bool} :
    ∀ (A : List Char) {a b : Char} {r : List Char},
      noAdj p (A ++ b :: r) = true → A.getLast? = some a → p a b = false := by
  intro A
  induction A with
  | nil => intro a b r _ ha; simp at ha
  | cons x A2 ih =>
      intro a b r h ha
      cases A2 with
      | nil =>
          obtain rfl : x = a := Option.some.inj ha
          exact noAdj_head h
      | cons y A3 =>
          exact ih (noAdj_tail h) (glast_cons.symm.trans ha)

theorem noAdj_head_of_head? {p : Char → Char → Bool} {c : Char} {rest : List Char}
    {b : Char} (h : noAdj p (c :: rest) = true) (hb : rest.head? = some b) :
    p c b = false := by
  cases rest with
  | nil => simp at hb
  | cons d r2 =>
      obtain rfl : d = b := Option.some.inj hb
      exact noAdj_head h

theorem pass6Go_head : ∀ s : List Char,
    (∀ w, ∃ t, pass6Go (.reading w) s = w ++ t) ∧
    (∀ w run, run ≠ [] → (∀ c ∈ run, isWs c = true) →
      ∃ t, pass6Go (.afterW w run) s = w ++ t ∧ headNotWord t = true) ∧
    (∀ w run cons rem, run ≠ [] → (∀ c ∈ run, isWs c = true) →
      ∃ t, pass6Go (.rep w run cons rem) s = w ++ t ∧ headNotWord t = true) := by
  intro s
  induction s with
  | nil =>
      refine ⟨fun w => ⟨[], by rw [List.append_nil]; rfl⟩, fun w run hrne hrw => ?_,
        fun w run cons rem hrne hrw => ?_⟩
      · refine ⟨run, rfl, ?_⟩
        cases run with
        | nil => rfl
        | cons r0 r1 =>
            simpa [headNotWord] using ws_not_word (hrw r0 (by simp))
      · rw [pass6Go_rep_nil]
        by_cases hrem : rem = []
        · rw [if_pos hrem]
          exact ⟨[], by rw [List.append_nil], rfl⟩
        · rw [if_neg hrem]
          refine ⟨run ++ cons, by rw [List.append_assoc], ?_⟩
          cases run with
          | nil => exact absurd rfl hrne
          | cons r0 r1 =>
              simpa [headNotWord] using ws_not_word (hrw r0 (by simp))
  | cons c rest ih =>
      obtain ⟨ihr, iha, ihp⟩ := ih
      refine ⟨fun w => ?_, fun w run hrne hrw => ?_, fun w run cons rem hrne hrw => ?_⟩
      · rw [pass6Go_reading_cons]
        by_cases hc : isWordChar c = true
        · rw [if_pos hc]
          obtain ⟨t, ht⟩ := ihr (w ++ [c])
          exact ⟨c :: t, by rw [ht, List.append_assoc]; rfl⟩
        · rw [if_neg hc]
          by_cases hws : isWs c = true
          · rw [if_pos hws]
            obtain ⟨t, ht, _⟩ := iha w [c] (by simp) (by simpa using hws)
            exact ⟨t, ht⟩
          · rw [if_neg hws]
            exact ⟨c :: pass6Go .idle rest, rfl⟩
      · by_cases hws : isWs c = true
        · rw [pass6Go_afterW_cons_ws w run c hws]
          refine iha w (run ++ [c]) (by simp) ?_
          intro d hd
          rcases List.mem_append.1 hd with hd | hd
          · exact hrw d hd
          · simp at hd; subst hd; exact hws
        · have hr0 : ∃ r0 r1, run = r0 :: r1 := by
            cases run with
            | nil => exact absurd rfl hrne
            | cons r0 r1 => exact ⟨r0, r1, rfl⟩
          obtain ⟨r0, r1, hrE⟩ := hr0
          have hr0w : headNotWord (r0 :: r1) = true := by
            simpa [headNotWord] using ws_not_word (hrw r0 (by rw [hrE]; simp))
          cases w with
          | nil =>
              rw [pass6Go_afterW_cons_wnil, if_neg hws]
              by_cases hc : isWordChar c = true
              · rw [if_pos hc]
                refine ⟨run ++ pass6Go (.reading [c]) rest, by simp, ?_⟩
                rw [hrE]
                exact hr0w
              · rw [if_neg hc]
                refine ⟨run ++ c :: pass6Go .idle rest, by simp, ?_⟩
                rw [hrE]
                exact hr0w
          | cons h0 t0 =>
              rw [pass6Go_afterW_cons_wcons, if_neg hws]
              by_cases hc : isWordChar c = true
              · rw [if_pos hc]
                by_cases hci : ciEq c h0
                · rw [if_pos hci]
                  exact ihp (h0 :: t0) run [c] t0 hrne hrw
                · rw [if_neg hci]
                  refine ⟨run ++ pass6Go (.reading [c]) rest,
                    by rw [List.append_assoc], ?_⟩
                  rw [hrE]
                  exact hr0w
              · rw [if_neg hc]
                refine ⟨run ++ c :: pass6Go .idle rest,
                  by rw [List.append_assoc], ?_⟩
                rw [hrE]
                exact hr0w
      · have hr0 : ∃ r0 r1, run = r0 :: r1 := by
          cases run with
          | nil => exact absurd rfl hrne
          | cons r0 r1 => exact ⟨r0, r1, rfl⟩
        obtain ⟨r0, r1, hrE⟩ := hr0
        have hr0w : headNotWord (r0 :: r1) = true := by
          simpa [headNotWord] using ws_not_word (hrw r0 (by rw [hrE]; simp))
        by_cases hc : isWordChar c = true
        · cases rem with
          | nil =>
              rw [pass6Go_rep_cons_remnil, if_pos hc]
              refine ⟨run ++ pass6Go (.reading (cons ++ [c])) rest,
                by rw [List.append_assoc], ?_⟩
              rw [hrE]
              exact hr0w
          | cons h0 t0 =>
              rw [pass6Go_rep_cons_remcons, if_pos hc]
              by_cases hci : ciEq c h0
              · rw [if_pos hci]
                exact ihp w run (cons ++ [c]) t0 hrne hrw
              · rw [if_neg hci]
                refine ⟨run ++ pass6Go (.reading (cons ++ [c])) rest,
                  by rw [List.append_assoc], ?_⟩
                rw [hrE]
                exact hr0w
        · by_cases hws : isWs c = true
          · rw [pass6Go_rep_cons_ws w run cons rem c hws]
            by_cases hrem : rem = []
            · rw [if_pos hrem]
              obtain ⟨t, ht, hh⟩ := iha w [c] (by simp) (by simpa using hws)
              exact ⟨t, ht, hh⟩
            · rw [if_neg hrem]
              refine ⟨run ++ pass6Go (.afterW cons [c]) rest,
                by rw [List.append_assoc], ?_⟩
              rw [hrE]
              exact hr0w
          · cases rem with
            | nil =>
                rw [pass6Go_rep_cons_remnil, if_neg hc, if_neg hws]
                refine ⟨c :: pass6Go .idle rest, rfl, ?_⟩
                simpa [headNotWord] using hc
            | cons h0 t0 =>
                rw [pass6Go_rep_cons_remcons, if_neg hc, if_neg hws]
                refine ⟨run ++ cons ++ c :: pass6Go .idle rest,
                  by simp [List.append_assoc], ?_⟩
                rw [hrE]
                simpa [headNotWord] using ws_not_word (hrw r0 (by rw [hrE]; simp))

theorem pass6Go_idle_head : ∀ s : List Char,
    (pass6Go .idle s).head? = s.head? := by
  intro s
  cases s with
  | nil => rfl
  | cons c rest =>
      rw [pass6Go_idle_cons]
      by_cases hc : isWordChar c = true
      · rw [if_pos hc]
        obtain ⟨t, ht⟩ := (pass6Go_head rest).1 [c]
        rw [ht]
        rfl
      · rw [if_neg hc]
        rfl

theorem pass5_head_sim : ∀ s : List Char, (pass5Go false s).head? = s.head? := by
  intro s
  cases s with
  | nil => rfl
  | cons c rest =>
      rw [pass5Go_false_cons]
      by_cases hq : c = quoteChar
      · rw [if_pos hq, hq]
        rfl
      · rw [if_neg hq]
        rfl

theorem pass5_pres_noAdjWQ : ∀ s : List Char, noAdj pWQ s = true →
    noAdj pWQ (pass5Go false s) = true ∧ noAdj pWQ (pass5Go true s) = true := by
  intro s
  induction s with
  | nil => intro _; exact ⟨rfl, rfl⟩
  | cons c rest ih =>
      intro h
      have iht := ih (noAdj_tail h)
      constructor
      · rw [pass5Go_false_cons]
        by_cases hq : c = quoteChar
        · rw [if_pos hq]
          exact noAdj_cons_all (pWQ_of_not_ws quote_not_ws) iht.2
        · rw [if_neg hq]
          refine noAdj_cons_head ?_ iht.1
          intro b hb
          rw [pass5_head_sim rest] at hb
          exact noAdj_head_of_head? h hb
      · rw [pass5Go_true_cons]
        by_cases hws : isWs c = true
        · rw [if_pos hws]; exact iht.2
        · rw [if_neg hws]
          by_cases hq : c = quoteChar
          · rw [if_pos hq]
            exact noAdj_cons_all (pWQ_of_not_ws quote_not_ws) iht.2
          · rw [if_neg hq]
            refine noAdj_cons_head ?_ iht.1
            intro b hb
            rw [pass5_head_sim rest] at hb
            exact noAdj_head_of_head? h hb

/-- Pass 6 preserves any adjacency predicate whose pairs never start with a
word character: the only new junctions it creates follow a kept word. -/
theorem pass6_pres_noAdj (p : Char → Char → Bool)
    (hp : ∀ a b, isWordChar a = true → p a b = false) :
    ∀ (s : List Char) (st : DupSt), goodSt st →
      noAdj p (stFlush st ++ s) = true → noAdj p (pass6Go st s) = true := by
  intro s
  induction s with
  | nil =>
      intro st hg h
      rw [List.append_nil] at h
      cases st with
      | idle => rfl
      | reading w => exact h
      | afterW w run => exact h
      | rep w run cons rem =>
          rw [pass6Go_rep_nil]
          by_cases hrem : rem = []
          · rw [if_pos hrem]
            exact noAdj_append_left _ _ (noAdj_append_left _ _ h)
          · rw [if_neg hrem]
            exact h
  | cons c rest ih =>
      intro st hg h
      cases st with
      | idle =>
          have h2 : noAdj p (c :: rest) = true := h
          rw [pass6Go_idle_cons]
          by_cases hc : isWordChar c = true
          · rw [if_pos hc]
            exact ih (.reading [c]) ⟨by simp, by simp [hc]⟩ h2
          · rw [if_neg hc]
            refine noAdj_cons_head ?_ (ih .idle trivial (noAdj_tail h2))
            intro b hb
            rw [pass6Go_idle_head rest] at hb
            exact noAdj_head_of_head? h2 hb
      | reading w =>
          obtain ⟨hwne, hww⟩ := hg
          have h2 : noAdj p (w ++ c :: rest) = true := h
          rw [pass6Go_reading_cons]
          by_cases hc : isWordChar c = true
          · rw [if_pos hc]
            refine ih (.reading (w ++ [c])) ⟨by simp, ?_⟩ ?_
            · intro d hd
              rcases List.mem_append.1 hd with hd | hd
              · exact hww d hd
              · simp at hd; subst hd; exact hc
            · simpa [stFlush, List.append_assoc] using h2
          · rw [if_neg hc]
            by_cases hws : isWs c = true
            · rw [if_pos hws]
              refine ih (.afterW w [c]) ⟨hwne, hww, by simp, by simp [hws]⟩ ?_
              simpa [stFlush, List.append_assoc] using h2
            · rw [if_neg hws]
              have hrest : noAdj p (c :: rest) = true := noAdj_append_right w _ h2
              refine noAdj_append_intro w (c :: pass6Go .idle rest)
                (noAdj_append_left _ _ h2) ?_ ?_
              · refine noAdj_cons_head ?_ (ih .idle trivial (noAdj_tail hrest))
                intro b hb
                rw [pass6Go_idle_head rest] at hb
                exact noAdj_head_of_head? hrest hb
              · intro a b ha hb
                have hb2 : some c = some b := hb
                obtain rfl : c = b := Option.some.inj hb2
                exact noAdj_junction w h2 ha
      | afterW w run =>
          obtain ⟨hwne, hww, hrne, hrw⟩ := hg
          have h2 : noAdj p ((w ++ run) ++ c :: rest) = true := h
          by_cases hws : isWs c = true
          · rw [pass6Go_afterW_cons_ws w run c hws]
            refine ih (.afterW w (run ++ [c])) ⟨hwne, hww, by simp, ?_⟩ ?_
            · intro d hd
              rcases List.mem_append.1 hd with hd | hd
              · exact hrw d hd
              · simp at hd; subst hd; exact hws
            · simpa [stFlush, List.append_assoc] using h2
          · cases w with
            | nil => exact absurd rfl hwne
            | cons h0 t0 =>
                rw [pass6Go_afterW_cons_wcons, if_neg hws]
                by_cases hc : isWordChar c = true
                · rw [if_pos hc]
                  by_cases hci : ciEq c h0
                  · rw [if_pos hci]
                    refine ih (.rep (h0 :: t0) run [c] t0)
                      ⟨hwne, hww, hrne, hrw, by simp, by simp [hc],
                        ciPre.cons hci (ciPre.nil t0)⟩ ?_
                    simpa [stFlush, List.append_assoc] using h2
                  · rw [if_neg hci]
                    obtain ⟨t, htE⟩ := (pass6Go_head rest).1 [c]
                    have hrest : noAdj p (c :: rest) = true :=
                      noAdj_append_right ((h0 :: t0) ++ run) _ h2
                    refine noAdj_append_intro ((h0 :: t0) ++ run)
                      (pass6Go (.reading [c]) rest) (noAdj_append_left _ _ h2) ?_ ?_
                    · exact ih (.reading [c]) ⟨by simp, by simp [hc]⟩ hrest
                    · intro a b ha hb
                      rw [htE] at hb
                      have hb2 : some c = some b := hb
                      obtain rfl : c = b := Option.some.inj hb2
                      exact noAdj_junction ((h0 :: t0) ++ run) h2 ha
                · rw [if_neg hc]
                  have hrest : noAdj p (c :: rest) = true :=
                    noAdj_append_right ((h0 :: t0) ++ run) _ h2
                  refine noAdj_append_intro ((h0 :: t0) ++ run)
                    (c :: pass6Go .idle rest) (noAdj_append_left _ _ h2) ?_ ?_
                  · refine noAdj_cons_head ?_ (ih .idle trivial (noAdj_tail hrest))
                    intro b hb
                    rw [pass6Go_idle_head rest] at hb
                    exact noAdj_head_of_head? hrest hb
                  · intro a b ha hb
                    have hb2 : some c = some b := hb
                    obtain rfl : c = b := Option.some.inj hb2
                    exact noAdj_junction ((h0 :: t0) ++ run) h2 ha
      | rep w run cons rem =>
          obtain ⟨hwne, hww, hrne, hrw, hcne, hcw, hpre⟩ := hg
          have h2 : noAdj p (((w ++ run) ++ cons) ++ c :: rest) = true := h
          have h3 : noAdj p ((w ++ run) ++ (cons ++ c :: rest)) = true := by
            rw [← List.append_assoc]; exact h2
          have hA2 : noAdj p (w ++ run) = true :=
            noAdj_append_left _ _ (noAdj_append_left _ _ h2)
          have hrest : noAdj p (c :: rest) = true :=
            noAdj_append_right ((w ++ run) ++ cons) _ h2
          by_cases hc : isWordChar c = true
          · have hread : noAdj p (pass6Go (.reading (cons ++ [c])) rest) = true := by
              refine ih (.reading (cons ++ [c])) ⟨by simp, ?_⟩ ?_
              · intro d hd
                rcases List.mem_append.1 hd with hd | hd
                · exact hcw d hd
                · simp at hd; subst hd; exact hc
              · simpa [stFlush, List.append_assoc] using (noAdj_append_right _ _ h3)
            have hmis : noAdj p ((w ++ run) ++ pass6Go (.reading (cons ++ [c])) rest)
                = true := by
              obtain ⟨t, htE⟩ := (pass6Go_head rest).1 (cons ++ [c])
              refine noAdj_append_intro (w ++ run) _ hA2 hread ?_
              intro a b ha hb
              rw [htE] at hb
              cases cons with
              | nil => exact absurd rfl hcne
              | cons c0 cons2 =>
                  have hb2 : some c0 = some b := hb
                  obtain rfl : c0 = b := Option.some.inj hb2
                  exact noAdj_junction (w ++ run) h3 ha
            cases rem with
            | nil =>
                rw [pass6Go_rep_cons_remnil, if_pos hc]
                exact hmis
            | cons h0 t0 =>
                rw [pass6Go_rep_cons_remcons, if_pos hc]
                by_cases hci : ciEq c h0
                · rw [if_pos hci]
                  refine ih (.rep w run (cons ++ [c]) t0)
                    ⟨hwne, hww, hrne, hrw, by simp, ?_, ciPre_snoc hpre rfl hci⟩ ?_
                  · intro d hd
                    rcases List.mem_append.1 hd with hd | hd
                    · exact hcw d hd
                    · simp at hd; subst hd; exact hc
                  · simpa [stFlush, List.append_assoc] using h2
                · rw [if_neg hci]
                  exact hmis
          · by_cases hws : isWs c = true
            · rw [pass6Go_rep_cons_ws w run cons rem c hws]
              by_cases hrem : rem = []
              · rw [if_pos hrem]
                refine ih (.afterW w [c]) ⟨hwne, hww, by simp, by simp [hws]⟩ ?_
                have hA : noAdj p w = true := noAdj_append_left _ _ hA2
                have hj : ∀ a b, w.getLast? = some a → (c :: rest).head? = some b →
                    p a b = false := by
                  intro a b ha hb
                  have hb2 : some c = some b := hb
                  obtain rfl : c = b := Option.some.inj hb2
                  exact hp a c (hww a (getLast?_mem ha))
                have hx := noAdj_append_intro w (c :: rest) hA hrest hj
                simpa [stFlush, List.append_assoc] using hx
              · rw [if_neg hrem]
                obtain ⟨t, htE, _⟩ := (pass6Go_head rest).2.1 cons [c]
                  (by simp) (by simp [hws])
                refine noAdj_append_intro (w ++ run) _ hA2 ?_ ?_
                · refine ih (.afterW cons [c]) ⟨hcne, hcw, by simp, by simp [hws]⟩ ?_
                  simpa [stFlush, List.append_assoc] using (noAdj_append_right _ _ h3)
                · intro a b ha hb
                  rw [htE] at hb
                  cases cons with
                  | nil => exact absurd rfl hcne
                  | cons c0 cons2 =>
                      have hb2 : some c0 = some b := hb
                      obtain rfl : c0 = b := Option.some.inj hb2
                      exact noAdj_junction (w ++ run) h3 ha
            · cases rem with
              | nil =>
                  rw [pass6Go_rep_cons_remnil, if_neg hc, if_neg hws]
                  have hA : noAdj p w = true := noAdj_append_left _ _ hA2
                  refine noAdj_append_intro w (c :: pass6Go .idle rest) hA ?_ ?_
                  · refine noAdj_cons_head ?_ (ih .idle trivial (noAdj_tail hrest))
                    intro b hb
                    rw [pass6Go_idle_head rest] at hb
                    exact noAdj_head_of_head? hrest hb
                  · intro a b ha hb
                    have hb2 : some c = some b := hb
                    obtain rfl : c = b := Option.some.inj hb2
                    exact hp a c (hww a (getLast?_mem ha))
              | cons h0 t0 =>
                  rw [pass6Go_rep_cons_remcons, if_neg hc, if_neg hws]
                  refine noAdj_append_intro ((w ++ run) ++ cons)
                    (c :: pass6Go .idle rest) (noAdj_append_left _ _ h2) ?_ ?_
                  · refine noAdj_cons_head ?_ (ih .idle trivial (noAdj_tail hrest))
                    intro b hb
                    rw [pass6Go_idle_head rest] at hb
                    exact noAdj_head_of_head? hrest hb
                  · intro a b ha hb
                    have hb2 : some c = some b := hb
                    obtain rfl : c = b := Option.some.inj hb2
                    exact noAdj_junction ((w ++ run) ++ cons) h2 ha

theorem pass7_some_head : ∀ (s : List Char) (c : Char) (acc : List Char),
    (pass7Go (some (c :: acc)) s).head? = some c ∨
    (∃ b, (pass7Go (some (c :: acc)) s).head? = some b ∧ isPunct b = true) := by
  intro s
  induction s with
  | nil => intro c acc; left; rfl
  | cons d r ih =>
      intro c acc
      rw [pass7Go_some_cons]
      by_cases hw : isWs d = true
      · rw [if_pos hw]
        exact ih c (acc ++ [d])
      · rw [if_neg hw]
        by_cases hpd : isPunct d = true
        · rw [if_pos hpd]
          exact Or.inr ⟨d, rfl, hpd⟩
        · rw [if_neg hpd]
          left
          rfl

theorem pass7_head : ∀ s : List Char,
    (pass7Go none s).head? = s.head? ∨
    (∃ b, (pass7Go none s).head? = some b ∧ isPunct b = true) := by
  intro s
  cases s with
  | nil => left; rfl
  | cons c rest =>
      rw [pass7Go_none_cons]
      by_cases hw : isWs c = true
      · rw [if_pos hw]
        rcases pass7_some_head rest c [] with h | h
        · left; rw [h]; rfl
        · right; exact h
      · rw [if_neg hw]
        left
        rfl

/-- Pass 7 preserves any adjacency predicate whose pairs never end with a
punctuation character: the only new junctions it creates precede a kept
punctuation mark. -/
theorem pass7_pres_noAdj (p : Char → Char → Bool)
    (hp : ∀ a b, isPunct b = true → p a b = false) :
    ∀ s : List Char,
      (noAdj p s = true → noAdj p (pass7Go none s) = true) ∧
      (∀ acc, noAdj p (acc ++ s) = true → noAdj p (pass7Go (some acc) s) = true) := by
  intro s
  induction s with
  | nil =>
      refine ⟨fun _ => rfl, fun acc h => ?_⟩
      rw [List.append_nil] at h
      exact h
  | cons c rest ih =>
      constructor
      · intro h
        rw [pass7Go_none_cons]
        by_cases hw : isWs c = true
        · rw [if_pos hw]
          exact ih.2 [c] h
        · rw [if_neg hw]
          refine noAdj_cons_head ?_ (ih.1 (noAdj_tail h))
          intro b hb
          rcases pass7_head rest with hh | ⟨b2, hb2, hpb2⟩
          · rw [hh] at hb
            exact noAdj_head_of_head? h hb
          · rw [hb2] at hb
            obtain rfl : b2 = b := Option.some.inj hb
            exact hp c b2 hpb2
      · intro acc h
        rw [pass7Go_some_cons]
        by_cases hw : isWs c = true
        · rw [if_pos hw]
          refine ih.2 (acc ++ [c]) ?_
          simpa [List.append_assoc] using h
        · rw [if_neg hw]
          have hrest : noAdj p (c :: rest) = true := noAdj_append_right acc _ h
          by_cases hpc : isPunct c = true
          · rw [if_pos hpc]
            refine noAdj_cons_head ?_ (ih.1 (noAdj_tail hrest))
            intro b hb
            rcases pass7_head rest with hh | ⟨b2, hb2, hpb2⟩
            · rw [hh] at hb
              exact noAdj_head_of_head? hrest hb
            · rw [hb2] at hb
              obtain rfl : b2 = b := Option.some.inj hb
              exact hp c b2 hpb2
          · rw [if_neg hpc]
            refine noAdj_append_intro acc (c :: pass7Go none rest)
              (noAdj_append_left _ _ h) ?_ ?_
            · refine noAdj_cons_head ?_ (ih.1 (noAdj_tail hrest))
              intro b hb
              rcases pass7_head rest with hh | ⟨b2, hb2, hpb2⟩
              · rw [hh] at hb
                exact noAdj_head_of_head? hrest hb
              · rw [hb2] at hb
                obtain rfl : b2 = b := Option.some.inj hb
                exact hp c b2 hpb2
            · intro a b ha hb
              have hb2 : some c = some b := hb
              obtain rfl : c = b := Option.some.inj hb2
              exact noAdj_junction acc h ha

/-- Whitespace collapsing preserves any adjacency predicate that does not
distinguish between whitespace characters on either side. -/
theorem collapse_pres_noAdj (p : Char → Char → Bool)
    (h1 : ∀ a a2 b, isWs a = true → isWs a2 = true → p a b = p a2 b)
    (h2 : ∀ a b b2, isWs b = true → isWs b2 = true → p a b = p a b2) :
    ∀ s : List Char,
      (noAdj p s = true → noAdj p (collapseWsGo false s) = true) ∧
      (∀ c, isWs c = true → noAdj p (c :: s) = true →
        noAdj p (' ' :: collapseWsGo true s) = true) := by
  intro s
  induction s with
  | nil => exact ⟨fun _ => rfl, fun _ _ _ => rfl⟩
  | cons d rest ih =>
      have hpart1 : noAdj p (d :: rest) = true →
          noAdj p (collapseWsGo false (d :: rest)) = true := by
        intro hS
        rw [collapseWsGo_cons]
        by_cases hwd : isWs d = true
        · rw [if_pos hwd, if_neg (by decide : ¬ (false = true))]
          exact ih.2 d hwd hS
        · rw [if_neg hwd]
          refine noAdj_cons_head ?_ (ih.1 (noAdj_tail hS))
          intro b hb
          cases rest with
          | nil => simp [collapseWsGo] at hb
          | cons e r2 =>
              rw [collapseWsGo_cons] at hb
              by_cases hwe : isWs e = true
              · rw [if_pos hwe, if_neg (by decide : ¬ (false = true))] at hb
                have hb2 : some ' ' = some b := hb
                obtain rfl : ' ' = b := Option.some.inj hb2
                rw [h2 d ' ' e (by decide) hwe]
                exact noAdj_head hS
              · rw [if_neg hwe] at hb
                have hb2 : some e = some b := hb
                obtain rfl : e = b := Option.some.inj hb2
                exact noAdj_head hS
      refine ⟨hpart1, ?_⟩
      intro c hwc hS
      rw [collapseWsGo_cons]
      by_cases hwd : isWs d = true
      · rw [if_pos hwd, if_pos rfl]
        exact ih.2 d hwd (noAdj_tail hS)
      · rw [if_neg hwd]
        refine noAdj_intro_cons ?_ ?_
        · rw [h1 ' ' c d (by decide) hwc]
          exact noAdj_head hS
        · have hx := hpart1 (noAdj_tail hS)
          rw [collapseWsGo_cons, if_neg hwd] at hx
          exact hx

/-! ## Identity of passes 4, 5, 6 and 7 under the respective predicates -/

theorem pass4_id_aux : ∀ (n : Nat) (s : List Char), s.length ≤ n →
    (noAdj pWQ s = true → pass4Go none s = s) ∧
    (∀ acc c, isWs c = true → noAdj pWQ (c :: s) = true →
      pass4Go (some (acc ++ [c])) s = acc ++ c :: s) := by
  intro n
  induction n with
  | zero =>
      intro s hs
      have he : s = [] := List.length_eq_zero.1 (Nat.le_zero.1 hs)
      subst he
      exact ⟨fun _ => rfl, fun acc c _ _ => rfl⟩
  | succ n ih =>
      intro s hs
      constructor
      · intro h
        cases s with
        | nil => rfl
        | cons d r =>
            have hr : r.length ≤ n := Nat.le_of_succ_le_succ (by simpa using hs)
            rw [pass4Go_none_cons]
            by_cases hw : isWs d = true
            · rw [if_pos hw]
              simpa using (ih r hr).2 [] d hw h
            · rw [if_neg hw, (ih r hr).1 (noAdj_tail h)]
      · intro acc c hwc h
        cases s with
        | nil => rfl
        | cons d r =>
            have hr : r.length ≤ n := Nat.le_of_succ_le_succ (by simpa using hs)
            rw [pass4Go_some_cons]
            by_cases hw : isWs d = true
            · rw [if_pos hw, (ih r hr).2 (acc ++ [c]) d hw (noAdj_tail h),
                List.append_assoc]
              rfl
            · have hpcd : pWQ c d = false := noAdj_head h
              have hdq : d ≠ quoteChar := by
                intro he
                rw [pWQ, hwc, he] at hpcd
                simp at hpcd
              rw [if_neg hw, if_neg hdq, (ih r hr).1 (noAdj_tail (noAdj_tail h)),
                List.append_assoc]
              rfl

theorem pass4_id_of_noAdjWQ {s : List Char} (h : noAdj pWQ s = true) :
    pass4 s = s :=
  (pass4_id_aux s.length s (Nat.le_refl _)).1 h

theorem pass5_id_of_noAdjQW : ∀ s : List Char, noAdj pQW s = true →
    pass5Go false s = s ∧ (headNotWs s = true → pass5Go true s = s) := by
  intro s
  induction s with
  | nil => intro _; exact ⟨rfl, fun _ => rfl⟩
  | cons c r ih =>
      intro h
      have iht := ih (noAdj_tail h)
      have hqcase : c = quoteChar → quoteChar :: pass5Go true r = c :: r := by
        intro hq
        subst hq
        have hhr : headNotWs r = true := by
          cases r with
          | nil => rfl
          | cons d r2 =>
              have hpd := noAdj_head h
              rw [pQW] at hpd
              simp only [decide_eq_true_eq] at hpd
              simp at hpd
              simp [headNotWs, hpd]
        rw [iht.2 hhr]
      constructor
      · rw [pass5Go_false_cons]
        by_cases hq : c = quoteChar
        · rw [if_pos hq]
          exact hqcase hq
        · rw [if_neg hq, iht.1]
      · intro hh
        rw [pass5Go_true_cons]
        have hcw : isWs c = false := by simpa [headNotWs] using hh
        rw [if_neg (by simp [hcw])]
        by_cases hq : c = quoteChar
        · rw [if_pos hq]
          exact hqcase hq
        · rw [if_neg hq, iht.1]

theorem pass7_id_aux : ∀ (n : Nat) (s : List Char), s.length ≤ n →
    (noAdj pWP s = true → pass7Go none s = s) ∧
    (∀ acc c, isWs c = true → noAdj pWP (c :: s) = true →
      pass7Go (some (acc ++ [c])) s = acc ++ c :: s) := by
  intro n
  induction n with
  | zero =>
      intro s hs
      have he : s = [] := List.length_eq_zero.1 (Nat.le_zero.1 hs)
      subst he
      exact ⟨fun _ => rfl, fun acc c _ _ => rfl⟩
  | succ n ih =>
      intro s hs
      constructor
      · intro h
        cases s with
        | nil => rfl
        | cons d r =>
            have hr : r.length ≤ n := Nat.le_of_succ_le_succ (by simpa using hs)
            rw [pass7Go_none_cons]
            by_cases hw : isWs d = true
            · rw [if_pos hw]
              simpa using (ih r hr).2 [] d hw h
            · rw [if_neg hw, (ih r hr).1 (noAdj_tail h)]
      · intro acc c hwc h
        cases s with
        | nil => rfl
        | cons d r =>
            have hr : r.length ≤ n := Nat.le_of_succ_le_succ (by simpa using hs)
            rw [pass7Go_some_cons]
            by_cases hw : isWs d = true
            · rw [if_pos hw, (ih r hr).2 (acc ++ [c]) d hw (noAdj_tail h),
                List.append_assoc]
              rfl
            · have hpcd : pWP c d = false := noAdj_head h
              have hdp : isPunct d = false := by
                by_contra hx
                rw [pWP, hwc, Bool.true_and] at hpcd
                rw [hpcd] at hx
                simp at hx
              rw [if_neg hw, if_neg (by simp [hdp]),
                (ih r hr).1 (noAdj_tail (noAdj_tail h)), List.append_assoc]
              rfl

theorem pass7_id_of_noAdjWP {s : List Char} (h : noAdj pWP s = true) :
    pass7 s = s :=
  (pass7_id_aux s.length s (Nat.le_refl _)).1 h

/-! ## Step equations for the duplicate-word mirror -/

theorem hasDup_idle_cons (c : Char) (rest : List Char) :
    hasDup .idle (c :: rest) =
      if isWordChar c = true then hasDup (.reading [c]) rest
      else hasDup .idle rest := rfl

theorem hasDup_reading_cons (w : List Char) (c : Char) (rest : List Char) :
    hasDup (.reading w) (c :: rest) =
      if isWordChar c = true then hasDup (.reading (w ++ [c])) rest
      else if isWs c = true then hasDup (.afterW w [c]) rest
      else hasDup .idle rest := rfl

theorem hasDup_afterW_cons_wnil (run : List Char) (c : Char) (rest : List Char) :
    hasDup (.afterW [] run) (c :: rest) =
      if isWs c = true then hasDup (.afterW [] (run ++ [c])) rest
      else if isWordChar c = true then hasDup (.reading [c]) rest
      else hasDup .idle rest := rfl

theorem hasDup_afterW_cons_wcons (h0 : Char) (t0 run : List Char) (c : Char)
    (rest : List Char) :
    hasDup (.afterW (h0 :: t0) run) (c :: rest) =
      if isWs c = true then hasDup (.afterW (h0 :: t0) (run ++ [c])) rest
      else if isWordChar c = true then
        (if ciEq c h0 then hasDup (.rep (h0 :: t0) run [c] t0) rest
         else hasDup (.reading [c]) rest)
      else hasDup .idle rest := rfl

theorem hasDup_rep_nil (w run cons rem : List Char) :
    hasDup (.rep w run cons rem) [] = rem.isEmpty := rfl

theorem hasDup_rep_cons_remnil (w run cons : List Char) (c : Char)
    (rest : List Char) :
    hasDup (.rep w run cons []) (c :: rest) =
      if isWordChar c = true then hasDup (.reading (cons ++ [c])) rest
      else if isWs c = true then true
      else true := rfl

theorem hasDup_rep_cons_remcons (w run cons : List Char) (h0 : Char) (t0 : List Char)
    (c : Char) (rest : List Char) :
    hasDup (.rep w run cons (h0 :: t0)) (c :: rest) =
      if isWordChar c = true then
        (if ciEq c h0 then hasDup (.rep w run (cons ++ [c]) t0) rest
         else hasDup (.reading (cons ++ [c])) rest)
      else if isWs c = true then hasDup (.afterW cons [c]) rest
      else hasDup .idle rest := rfl

theorem hasDup_afterW_cons_ws (w run : List Char) {c : Char} (hc : isWs c = true)
    (rest : List Char) :
    hasDup (.afterW w run) (c :: rest) = hasDup (.afterW w (run ++ [c])) rest := by
  cases w with
  | nil => rw [hasDup_afterW_cons_wnil, if_pos hc]
  | cons h0 t0 => rw [hasDup_afterW_cons_wcons, if_pos hc]

/-- If the duplicate-word machine never completes a repeat it changes
nothing: the output is its pending buffer followed by the input. -/
theorem pass6_id_aux : ∀ (s : List Char) (st : DupSt), hasDup st s = false →
    pass6Go st s = stFlush st ++ s := by
  intro s
  induction s with
  | nil =>
      intro st h
      cases st with
      | idle => rfl
      | reading w => show w = w ++ []; rw [List.append_nil]
      | afterW w run => show w ++ run = (w ++ run) ++ []; rw [List.append_nil]
      | rep w run cons rem =>
          rw [pass6Go_rep_nil]
          have hrem : rem ≠ [] := by
            intro he
            rw [he] at h
            simp [hasDup] at h
          rw [if_neg hrem]
          show (w ++ run) ++ cons = ((w ++ run) ++ cons) ++ []
          rw [List.append_nil]
  | cons c rest ih =>
      intro st h
      cases st with
      | idle =>
          rw [pass6Go_idle_cons]
          rw [hasDup_idle_cons] at h
          by_cases hc : isWordChar c = true
          · rw [if_pos hc] at h
            rw [if_pos hc, ih _ h]
            rfl
          · rw [if_neg hc] at h
            rw [if_neg hc, ih _ h]
            rfl
      | reading w =>
          rw [pass6Go_reading_cons]
          rw [hasDup_reading_cons] at h
          by_cases hc : isWordChar c = true
          · rw [if_pos hc] at h
            rw [if_pos hc, ih _ h]
            simp [stFlush, List.append_assoc]
          · rw [if_neg hc] at h
            by_cases hws : isWs c = true
            · rw [if_pos hws] at h
              rw [if_neg hc, if_pos hws, ih _ h]
              simp [stFlush, List.append_assoc]
            · rw [if_neg hws] at h
              rw [if_neg hc, if_neg hws, ih _ h]
              rfl
      | afterW w run =>
          by_cases hws : isWs c = true
          · rw [pass6Go_afterW_cons_ws w run c hws]
            rw [hasDup_afterW_cons_ws w run hws] at h
            rw [ih _ h]
            simp [stFlush, List.append_assoc]
          · cases w with
            | nil =>
                rw [pass6Go_afterW_cons_wnil, if_neg hws]
                rw [hasDup_afterW_cons_wnil, if_neg hws] at h
                by_cases hc : isWordChar c = true
                · rw [if_pos hc] at h
                  rw [if_pos hc, ih _ h]
                  simp [stFlush, List.append_assoc]
                · rw [if_neg hc] at h
                  rw [if_neg hc, ih _ h]
                  simp [stFlush, List.append_assoc]
            | cons h0 t0 =>
                rw [pass6Go_afterW_cons_wcons, if_neg hws]
                rw [hasDup_afterW_cons_wcons, if_neg hws] at h
                by_cases hc : isWordChar c = true
                · rw [if_pos hc] at h
                  rw [if_pos hc]
                  by_cases hci : ciEq c h0
                  · rw [if_pos hci] at h
                    rw [if_pos hci, ih _ h]
                    simp [stFlush, List.append_assoc]
                  · rw [if_neg hci] at h
                    rw [if_neg hci, ih _ h]
                    simp [stFlush, List.append_assoc]
                · rw [if_neg hc] at h
                  rw [if_neg hc, ih _ h]
                  simp [stFlush, List.append_assoc]
      | rep w run cons rem =>
          by_cases hc : isWordChar c = true
          · cases rem with
            | nil =>
                rw [pass6Go_rep_cons_remnil, if_pos hc]
                rw [hasDup_rep_cons_remnil, if_pos hc] at h
                rw [ih _ h]
                simp [stFlush, List.append_assoc]
            | cons h0 t0 =>
                rw [pass6Go_rep_cons_remcons, if_pos hc]
                rw [hasDup_rep_cons_remcons, if_pos hc] at h
                by_cases hci : ciEq c h0
                · rw [if_pos hci] at h
                  rw [if_pos hci, ih _ h]
                  simp [stFlush, List.append_assoc]
                · rw [if_neg hci] at h
                  rw [if_neg hci, ih _ h]
                  simp [stFlush, List.append_assoc]
          · cases rem with
            | nil =>
                rw [hasDup_rep_cons_remnil, if_neg hc] at h
                by_cases hws : isWs c = true
                · rw [if_pos hws] at h
                  exact absurd h (by simp)
                · rw [if_neg hws] at h
                  exact absurd h (by simp)
            | cons h0 t0 =>
                rw [pass6Go_rep_cons_remcons, if_neg hc]
                rw [hasDup_rep_cons_remcons, if_neg hc] at h
                by_cases hws : isWs c = true
                · rw [if_pos hws] at h
                  rw [if_pos hws, ih _ h]
                  simp [stFlush, List.append_assoc]
                · rw [if_neg hws] at h
                  rw [if_neg hws, ih _ h]
                  simp [stFlush, List.append_assoc]

theorem pass6_id_of_hasDup_false {s : List Char} (h : hasDup .idle s = false) :
    pass6 s = s := by
  rw [pass6, pass6_id_aux s .idle h]
  rfl

/-! ## Replay lemmas: evaluating the duplicate mirror over structured text -/

theorem hasDup_run_irrel : ∀ (z : List Char) (w r1 r2 : List Char),
    (hasDup (.afterW w r1) z = hasDup (.afterW w r2) z) ∧
    (∀ cons rem, hasDup (.rep w r1 cons rem) z = hasDup (.rep w r2 cons rem) z) := by
  intro z
  induction z with
  | nil =>
      intro w r1 r2
      exact ⟨rfl, fun _ _ => rfl⟩
  | cons c rest ih =>
      intro w r1 r2
      constructor
      · cases w with
        | nil =>
            rw [hasDup_afterW_cons_wnil, hasDup_afterW_cons_wnil]
            by_cases hws : isWs c = true
            · rw [if_pos hws, if_pos hws]
              exact (ih [] (r1 ++ [c]) (r2 ++ [c])).1
            · rw [if_neg hws, if_neg hws]
        | cons h0 t0 =>
            rw [hasDup_afterW_cons_wcons, hasDup_afterW_cons_wcons]
            by_cases hws : isWs c = true
            · rw [if_pos hws, if_pos hws]
              exact (ih _ (r1 ++ [c]) (r2 ++ [c])).1
            · rw [if_neg hws, if_neg hws]
              by_cases hc : isWordChar c = true
              · rw [if_pos hc, if_pos hc]
                by_cases hci : ciEq c h0
                · rw [if_pos hci, if_pos hci]
                  exact (ih _ r1 r2).2 [c] t0
                · rw [if_neg hci, if_neg hci]
              · rw [if_neg hc, if_neg hc]
      · intro cons rem
        cases rem with
        | nil =>
            rw [hasDup_rep_cons_remnil, hasDup_rep_cons_remnil]
        | cons h0 t0 =>
            rw [hasDup_rep_cons_remcons, hasDup_rep_cons_remcons]
            by_cases hc : isWordChar c = true
            · rw [if_pos hc, if_pos hc]
              by_cases hci : ciEq c h0
              · rw [if_pos hci, if_pos hci]
                exact (ih _ r1 r2).2 (cons ++ [c]) t0
              · rw [if_neg hci, if_neg hci]
            · rw [if_neg hc, if_neg hc]

theorem hasDup_reading_run : ∀ (v u z : List Char),
    (∀ c ∈ v, isWordChar c = true) →
    hasDup (.reading u) (v ++ z) = hasDup (.reading (u ++ v)) z := by
  intro v
  induction v with
  | nil =>
      intro u z _
      rw [List.nil_append, List.append_nil]
  | cons d v ih =>
      intro u z hv
      rw [List.cons_append, hasDup_reading_cons, if_pos (hv d (by simp)),
        ih (u ++ [d]) z (fun e he => hv e (by simp [he])), List.append_assoc]
      rfl

theorem hasDup_idle_word (v z : List Char) (hvne : v ≠ [])
    (hv : ∀ c ∈ v, isWordChar c = true) :
    hasDup .idle (v ++ z) = hasDup (.reading v) z := by
  cases v with
  | nil => exact absurd rfl hvne
  | cons d v2 =>
      rw [List.cons_append, hasDup_idle_cons, if_pos (hv d (by simp)),
        hasDup_reading_run v2 [d] z (fun e he => hv e (by simp [he]))]
      rfl

theorem hasDup_afterW_run : ∀ (v w u z : List Char), (∀ c ∈ v, isWs c = true) →
    hasDup (.afterW w u) (v ++ z) = hasDup (.afterW w (u ++ v)) z := by
  intro v
  induction v with
  | nil =>
      intro w u z _
      rw [List.nil_append, List.append_nil]
  | cons d v ih =>
      intro w u z hv
      rw [List.cons_append, hasDup_afterW_cons_ws w u (hv d (by simp)),
        ih w (u ++ [d]) z (fun e he => hv e (by simp [he])), List.append_assoc]
      rfl

theorem hasDup_reading_ws (w : List Char) (v z : List Char) (hvne : v ≠ [])
    (hv : ∀ c ∈ v, isWs c = true) :
    hasDup (.reading w) (v ++ z) = hasDup (.afterW w v) z := by
  cases v with
  | nil => exact absurd rfl hvne
  | cons d v2 =>
      have hdw : isWordChar d = false := ws_not_word (hv d (by simp))
      rw [List.cons_append, hasDup_reading_cons, if_neg (by simp [hdw]),
        if_pos (hv d (by simp)),
        hasDup_afterW_run v2 w [d] z (fun e he => hv e (by simp [he]))]
      rfl

theorem hasDup_rep_run : ∀ {v rem0 rem : List Char}, ciPre v rem0 rem →
    (∀ c ∈ v, isWordChar c = true) →
    ∀ (w run u z : List Char),
      hasDup (.rep w run u rem0) (v ++ z) = hasDup (.rep w run (u ++ v) rem) z := by
  intro v rem0 rem hpre
  induction hpre with
  | nil w0 =>
      intro _ w run u z
      rw [List.nil_append, List.append_nil]
  | @cons c h0 cs w2 rem2 hce hp2 ih =>
      intro hv w run u z
      rw [List.cons_append, hasDup_rep_cons_remcons, if_pos (hv c (by simp)),
        if_pos hce, ih (fun e he => hv e (by simp [he])) w run (u ++ [c]) z,
        List.append_assoc]
      rfl

theorem hasDup_afterW_to_rep {cons w rem : List Char} (hpre : ciPre cons w rem)
    (hcne : cons ≠ []) (hcw : ∀ c ∈ cons, isWordChar c = true)
    (run z : List Char) :
    hasDup (.afterW w run) (cons ++ z) = hasDup (.rep w run cons rem) z := by
  cases hpre with
  | nil => exact absurd rfl hcne
  | @cons c h0 cs w2 rem2 hce hp2 =>
      have hcwc : isWordChar c = true := hcw c (by simp)
      have hws : ¬ (isWs c = true) := fun hx => by
        rw [ws_not_word hx] at hcwc
        simp at hcwc
      rw [List.cons_append, hasDup_afterW_cons_wcons, if_neg hws, if_pos hcwc,
        if_pos hce, hasDup_rep_run hp2 (fun e he => hcw e (by simp [he]))
          (h0 :: w2) run [c] z]
      rfl

theorem hasDup_idle_ws : ∀ (v z : List Char), (∀ c ∈ v, isWs c = true) →
    hasDup .idle (v ++ z) = hasDup .idle z := by
  intro v
  induction v with
  | nil => intro z _; rw [List.nil_append]
  | cons d v ih =>
      intro z hv
      have hdw : isWordChar d = false := ws_not_word (hv d (by simp))
      rw [List.cons_append, hasDup_idle_cons, if_neg (by simp [hdw])]
      exact ih z (fun e he => hv e (by simp [he]))

theorem hasDup_rep_reading_converge {t : List Char} (hth : headNotWord t = true)
    {w run cons rem : List Char} (hrem : rem ≠ []) :
    hasDup (.rep w run cons rem) t = hasDup (.reading cons) t := by
  cases t with
  | nil =>
      rw [hasDup_rep_nil]
      cases rem with
      | nil => exact absurd rfl hrem
      | cons r0 r1 => rfl
  | cons d t2 =>
      have hd : isWordChar d = false := by simpa [headNotWord] using hth
      cases rem with
      | nil => exact absurd rfl hrem
      | cons h0 t0 =>
          by_cases hws : isWs d = true
          · rw [hasDup_rep_cons_remcons,
              if_neg (by simp [hd] : ¬ (isWordChar d = true)), if_pos hws,
              hasDup_reading_cons,
              if_neg (by simp [hd] : ¬ (isWordChar d = true)), if_pos hws]
          · rw [hasDup_rep_cons_remcons,
              if_neg (by simp [hd] : ¬ (isWordChar d = true)), if_neg hws,
              hasDup_reading_cons,
              if_neg (by simp [hd] : ¬ (isWordChar d = true)), if_neg hws]

/-- The duplicate-word pass never leaves an adjacent duplicate behind: its
output, replayed through the mirror machine, completes no repeat. -/
theorem pass6_out_nodup : ∀ (s : List Char) (st : DupSt), goodSt st →
    hasDup .idle (pass6Go st s) = false := by
  intro s
  induction s with
  | nil =>
      intro st hg
      cases st with
      | idle => rfl
      | reading w =>
          obtain ⟨hwne, hww⟩ := hg
          have h1 := hasDup_idle_word w [] hwne hww
          rw [List.append_nil] at h1
          show hasDup .idle w = false
          rw [h1]
          rfl
      | afterW w run =>
          obtain ⟨hwne, hww, hrne, hrw⟩ := hg
          have h1 : hasDup .idle (w ++ run) = hasDup (.reading w) run :=
            hasDup_idle_word w run hwne hww
          have h2 : hasDup (.reading w) (run ++ []) = hasDup (.afterW w run) [] :=
            hasDup_reading_ws w run [] hrne hrw
          rw [List.append_nil] at h2
          show hasDup .idle (w ++ run) = false
          rw [h1, h2]
          rfl
      | rep w run cons rem =>
          obtain ⟨hwne, hww, hrne, hrw, hcne, hcw, hpre⟩ := hg
          rw [pass6Go_rep_nil]
          by_cases hrem : rem = []
          · rw [if_pos hrem]
            have h1 := hasDup_idle_word w [] hwne hww
            rw [List.append_nil] at h1
            rw [h1]
            rfl
          · rw [if_neg hrem]
            have h3 : hasDup (.afterW w run) (cons ++ []) =
                hasDup (.rep w run cons rem) [] :=
              hasDup_afterW_to_rep hpre hcne hcw run []
            rw [List.append_nil] at h3
            show hasDup .idle ((w ++ run) ++ cons) = false
            rw [List.append_assoc, hasDup_idle_word w _ hwne hww,
              hasDup_reading_ws w run cons hrne hrw, h3, hasDup_rep_nil]
            simpa using hrem
  | cons c rest ih =>
      intro st hg
      cases st with
      | idle =>
          rw [pass6Go_idle_cons]
          by_cases hc : isWordChar c = true
          · rw [if_pos hc]
            exact ih _ ⟨by simp, by simp [hc]⟩
          · rw [if_neg hc]
            rw [hasDup_idle_cons, if_neg hc]
            exact ih .idle trivial
      | reading w =>
          obtain ⟨hwne, hww⟩ := hg
          rw [pass6Go_reading_cons]
          by_cases hc : isWordChar c = true
          · rw [if_pos hc]
            refine ih _ ⟨by simp, ?_⟩
            intro d hd
            rcases List.mem_append.1 hd with hd | hd
            · exact hww d hd
            · simp at hd; subst hd; exact hc
          · by_cases hws : isWs c = true
            · rw [if_neg hc, if_pos hws]
              exact ih _ ⟨hwne, hww, by simp, by simp [hws]⟩
            · rw [if_neg hc, if_neg hws]
              rw [hasDup_idle_word w _ hwne hww, hasDup_reading_cons,
                if_neg hc, if_neg hws]
              exact ih .idle trivial
      | afterW w run =>
          obtain ⟨hwne, hww, hrne, hrw⟩ := hg
          by_cases hws : isWs c = true
          · rw [pass6Go_afterW_cons_ws w run c hws]
            refine ih _ ⟨hwne, hww, by simp, ?_⟩
            intro d hd
            rcases List.mem_append.1 hd with hd | hd
            · exact hrw d hd
            · simp at hd; subst hd; exact hws
          · cases w with
            | nil => exact absurd rfl hwne
            | cons h0 t0 =>
                rw [pass6Go_afterW_cons_wcons, if_neg hws]
                by_cases hc : isWordChar c = true
                · rw [if_pos hc]
                  by_cases hci : ciEq c h0
                  · rw [if_pos hci]
                    exact ih _ ⟨hwne, hww, hrne, hrw, by simp, by simp [hc],
                      ciPre.cons hci (ciPre.nil t0)⟩
                  · rw [if_neg hci]
                    obtain ⟨t, htE⟩ := (pass6Go_head rest).1 [c]
                    rw [htE, List.append_assoc,
                      hasDup_idle_word (h0 :: t0) _ hwne hww,
                      hasDup_reading_ws _ run _ hrne hrw,
                      show ([c] ++ t : List Char) = c :: t from rfl,
                      hasDup_afterW_cons_wcons, if_neg hws, if_pos hc, if_neg hci]
                    have hIH := ih (.reading [c]) ⟨by simp, by simp [hc]⟩
                    rw [htE, hasDup_idle_word [c] t (by simp) (by simp [hc])] at hIH
                    exact hIH
                · rw [if_neg hc]
                  rw [List.append_assoc, hasDup_idle_word (h0 :: t0) _ hwne hww,
                    hasDup_reading_ws _ run _ hrne hrw,
                    hasDup_afterW_cons_wcons, if_neg hws, if_neg hc]
                  exact ih .idle trivial
      | rep w run cons rem =>
          obtain ⟨hwne, hww, hrne, hrw, hcne, hcw, hpre⟩ := hg
          have hconsc : ∀ hcc : isWordChar c = true,
              ∀ d ∈ cons ++ [c], isWordChar d = true := by
            intro hcc d hd
            rcases List.mem_append.1 hd with hd | hd
            · exact hcw d hd
            · simp at hd; subst hd; exact hcc
          by_cases hc : isWordChar c = true
          · cases rem with
            | nil =>
                rw [pass6Go_rep_cons_remnil, if_pos hc]
                obtain ⟨t, htE⟩ := (pass6Go_head rest).1 (cons ++ [c])
                rw [htE, List.append_assoc, hasDup_idle_word w _ hwne hww,
                  hasDup_reading_ws w run _ hrne hrw, List.append_assoc,
                  hasDup_afterW_to_rep hpre hcne hcw run ([c] ++ t),
                  show ([c] ++ t : List Char) = c :: t from rfl,
                  hasDup_rep_cons_remnil, if_pos hc]
                have hIH := ih (.reading (cons ++ [c])) ⟨by simp, hconsc hc⟩
                rw [htE, hasDup_idle_word (cons ++ [c]) t (by simp) (hconsc hc)] at hIH
                exact hIH
            | cons h0 t0 =>
                rw [pass6Go_rep_cons_remcons, if_pos hc]
                by_cases hci : ciEq c h0
                · rw [if_pos hci]
                  exact ih _ ⟨hwne, hww, hrne, hrw, by simp, hconsc hc,
                    ciPre_snoc hpre rfl hci⟩
                · rw [if_neg hci]
                  obtain ⟨t, htE⟩ := (pass6Go_head rest).1 (cons ++ [c])
                  rw [htE, List.append_assoc, hasDup_idle_word w _ hwne hww,
                    hasDup_reading_ws w run _ hrne hrw, List.append_assoc,
                    hasDup_afterW_to_rep hpre hcne hcw run ([c] ++ t),
                    show ([c] ++ t : List Char) = c :: t from rfl,
                    hasDup_rep_cons_remcons, if_pos hc, if_neg hci]
                  have hIH := ih (.reading (cons ++ [c])) ⟨by simp, hconsc hc⟩
                  rw [htE, hasDup_idle_word (cons ++ [c]) t (by simp) (hconsc hc)] at hIH
                  exact hIH
          · by_cases hws : isWs c = true
            · rw [pass6Go_rep_cons_ws w run cons rem c hws]
              by_cases hrem : rem = []
              · rw [if_pos hrem]
                exact ih _ ⟨hwne, hww, by simp, by simp [hws]⟩
              · rw [if_neg hrem]
                obtain ⟨t, htE, hth⟩ := (pass6Go_head rest).2.1 cons [c]
                  (by simp) (by simp [hws])
                rw [htE, List.append_assoc, hasDup_idle_word w _ hwne hww,
                  hasDup_reading_ws w run _ hrne hrw,
                  hasDup_afterW_to_rep hpre hcne hcw run t,
                  hasDup_rep_reading_converge hth hrem]
                have hIH := ih (.afterW cons [c]) ⟨hcne, hcw, by simp, by simp [hws]⟩
                rw [htE, hasDup_idle_word cons t hcne hcw] at hIH
                exact hIH
            · cases rem with
              | nil =>
                  rw [pass6Go_rep_cons_remnil, if_neg hc, if_neg hws]
                  rw [hasDup_idle_word w _ hwne hww, hasDup_reading_cons,
                    if_neg hc, if_neg hws]
                  exact ih .idle trivial
              | cons h0 t0 =>
                  rw [pass6Go_rep_cons_remcons, if_neg hc, if_neg hws]
                  rw [List.append_assoc, List.append_assoc,
                    hasDup_idle_word w _ hwne hww,
                    hasDup_reading_ws w run _ hrne hrw,
                    hasDup_afterW_to_rep hpre hcne hcw run _,
                    hasDup_rep_cons_remcons, if_neg hc, if_neg hws]
                  exact ih .idle trivial

/-! ## Dragging duplicate-freeness through passes 7 and 8 -/

theorem punct_not_word {c : Char} (h : isPunct c = true) : isWordChar c = false := by
  rw [isPunct] at h
  simp only [Bool.or_eq_true, decide_eq_true_eq] at h
  rcases h with ((((h | h) | h) | h) | h) | h <;> subst h <;> decide

theorem hasDup_reading_reset {w : List Char} {c : Char} (hcw : isWordChar c = false)
    (hcs : isWs c = false) (Z : List Char) :
    hasDup (.reading w) (c :: Z) = hasDup .idle Z := by
  rw [hasDup_reading_cons, if_neg (by simp [hcw]), if_neg (by simp [hcs])]

theorem hasDup_afterW_reset {w r : List Char} {c : Char} (hcw : isWordChar c = false)
    (hcs : isWs c = false) (Z : List Char) :
    hasDup (.afterW w r) (c :: Z) = hasDup .idle Z := by
  cases w with
  | nil =>
      rw [hasDup_afterW_cons_wnil, if_neg (by simp [hcs]), if_neg (by simp [hcw])]
  | cons h0 t0 =>
      rw [hasDup_afterW_cons_wcons, if_neg (by simp [hcs]), if_neg (by simp [hcw])]

theorem hasDup_rep_remcons_reset {w r cons : List Char} {h0 : Char} {t0 : List Char}
    {c : Char} (hcw : isWordChar c = false) (hcs : isWs c = false) (Z : List Char) :
    hasDup (.rep w r cons (h0 :: t0)) (c :: Z) = hasDup .idle Z := by
  rw [hasDup_rep_cons_remcons, if_neg (by simp [hcw]), if_neg (by simp [hcs])]

theorem hasDup_transfer_pre : ∀ (pre : List Char) (D : DupSt) (Z Z2 : List Char),
    (∀ S : DupSt, hasDup S Z = false → hasDup S Z2 = false) →
    hasDup D (pre ++ Z) = false → hasDup D (pre ++ Z2) = false := by
  intro pre
  induction pre with
  | nil => intro D Z Z2 hT h; exact hT D h
  | cons c pre ih =>
      intro D Z Z2 hT h
      rw [List.cons_append] at h ⊢
      cases D with
      | idle =>
          rw [hasDup_idle_cons] at h ⊢
          by_cases hc : isWordChar c = true
          · rw [if_pos hc] at h ⊢; exact ih _ Z Z2 hT h
          · rw [if_neg hc] at h ⊢; exact ih _ Z Z2 hT h
      | reading w =>
          rw [hasDup_reading_cons] at h ⊢
          by_cases hc : isWordChar c = true
          · rw [if_pos hc] at h ⊢; exact ih _ Z Z2 hT h
          · rw [if_neg hc] at h ⊢
            by_cases hws : isWs c = true
            · rw [if_pos hws] at h ⊢; exact ih _ Z Z2 hT h
            · rw [if_neg hws] at h ⊢; exact ih _ Z Z2 hT h
      | afterW w run =>
          cases w with
          | nil =>
              rw [hasDup_afterW_cons_wnil] at h ⊢
              by_cases hws : isWs c = true
              · rw [if_pos hws] at h ⊢; exact ih _ Z Z2 hT h
              · rw [if_neg hws] at h ⊢
                by_cases hc : isWordChar c = true
                · rw [if_pos hc] at h ⊢; exact ih _ Z Z2 hT h
                · rw [if_neg hc] at h ⊢; exact ih _ Z Z2 hT h
          | cons h0 t0 =>
              rw [hasDup_afterW_cons_wcons] at h ⊢
              by_cases hws : isWs c = true
              · rw [if_pos hws] at h ⊢; exact ih _ Z Z2 hT h
              · rw [if_neg hws] at h ⊢
                by_cases hc : isWordChar c = true
                · rw [if_pos hc] at h ⊢
                  by_cases hci : ciEq c h0
                  · rw [if_pos hci] at h ⊢; exact ih _ Z Z2 hT h
                  · rw [if_neg hci] at h ⊢; exact ih _ Z Z2 hT h
                · rw [if_neg hc] at h ⊢; exact ih _ Z Z2 hT h
      | rep w run cons rem =>
          cases rem with
          | nil =>
              rw [hasDup_rep_cons_remnil] at h ⊢
              by_cases hc : isWordChar c = true
              · rw [if_pos hc] at h ⊢; exact ih _ Z Z2 hT h
              · rw [if_neg hc] at h ⊢
                by_cases hws : isWs c = true
                · rw [if_pos hws] at h; exact absurd h (by simp)
                · rw [if_neg hws] at h; exact absurd h (by simp)
          | cons h0 t0 =>
              rw [hasDup_rep_cons_remcons] at h ⊢
              by_cases hc : isWordChar c = true
              · rw [if_pos hc] at h ⊢
                by_cases hci : ciEq c h0
                · rw [if_pos hci] at h ⊢; exact ih _ Z Z2 hT h
                · rw [if_neg hci] at h ⊢; exact ih _ Z Z2 hT h
              · rw [if_neg hc] at h ⊢
                by_cases hws : isWs c = true
                · rw [if_pos hws] at h ⊢; exact ih _ Z Z2 hT h
                · rw [if_neg hws] at h ⊢; exact ih _ Z Z2 hT h

theorem hasDup_del_ws_before_reset (D : DupSt) (acc : List Char) (hne : acc ≠ [])
    (hacc : ∀ a ∈ acc, isWs a = true) {c : Char} (hcw : isWordChar c = false)
    (hcs : isWs c = false) (Z Z2 : List Char)
    (hZ : hasDup .idle Z = false → hasDup .idle Z2 = false)
    (h : hasDup D (acc ++ c :: Z) = false) : hasDup D (c :: Z2) = false := by
  cases D with
  | idle =>
      rw [hasDup_idle_ws acc _ hacc, hasDup_idle_cons, if_neg (by simp [hcw])] at h
      rw [hasDup_idle_cons, if_neg (by simp [hcw])]
      exact hZ h
  | reading w =>
      rw [hasDup_reading_ws w acc _ hne hacc, hasDup_afterW_reset hcw hcs] at h
      rw [hasDup_reading_reset hcw hcs]
      exact hZ h
  | afterW w r =>
      rw [hasDup_afterW_run acc w r _ hacc, hasDup_afterW_reset hcw hcs] at h
      rw [hasDup_afterW_reset hcw hcs]
      exact hZ h
  | rep w r cons rem =>
      cases rem with
      | nil =>
          cases acc with
          | nil => exact absurd rfl hne
          | cons a0 acc2 =>
              rw [List.cons_append, hasDup_rep_cons_remnil,
                if_neg (by simp [ws_not_word (hacc a0 (by simp))]),
                if_pos (hacc a0 (by simp))] at h
              exact absurd h (by simp)
      | cons h0 t0 =>
          cases acc with
          | nil => exact absurd rfl hne
          | cons a0 acc2 =>
              rw [List.cons_append, hasDup_rep_cons_remcons,
                if_neg (by simp [ws_not_word (hacc a0 (by simp))]),
                if_pos (hacc a0 (by simp)),
                hasDup_afterW_run acc2 cons [a0] _
                  (fun e he => hacc e (by simp [he])),
                hasDup_afterW_reset hcw hcs] at h
              rw [hasDup_rep_remcons_reset hcw hcs]
              exact hZ h

theorem hasDup_transfer_ws_char (D : DupSt) {c c2 : Char} (hc : isWs c = true)
    (hc2 : isWs c2 = true) (Z Z2 : List Char)
    (hT : ∀ S : DupSt, hasDup S Z = false → hasDup S Z2 = false)
    (h : hasDup D (c :: Z) = false) : hasDup D (c2 :: Z2) = false := by
  have hw : isWordChar c = false := ws_not_word hc
  have hw2 : isWordChar c2 = false := ws_not_word hc2
  cases D with
  | idle =>
      rw [hasDup_idle_cons, if_neg (by simp [hw])] at h
      rw [hasDup_idle_cons, if_neg (by simp [hw2])]
      exact hT _ h
  | reading w =>
      rw [hasDup_reading_cons, if_neg (by simp [hw]), if_pos hc] at h
      rw [hasDup_reading_cons, if_neg (by simp [hw2]), if_pos hc2,
        (hasDup_run_irrel Z2 w [c2] [c]).1]
      exact hT _ h
  | afterW w r =>
      rw [hasDup_afterW_cons_ws w r hc] at h
      rw [hasDup_afterW_cons_ws w r hc2,
        (hasDup_run_irrel Z2 w (r ++ [c2]) (r ++ [c])).1]
      exact hT _ h
  | rep w r cons rem =>
      cases rem with
      | nil =>
          rw [hasDup_rep_cons_remnil, if_neg (by simp [hw]), if_pos hc] at h
          exact absurd h (by simp)
      | cons h0 t0 =>
          rw [hasDup_rep_cons_remcons, if_neg (by simp [hw]), if_pos hc] at h
          rw [hasDup_rep_cons_remcons, if_neg (by simp [hw2]), if_pos hc2,
            (hasDup_run_irrel Z2 cons [c2] [c]).1]
          exact hT _ h

theorem hasDup_dedup_ws (D : DupSt) {c d : Char} (hc : isWs c = true)
    (hd : isWs d = true) (Z : List Char)
    (h : hasDup D (c :: d :: Z) = false) : hasDup D (d :: Z) = false := by
  have hw : isWordChar c = false := ws_not_word hc
  cases D with
  | idle =>
      rw [hasDup_idle_cons, if_neg (by simp [hw])] at h
      exact h
  | reading w =>
      rw [hasDup_reading_cons, if_neg (by simp [hw]), if_pos hc,
        hasDup_afterW_cons_ws w [c] hd] at h
      rw [hasDup_reading_cons, if_neg (by simp [ws_not_word hd]), if_pos hd,
        (hasDup_run_irrel Z w [d] ([c] ++ [d])).1]
      exact h
  | afterW w r =>
      rw [hasDup_afterW_cons_ws w r hc, hasDup_afterW_cons_ws w (r ++ [c]) hd] at h
      rw [hasDup_afterW_cons_ws w r hd,
        (hasDup_run_irrel Z w (r ++ [d]) ((r ++ [c]) ++ [d])).1]
      exact h
  | rep w r cons rem =>
      cases rem with
      | nil =>
          rw [hasDup_rep_cons_remnil, if_neg (by simp [hw]), if_pos hc] at h
          exact absurd h (by simp)
      | cons h0 t0 =>
          rw [hasDup_rep_cons_remcons, if_neg (by simp [hw]), if_pos hc,
            hasDup_afterW_cons_ws cons [c] hd] at h
          rw [hasDup_rep_cons_remcons, if_neg (by simp [ws_not_word hd]), if_pos hd,
            (hasDup_run_irrel Z cons [d] ([c] ++ [d])).1]
          exact h

theorem hasDup_drop_ws_suffix (m b : List Char) (hb : ∀ a ∈ b, isWs a = true)
    (S : DupSt) (h : hasDup S (m ++ b) = false) : hasDup S m = false := by
  have hm : hasDup S (m ++ []) = false := by
    refine hasDup_transfer_pre m S b [] ?_ h
    intro S2 h2
    cases S2 with
    | idle => rfl
    | reading w => rfl
    | afterW w r => rfl
    | rep w r cons rem =>
        cases rem with
        | cons h0 t0 => rfl
        | nil =>
            cases b with
            | nil => exact h2
            | cons b0 b2 =>
                rw [hasDup_rep_cons_remnil,
                  if_neg (by simp [ws_not_word (hb b0 (by simp))]),
                  if_pos (hb b0 (by simp))] at h2
                exact absurd h2 (by simp)
  rw [List.append_nil] at hm
  exact hm

theorem hasDup_drag7 : ∀ y : List Char,
    (∀ D : DupSt, hasDup D y = false → hasDup D (pass7Go none y) = false) ∧
    (∀ acc, acc ≠ [] → (∀ a ∈ acc, isWs a = true) →
      ∀ D : DupSt, hasDup D (acc ++ y) = false →
        hasDup D (pass7Go (some acc) y) = false) := by
  intro y
  induction y with
  | nil =>
      refine ⟨fun D h => h, fun acc _ _ D h => ?_⟩
      rw [List.append_nil] at h
      exact h
  | cons c rest ih =>
      constructor
      · intro D h
        rw [pass7Go_none_cons]
        by_cases hws : isWs c = true
        · rw [if_pos hws]
          exact ih.2 [c] (by simp) (by simp [hws]) D h
        · rw [if_neg hws]
          exact hasDup_transfer_pre [c] D rest _ (fun S => ih.1 S) h
      · intro acc hne hacc D h
        rw [pass7Go_some_cons]
        by_cases hws : isWs c = true
        · rw [if_pos hws]
          refine ih.2 (acc ++ [c]) (by simp) ?_ D ?_
          · intro a ha
            rcases List.mem_append.1 ha with ha | ha
            · exact hacc a ha
            · simp at ha; subst ha; exact hws
          · simpa [List.append_assoc] using h
        · rw [if_neg hws]
          by_cases hpc : isPunct c = true
          · rw [if_pos hpc]
            exact hasDup_del_ws_before_reset D acc hne hacc (punct_not_word hpc)
              (by simpa using hws) rest _ (ih.1 .idle) h
          · rw [if_neg hpc]
            have h2 : hasDup D ((acc ++ [c]) ++ rest) = false := by
              simpa [List.append_assoc] using h
            have h3 := hasDup_transfer_pre (acc ++ [c]) D rest _ (fun S => ih.1 S) h2
            simpa [List.append_assoc] using h3

theorem hasDup_drag_collapse : ∀ y : List Char,
    (∀ D : DupSt, hasDup D y = false → hasDup D (collapseWsGo false y) = false) ∧
    (∀ c, isWs c = true → ∀ D : DupSt, hasDup D (c :: y) = false →
      hasDup D (' ' :: collapseWsGo true y) = false) := by
  intro y
  induction y with
  | nil =>
      refine ⟨fun D h => h, fun c hc D h => ?_⟩
      exact hasDup_transfer_ws_char D hc (by decide) [] [] (fun S hS => hS) h
  | cons d rest ih =>
      constructor
      · intro D h
        rw [collapseWsGo_cons]
        by_cases hwd : isWs d = true
        · rw [if_pos hwd, if_neg (by decide : ¬ (false = true))]
          exact ih.2 d hwd D h
        · rw [if_neg hwd]
          exact hasDup_transfer_pre [d] D rest _ (fun S => ih.1 S) h
      · intro c hc D h
        rw [collapseWsGo_cons]
        by_cases hwd : isWs d = true
        · rw [if_pos hwd, if_pos rfl]
          exact ih.2 d hwd D (hasDup_dedup_ws D hc hwd rest h)
        · rw [if_neg hwd]
          exact hasDup_transfer_ws_char D hc (by decide) (d :: rest)
            (d :: collapseWsGo false rest)
            (fun S hS => hasDup_transfer_pre [d] S rest _ (fun S2 => ih.1 S2) hS) h

theorem hasDup_drag_stripL (y : List Char) (h : hasDup .idle y = false) :
    hasDup .idle (stripL y) = false := by
  have hdec := stripL_decomp y
  rw [hdec, hasDup_idle_ws _ _ (fun a ha => mem_takeWhile_ws _ a ha)] at h
  refine hasDup_drop_ws_suffix (stripL y) _ ?_ .idle h
  intro a ha
  rw [List.mem_reverse] at ha
  exact mem_takeWhile_ws _ a ha

/-! ## Assembling the idempotence facts for a newline-free input -/

theorem word_not_ws {a : Char} (h : isWordChar a = true) : isWs a = false := by
  by_cases hx : isWs a = true
  · rw [ws_not_word hx] at h
    exact absurd h (by simp)
  · simpa using hx

theorem quote_not_word : isWordChar quoteChar = false := by decide

theorem punct_ne_quote {b : Char} (h : isPunct b = true) : b ≠ quoteChar := by
  rw [isPunct] at h
  simp only [Bool.or_eq_true, decide_eq_true_eq] at h
  rcases h with ((((h | h) | h) | h) | h) | h <;> subst h <;> decide

theorem punct_not_ws {b : Char} (h : isPunct b = true) : isWs b = false := by
  rw [isPunct] at h
  simp only [Bool.or_eq_true, decide_eq_true_eq] at h
  rcases h with ((((h | h) | h) | h) | h) | h <;> subst h <;> decide

/-- Every structural property needed for a second sanitizer run to be the
identity holds of the sanitizer output, provided the input has no newline
(newlines are what allow the tag passes to create new removable tags). -/
theorem sanitize_props (x : List Char) (hnl : '\n' ∉ x) :
    noPairB '[' ']' false (sanitize x) = true ∧
    noPairB '<' '>' false (sanitize x) = true ∧
    noAdj pWQ (sanitize x) = true ∧
    noAdj pQW (sanitize x) = true ∧
    hasDup .idle (sanitize x) = false ∧
    noAdj pWP (sanitize x) = true ∧
    canonicalWs (sanitize x) = true := by
  set Z1 := stripTags '[' ']' x with hZ1
  set Z2 := stripTags '<' '>' Z1 with hZ2
  set Z3 := pass3 Z2 with hZ3
  set Z4 := pass4 Z3 with hZ4
  set Z5 := pass5 Z4 with hZ5
  set Z6 := pass6 Z5 with hZ6
  set Z7 := pass7 Z6 with hZ7
  have hn1 : '\n' ∉ Z1 := WSub.no_nl (WSub_stripTags '[' ']' x) hnl
  have hn2 : '\n' ∉ Z2 := WSub.no_nl (WSub_stripTags '<' '>' Z1) hn1
  have hb1 : noPairB '[' ']' false Z1 = true :=
    noPairB_of_hasTagMatch_false '[' ']' Z1 hn1
      ((stripTagsGo_no_match '[' ']' (by decide) (by decide) x).1)
  have hb2 : noPairB '[' ']' false Z2 = true :=
    noPairB_WSub '[' ']' (by decide) (by decide) (WSub_stripTags '<' '>' Z1) false hb1
  have hb3 : noPairB '[' ']' false Z3 = true :=
    noPairB_WSub '[' ']' (by decide) (by decide) (WSub_pass3Go Z2).1 false hb2
  have hb4 : noPairB '[' ']' false Z4 = true :=
    noPairB_WSub '[' ']' (by decide) (by decide) (WSub_pass4Go Z3).1 false hb3
  have hb5 : noPairB '[' ']' false Z5 = true :=
    noPairB_WSub '[' ']' (by decide) (by decide) (WSub_pass5Go Z4).1 false hb4
  have hb6 : noPairB '[' ']' false Z6 = true :=
    noPairB_WSub '[' ']' (by decide) (by decide) (WSub_pass6Go Z5).1 false hb5
  have hb7 : noPairB '[' ']' false Z7 = true :=
    noPairB_WSub '[' ']' (by decide) (by decide) (WSub_pass7Go Z6).1 false hb6
  have hb8 : noPairB '[' ']' false (collapseWs Z7) = true :=
    noPairB_WSub '[' ']' (by decide) (by decide) (WSub_collapseWsGo Z7).1 false hb7
  have hb9 : noPairB '[' ']' false (stripL (collapseWs Z7)) = true :=
    noPairB_WSub '[' ']' (by decide) (by decide) (WSub_stripL (collapseWs Z7)) false hb8
  have hg2 : noPairB '<' '>' false Z2 = true :=
    noPairB_of_hasTagMatch_false '<' '>' Z2 hn2
      ((stripTagsGo_no_match '<' '>' (by decide) (by decide) Z1).1)
  have hg3 : noPairB '<' '>' false Z3 = true :=
    noPairB_WSub '<' '>' (by decide) (by decide) (WSub_pass3Go Z2).1 false hg2
  have hg4 : noPairB '<' '>' false Z4 = true :=
    noPairB_WSub '<' '>' (by decide) (by decide) (WSub_pass4Go Z3).1 false hg3
  have hg5 : noPairB '<' '>' false Z5 = true :=
    noPairB_WSub '<' '>' (by decide) (by decide) (WSub_pass5Go Z4).1 false hg4
  have hg6 : noPairB '<' '>' false Z6 = true :=
    noPairB_WSub '<' '>' (by decide) (by decide) (WSub_pass6Go Z5).1 false hg5
  have hg7 : noPairB '<' '>' false Z7 = true :=
    noPairB_WSub '<' '>' (by decide) (by decide) (WSub_pass7Go Z6).1 false hg6
  have hg8 : noPairB '<' '>' false (collapseWs Z7) = true :=
    noPairB_WSub '<' '>' (by decide) (by decide) (WSub_collapseWsGo Z7).1 false hg7
  have hg9 : noPairB '<' '>' false (stripL (collapseWs Z7)) = true :=
    noPairB_WSub '<' '>' (by decide) (by decide) (WSub_stripL (collapseWs Z7)) false hg8
  have hq4 : noAdj pWQ Z4 = true := (pass4_out_noAdjWQ Z3).1
  have hq5 : noAdj pWQ Z5 = true := (pass5_pres_noAdjWQ Z4 hq4).1
  have hq6 : noAdj pWQ Z6 = true := by
    refine pass6_pres_noAdj pWQ ?_ Z5 .idle trivial hq5
    intro a b ha
    exact pWQ_of_not_ws (word_not_ws ha) b
  have hq7 : noAdj pWQ Z7 = true := by
    refine (pass7_pres_noAdj pWQ ?_ Z6).1 hq6
    intro a b hb
    exact pWQ_of_ne_quote (punct_ne_quote hb) a
  have hq8 : noAdj pWQ (collapseWs Z7) = true := by
    refine (collapse_pres_noAdj pWQ ?_ ?_ Z7).1 hq7
    · intro a a2 b hwa hwa2
      rw [pWQ, pWQ, hwa, hwa2]
    · intro a b b2 hwb hwb2
      rw [pWQ, pWQ]
      simp [ws_not_quote hwb, ws_not_quote hwb2]
  have hq9 : noAdj pWQ (stripL (collapseWs Z7)) = true := noAdj_stripL hq8
  have hw5 : noAdj pQW Z5 = true := (pass5_out_noAdjQW Z4).1
  have hw6 : noAdj pQW Z6 = true := by
    refine pass6_pres_noAdj pQW ?_ Z5 .idle trivial hw5
    intro a b ha
    refine pQW_of_ne_quote ?_ b
    intro he
    rw [he] at ha
    exact absurd ha (by rw [quote_not_word]; simp)
  have hw7 : noAdj pQW Z7 = true := by
    refine (pass7_pres_noAdj pQW ?_ Z6).1 hw6
    intro a b hb
    exact pQW_of_not_ws (punct_not_ws hb) a
  have hw8 : noAdj pQW (collapseWs Z7) = true := by
    refine (collapse_pres_noAdj pQW ?_ ?_ Z7).1 hw7
    · intro a a2 b hwa hwa2
      rw [pQW, pQW]
      simp [ws_not_quote hwa, ws_not_quote hwa2]
    · intro a b b2 hwb hwb2
      rw [pQW, pQW, hwb, hwb2]
  have hw9 : noAdj pQW (stripL (collapseWs Z7)) = true := noAdj_stripL hw8
  have hd6 : hasDup .idle Z6 = false := pass6_out_nodup Z5 .idle trivial
  have hd7 : hasDup .idle Z7 = false := (hasDup_drag7 Z6).1 .idle hd6
  have hd8 : hasDup .idle (collapseWs Z7) = false :=
    (hasDup_drag_collapse Z7).1 .idle hd7
  have hd9 : hasDup .idle (stripL (collapseWs Z7)) = false :=
    hasDup_drag_stripL _ hd8
  have hp7 : noAdj pWP Z7 = true := (pass7_out_noAdjWP Z6).1
  have hp8 : noAdj pWP (collapseWs Z7) = true := by
    refine (collapse_pres_noAdj pWP ?_ ?_ Z7).1 hp7
    · intro a a2 b hwa hwa2
      rw [pWP, pWP, hwa, hwa2]
    · intro a b b2 hwb hwb2
      rw [pWP, pWP]
      simp [ws_not_punct hwb, ws_not_punct hwb2]
  have hp9 : noAdj pWP (stripL (collapseWs Z7)) = true := noAdj_stripL hp8
  have hc9 : canonicalWs (stripL (collapseWs Z7)) = true := canonicalWs_pass8 Z7
  exact ⟨hb9, hg9, hq9, hw9, hd9, hp9, hc9⟩

/-- The sanitizer is idempotent on newline-free inputs: every pass finds
nothing left to do on the output of a first run. -/
theorem sanitize_idem_of_no_nl (x : List Char) (hnl : '\n' ∉ x) :
    sanitize (sanitize x) = sanitize x := by
  obtain ⟨hA1, hA2, hWQ, hQW, hD, hWP, hCan⟩ := sanitize_props x hnl
  have h1 : stripTags '[' ']' (sanitize x) = sanitize x :=
    (stripTagsGo_id_of_no_match '[' ']' (sanitize x)).1
      (hasTagMatch_false_of_noPairB '[' ']' (sanitize x) hA1)
  have h2 : stripTags '<' '>' (sanitize x) = sanitize x :=
    (stripTagsGo_id_of_no_match '<' '>' (sanitize x)).1
      (hasTagMatch_false_of_noPairB '<' '>' (sanitize x) hA2)
  have h4 : pass4 (sanitize x) = sanitize x := pass4_id_of_noAdjWQ hWQ
  have h5 : pass5 (sanitize x) = sanitize x := (pass5_id_of_noAdjQW _ hQW).1
  have h6 : pass6 (sanitize x) = sanitize x := pass6_id_of_hasDup_false hD
  have h7 : pass7 (sanitize x) = sanitize x := pass7_id_of_noAdjWP hWP
  have h8 : pass8 (sanitize x) = sanitize x := pass8_id_of_canonical hCan
  show pass8 (pass7 (pass6 (pass5 (pass4 (pass3
    (stripTags '<' '>' (stripTags '[' ']' (sanitize x)))))))) = sanitize x
  rw [h1, h2, pass345_eq_pass45 (sanitize x), h4, h5, h6, h7, h8]

/-! ## Claim theorems -/

/-- C10: an inbound POST whose body is absent or unparseable is treated as
the empty object: `proxy_chat` returns `missing_messages` with HTTP 400
for every possible upstream behaviour (no exception, no other error kind). -/
theorem C10_unparseable_body_is_missing_messages
    (resp : Option (Nat × List Char)) :
    proxy_chat none resp = ProxyResult.errMissingMessages ∧
    httpStatus (proxy_chat none resp) = 400 ∧
    proxy_chat none resp = proxy_chat (some (JVal.jobj [])) resp :=
  ⟨rfl, rfl, rfl⟩

/-- C7: a request whose `messages` field is missing or an empty list is
rejected as `missing_messages` with HTTP 400, and the result does not
depend on the backend response (no outbound call is observable). -/
theorem C7_missing_messages_no_call (kvs : List (String × JVal))
    (h : getKey kvs "messages" = none ∨ getKey kvs "messages" = some (JVal.jarr []))
    (resp : Option (Nat × List Char)) :
    proxy_chat (some (JVal.jobj kvs)) resp = ProxyResult.errMissingMessages ∧
    httpStatus (proxy_chat (some (JVal.jobj kvs)) resp) = 400 := by
  have hm : proxy_chat (some (JVal.jobj kvs)) resp = ProxyResult.errMissingMessages := by
    cases kvs with
    | nil => rfl
    | cons p rest =>
        rcases h with h | h <;>
          simp [proxy_chat, requestBody, requestMessages, truthy, h]
  exact ⟨hm, by rw [hm]; rfl⟩

/-- C8 counterexample: the code strips surrounding whitespace from the
configured host before applying the normalization rule, so on the host
value consisting of `myhost` with surrounding spaces the built URL differs
from the spec's rule applied to that value. -/
theorem C8_counterexample :
    build_ollama_api_url (some " myhost ") ≠
      specNormalizeHost " myhost ".toList := by decide

/-- C8 amended: the built URL equals the spec's normalization rule applied
after first trimming surrounding whitespace from the configured value and
substituting `localhost:11434` when the result is empty (or the key is
absent). -/
theorem C8_amended_normalization (hostCfg : Option String) :
    build_ollama_api_url hostCfg =
      specNormalizeHost
        (if stripL ((hostCfg.getD "").toList) = [] then "localhost:11434".toList
         else stripL ((hostCfg.getD "").toList)) := rfl

/-- C4 counterexample: the first sanitization pass does not remove a
bracketed substring whose interior contains a newline (`.` does not match
`'\n'` in Python), so on `"[a\n]"` nothing is removed at all. -/
theorem C4_counterexample :
    stripTags '[' ']' ("[a\n]".toList) = "[a\n]".toList ∧
    stripTags '[' ']' ("[a\n]".toList) ≠ [] := by
  constructor
  · rfl
  · decide

/-- C4 amended: the first pass removes every `[` ... `]` substring whose
interior contains no newline — afterwards no opening bracket has a closing
bracket reachable before a newline — and it removes nothing else: when no
such substring is present the pass is the identity (in particular a
bracketed substring with a newline inside survives unchanged). -/
theorem C4_bracket_removal (s : List Char) :
    hasTagMatch '[' ']' (stripTags '[' ']' s) = false ∧
    (hasTagMatch '[' ']' s = false → stripTags '[' ']' s = s) := by
  refine ⟨(stripTagsGo_no_match '[' ']' (by decide) (by decide) s).1, fun h => ?_⟩
  exact (stripTagsGo_id_of_no_match '[' ']' s).1 h

/-- C4 witness: concrete instance of the amended theorem at `"[a\n]"`. -/
theorem C4_bracket_removal_witness :
    hasTagMatch '[' ']' ("[a\n]".toList) = false ∧
    stripTags '[' ']' ("[a\n]".toList) = "[a\n]".toList :=
  ⟨by decide, (C4_bracket_removal ("[a\n]".toList)).2 (by decide)⟩

/-! ### Lemmas for the per-object matcher and the extractor -/

theorem except_error_bind {ε α β : Type} (e : ε) (f : α → Except ε β) :
    (Except.error e >>= f) = Except.error e := rfl

theorem except_ok_bind {ε α β : Type} (a : α) (f : α → Except ε β) :
    (Except.ok a >>= f : Except ε β) = f a := rfl

theorem except_map_ok {ε α β : Type} (g : α → β) (a : α) :
    (g <$> (Except.ok a : Except ε α)) = Except.ok (g a) := rfl

theorem except_map_error {ε α β : Type} (g : α → β) (e : ε) :
    (g <$> (Except.error e : Except ε α)) = Except.error e := rfl

theorem strFrag_getKey_nil (k : String) : strFrag (getKey [] k) = [] := rfl

theorem contentOfMsg_orEmpty (x : Option JVal) :
    contentOfMsg (orEmptyObj x) =
      (match x with
       | some (.jobj mkvs) => strFrag (getKey mkvs "content")
       | _ => []) := by
  cases x with
  | none => rfl
  | some v =>
      cases v with
      | jobj mkvs => cases mkvs with
          | nil => rfl
          | cons p rest => rfl
      | jbool b => cases b <;> rfl
      | jnum z => cases z <;> rfl
      | jstr s => by_cases hs : s = "" <;>
          simp [orEmptyObj, truthy, hs, contentOfMsg, strFrag, getKey]
      | jnull => rfl
      | jarr l => cases l <;> rfl

theorem collectChoice_spec (ch : JVal) :
    collectChoice ch =
      if badChoice ch then .error () else .ok (choiceFragsSpec ch) := by
  cases ch with
  | jobj ckvs =>
      rw [collectChoice, badChoice, choiceFragsSpec]
      cases hk : getKey ckvs "message" with
      | none => simp [orEmptyObj, directKeyFrag, strFrag_getKey_nil]
      | some v =>
          cases v with
          | jobj mkvs =>
              cases mkvs with
              | nil => simp [orEmptyObj, truthy, directKeyFrag, getKey, strFrag]
              | cons p r => simp [orEmptyObj, truthy, directKeyFrag]
          | jnull => simp [orEmptyObj, truthy, directKeyFrag, strFrag_getKey_nil]
          | jbool b => cases b <;>
              simp [orEmptyObj, truthy, directKeyFrag, strFrag_getKey_nil]
          | jnum z => cases z <;>
              simp [orEmptyObj, truthy, directKeyFrag, strFrag_getKey_nil]
          | jstr s => by_cases hs : s = "" <;>
              simp [orEmptyObj, truthy, hs, directKeyFrag, strFrag_getKey_nil]
          | jarr l => cases l <;>
              simp [orEmptyObj, truthy, directKeyFrag, strFrag_getKey_nil]
  | jnull => rfl
  | jbool b => rfl
  | jnum z => rfl
  | jstr s => rfl
  | jarr l => rfl

theorem collectChoices_spec (l : List JVal) :
    collectChoices l =
      if l.any badChoice then .error ()
      else .ok ((l.map choiceFragsSpec).flatten) := by
  induction l with
  | nil => rfl
  | cons ch rest ih =>
      rw [collectChoices, collectChoice_spec ch]
      by_cases hb : badChoice ch = true
      · simp [hb, except_error_bind]
      · simp only [hb, if_false, Bool.false_eq_true, reduceIte, except_ok_bind]
        rw [ih]
        by_cases hr : rest.any badChoice = true
        · simp [hr, hb, except_map_error]
        · simp [hr, hb, except_map_ok]

/-- The per-object matcher agrees with its declarative description. -/
theorem collect_eq_spec (obj : JVal) : collect_from_obj obj = collectSpec obj := by
  cases obj with
  | jobj kvs =>
      cases kvs with
      | nil => rfl
      | cons p rest =>
          rw [collect_from_obj, collectSpec]
          have ht : truthy (JVal.jobj (p :: rest)) = true := by simp [truthy]
          rw [ht]
          simp only [Bool.true_eq_false, if_false, contentOfMsg_orEmpty, directKeyFrag]
          cases hc : getKey (p :: rest) "choices" with
          | none => simp [except_ok_bind]
          | some v =>
              cases v with
              | jarr l =>
                  simp only [collectChoices_spec]
                  by_cases hb : l.any badChoice = true
                  · simp [hb, except_error_bind]
                  · simp [hb, except_ok_bind]
              | jnull => simp [except_ok_bind]
              | jbool b => simp [except_ok_bind]
              | jnum z => simp [except_ok_bind]
              | jstr s => simp [except_ok_bind]
              | jobj kvs2 => simp [except_ok_bind]
  | jstr s =>
      by_cases hs : s = "" <;> simp [collect_from_obj, collectSpec, truthy, hs]
  | jnull => rfl
  | jbool b => cases b <;> rfl
  | jnum z => cases z <;> rfl
  | jarr l => cases l <;> rfl

theorem phase2Acc_eq (ls : List (List Char)) :
    ∀ ps : List String, phase2Acc ps ls =
      match lineFragsSpec ls with
      | .error e => .error e
      | .ok r => .ok (ps ++ r) := by
  induction ls with
  | nil => intro ps; simp [phase2Acc, lineFragsSpec]
  | cons l rest ih =>
      intro ps
      rw [phase2Acc, lineFragsSpec]
      by_cases hl : stripL l = []
      · simp only [hl, if_true, reduceIte]
        exact ih ps
      · simp only [hl, if_false, reduceIte]
        cases he : lineStep (stripL l) with
        | error e => simp [he, except_error_bind]
        | ok f =>
            simp only [he, except_ok_bind]
            rw [ih (ps ++ f)]
            cases lineFragsSpec rest <;>
              simp [except_ok_bind, except_error_bind, except_map_ok,
                except_map_error, List.append_assoc]

/-! ### Claim theorems (continued) -/

/-- C1: when the extracted and sanitized reply of an upstream response is
empty, the proxy answers `no_reply_extracted` with HTTP 502 carrying the
upstream status and the body truncated to 2000 characters; and a 200
success never carries an empty reply. -/
theorem C1_empty_reply_never_success :
    (∀ (kvs : List (String × JVal)) (mv : JVal) (status : Nat) (tb : List Char)
        (ps : List String),
        getKey kvs "messages" = some mv → truthy mv = true →
        extractPieces tb = .ok ps → assembleSanitized ps tb = [] →
        proxy_chat (some (JVal.jobj kvs)) (some (status, tb)) =
          ProxyResult.errNoReply status (tb.take 2000) ∧
        httpStatus (ProxyResult.errNoReply status (tb.take 2000)) = 502) ∧
    (∀ (reqBody : Option JVal) (resp : Option (Nat × List Char)) (s : List Char),
        proxy_chat reqBody resp = ProxyResult.success s → s ≠ []) := by
  constructor
  · intro kvs mv status tb ps hget htr hex hsan
    have hne : kvs ≠ [] := by
      intro h; subst h; simp [getKey] at hget
    have hkv : truthy (JVal.jobj kvs) = true := by
      cases kvs with
      | nil => exact absurd rfl hne
      | cons a l => simp [truthy]
    refine ⟨?_, rfl⟩
    simp [proxy_chat, requestBody, requestMessages, hkv, hget, htr, hex, hsan]
  · intro reqBody resp s h
    unfold proxy_chat at h
    repeat' split at h
    all_goals try (exact ProxyResult.noConfusion h)
    injection h with h2
    rw [← h2]
    assumption

/-- C1 witness: a valid request with an upstream 500 response whose body is
empty (hence no fragments, empty sanitized reply). -/
theorem C1_empty_reply_never_success_witness :
    proxy_chat (some (JVal.jobj [("messages", JVal.jarr [JVal.jstr "m"])]))
        (some (500, ([] : List Char))) =
      ProxyResult.errNoReply 500 (([] : List Char).take 2000) ∧
    httpStatus (ProxyResult.errNoReply 500 (([] : List Char).take 2000)) = 502 :=
  C1_empty_reply_never_success.1 [("messages", JVal.jarr [JVal.jstr "m"])]
    (JVal.jarr [JVal.jstr "m"]) 500 [] [] rfl rfl rfl rfl

/-- C7 witness: a request with `messages = []` rejected with 400 for a
concrete backend response. -/
theorem C7_missing_messages_no_call_witness :
    proxy_chat (some (JVal.jobj [("messages", JVal.jarr [])]))
        (some (200, "ok".toList)) = ProxyResult.errMissingMessages ∧
    httpStatus (proxy_chat (some (JVal.jobj [("messages", JVal.jarr [])]))
        (some (200, "ok".toList))) = 400 :=
  C7_missing_messages_no_call [("messages", JVal.jarr [])] (Or.inr rfl)
    (some (200, "ok".toList))

/-- C3 counterexample: an empty string sitting at a recognized position is
not emitted as a fragment — the matcher requires truthiness, so
`{"content": ""}` contributes nothing rather than an empty fragment. -/
theorem C3_counterexample :
    collect_from_obj (.jobj [("content", .jstr "")]) = .ok [] ∧
    (Except.ok ([] : List String) : Except Unit (List String)) ≠ .ok [""] := by
  refine ⟨rfl, fun h => ?_⟩
  injection h with h2
  exact absurd h2 (by decide)

/-- C3 amended: the matcher emits a fragment for each of the recognized
positions — the object itself when a string, `message.content`, the direct
keys `content`, `text`, `reply`, and `message.content` / `text` of each
`choices` element — conditioned on the value being a NON-EMPTY string
(and on the object itself being truthy); empty strings are skipped. -/
theorem C3_matcher_emission (obj : JVal) :
    collect_from_obj obj = collectSpec obj := collect_eq_spec obj

/-- C6: whenever the whole-body parse yields no fragments and the body is
non-empty, extraction is the per-line NDJSON loop (strict parse, then
lenient first-value parse, then the literal line, per stripped non-blank
line); on the NDJSON body of `{"content":"one"}` then `{"content":"two"}`
the fragments are `["one", "two"]` in order. -/
theorem C6_ndjson_line_mode :
    (∀ tb : List Char, phase1 tb = .ok [] → tb ≠ [] →
        extractPieces tb = lineFragsSpec (splitlines tb)) ∧
    extractPieces
        ("\x7b\"content\":\"one\"\x7d\n\x7b\"content\":\"two\"\x7d".toList) =
      .ok ["one", "two"] := by
  constructor
  · intro tb h1 hne
    simp [extractPieces, h1, hne]
    rw [phase2Acc_eq]
    cases lineFragsSpec (splitlines tb) <;> simp
  · rfl

/-- C6 witness: the general line-mode characterization applied to the
concrete NDJSON body. -/
theorem C6_ndjson_line_mode_witness :
    extractPieces
        ("\x7b\"content\":\"one\"\x7d\n\x7b\"content\":\"two\"\x7d".toList) =
      lineFragsSpec (splitlines
        ("\x7b\"content\":\"one\"\x7d\n\x7b\"content\":\"two\"\x7d".toList)) :=
  C6_ndjson_line_mode.1 _ rfl (by decide)

/-! ### Non-emptiness of extracted fragments (C9) -/

theorem strFrag_ne (x : Option JVal) : ∀ f ∈ strFrag x, f ≠ "" := by
  cases x with
  | none => simp [strFrag]
  | some v =>
      cases v with
      | jstr s => by_cases hs : s = "" <;> simp [strFrag, hs]
      | jnull => simp [strFrag]
      | jbool b => simp [strFrag]
      | jnum z => simp [strFrag]
      | jarr l => simp [strFrag]
      | jobj kvs => simp [strFrag]

theorem choiceFragsSpec_ne (ch : JVal) : ∀ f ∈ choiceFragsSpec ch, f ≠ "" := by
  cases ch with
  | jobj ckvs =>
      intro f hf
      rw [choiceFragsSpec] at hf
      rcases List.mem_append.1 hf with hf | hf
      · revert hf
        cases hk : getKey ckvs "message" with
        | none => simp
        | some v =>
            cases v with
            | jobj mkvs => exact fun hf => strFrag_ne _ f hf
            | jnull => simp
            | jbool b => simp
            | jnum z => simp
            | jstr s => simp
            | jarr l => simp
      · exact strFrag_ne _ f hf
  | jnull => simp [choiceFragsSpec]
  | jbool b => simp [choiceFragsSpec]
  | jnum z => simp [choiceFragsSpec]
  | jstr s => simp [choiceFragsSpec]
  | jarr l => simp [choiceFragsSpec]

theorem collectSpec_ne (obj : JVal) (l : List String)
    (h : collectSpec obj = .ok l) : ∀ f ∈ l, f ≠ "" := by
  cases obj with
  | jstr s =>
      by_cases hs : s = ""
      · subst hs
        have h2 : (Except.ok ([] : List String) : Except Unit (List String)) = .ok l := h
        injection h2 with h3
        subst h3
        simp
      · simp [collectSpec, truthy, hs] at h
        subst h
        simp [hs]
  | jobj kvs =>
      cases kvs with
      | nil =>
          have h2 : (Except.ok ([] : List String) : Except Unit (List String)) = .ok l := h
          injection h2 with h3
          subst h3
          simp
      | cons p rest =>
          rw [collectSpec] at h
          simp only [truthy, List.isEmpty_cons, Bool.not_false, Bool.true_eq_false,
            if_false, reduceIte] at h
          intro f hf
          cases hc : getKey (p :: rest) "choices" with
          | none =>
              rw [hc] at h
              injection h with h2
              subst h2
              rcases List.mem_append.1 hf with hf | hf
              · revert hf
                cases getKey (p :: rest) "message" with
                | none => simp
                | some v =>
                    cases v with
                    | jobj mkvs => exact fun hf => strFrag_ne _ f hf
                    | jnull => simp
                    | jbool b => simp
                    | jnum z => simp
                    | jstr s => simp
                    | jarr l2 => simp
              · rcases List.mem_append.1 hf with hf | hf
                · rcases List.mem_append.1 hf with hf | hf
                  · exact strFrag_ne _ f hf
                  · exact strFrag_ne _ f hf
                · exact strFrag_ne _ f hf
          | some v =>
              rw [hc] at h
              cases v with
              | jarr l2 =>
                  by_cases hb : l2.any badChoice = true
                  · simp [hb] at h
                  · simp only [hb, Bool.false_eq_true, if_false, reduceIte] at h
                    injection h with h2
                    subst h2
                    rcases List.mem_append.1 hf with hf | hf
                    · rcases List.mem_append.1 hf with hf | hf
                      · revert hf
                        cases getKey (p :: rest) "message" with
                        | none => simp
                        | some v2 =>
                            cases v2 with
                            | jobj mkvs => exact fun hf => strFrag_ne _ f hf
                            | jnull => simp
                            | jbool b => simp
                            | jnum z => simp
                            | jstr s => simp
                            | jarr l3 => simp
                      · rcases List.mem_append.1 hf with hf | hf
                        · rcases List.mem_append.1 hf with hf | hf
                          · exact strFrag_ne _ f hf
                          · exact strFrag_ne _ f hf
                        · exact strFrag_ne _ f hf
                    · rcases List.mem_flatten.1 hf with ⟨ll, hll, hfl⟩
                      rcases List.mem_map.1 hll with ⟨ch, hch, hce⟩
                      subst hce
                      exact choiceFragsSpec_ne ch f hfl
              | jnull =>
                  injection h with h2; subst h2
                  rcases List.mem_append.1 hf with hf | hf
                  · revert hf
                    cases getKey (p :: rest) "message" with
                    | none => simp
                    | some v2 =>
                        cases v2 with
                        | jobj mkvs => exact fun hf => strFrag_ne _ f hf
                        | jnull => simp
                        | jbool b => simp
                        | jnum z => simp
                        | jstr s => simp
                        | jarr l3 => simp
                  · rcases List.mem_append.1 hf with hf | hf
                    · rcases List.mem_append.1 hf with hf | hf
                      · exact strFrag_ne _ f hf
                      · exact strFrag_ne _ f hf
                    · exact strFrag_ne _ f hf
              | jbool b =>
                  injection h with h2; subst h2
                  rcases List.mem_append.1 hf with hf | hf
                  · revert hf
                    cases getKey (p :: rest) "message" with
                    | none => simp
                    | some v2 =>
                        cases v2 with
                        | jobj mkvs => exact fun hf => strFrag_ne _ f hf
                        | jnull => simp
                        | jbool b2 => simp
                        | jnum z => simp
                        | jstr s => simp
                        | jarr l3 => simp
                  · rcases List.mem_append.1 hf with hf | hf
                    · rcases List.mem_append.1 hf with hf | hf
                      · exact strFrag_ne _ f hf
                      · exact strFrag_ne _ f hf
                    · exact strFrag_ne _ f hf
              | jnum z =>
                  injection h with h2; subst h2
                  rcases List.mem_append.1 hf with hf | hf
                  · revert hf
                    cases getKey (p :: rest) "message" with
                    | none => simp
                    | some v2 =>
                        cases v2 with
                        | jobj mkvs => exact fun hf => strFrag_ne _ f hf
                        | jnull => simp
                        | jbool b2 => simp
                        | jnum z2 => simp
                        | jstr s => simp
                        | jarr l3 => simp
                  · rcases List.mem_append.1 hf with hf | hf
                    · rcases List.mem_append.1 hf with hf | hf
                      · exact strFrag_ne _ f hf
                      · exact strFrag_ne _ f hf
                    · exact strFrag_ne _ f hf
              | jstr s =>
                  injection h with h2; subst h2
                  rcases List.mem_append.1 hf with hf | hf
                  · revert hf
                    cases getKey (p :: rest) "message" with
                    | none => simp
                    | some v2 =>
                        cases v2 with
                        | jobj mkvs => exact fun hf => strFrag_ne _ f hf
                        | jnull => simp
                        | jbool b2 => simp
                        | jnum z2 => simp
                        | jstr s2 => simp
                        | jarr l3 => simp
                  · rcases List.mem_append.1 hf with hf | hf
                    · rcases List.mem_append.1 hf with hf | hf
                      · exact strFrag_ne _ f hf
                      · exact strFrag_ne _ f hf
                    · exact strFrag_ne _ f hf
              | jobj kvs2 =>
                  injection h with h2; subst h2
                  rcases List.mem_append.1 hf with hf | hf
                  · revert hf
                    cases getKey (p :: rest) "message" with
                    | none => simp
                    | some v2 =>
                        cases v2 with
                        | jobj mkvs => exact fun hf => strFrag_ne _ f hf
                        | jnull => simp
                        | jbool b2 => simp
                        | jnum z2 => simp
                        | jstr s2 => simp
                        | jarr l3 => simp
                  · rcases List.mem_append.1 hf with hf | hf
                    · rcases List.mem_append.1 hf with hf | hf
                      · exact strFrag_ne _ f hf
                      · exact strFrag_ne _ f hf
                    · exact strFrag_ne _ f hf
  | jnull =>
      have h2 : (Except.ok ([] : List String) : Except Unit (List String)) = .ok l := h
      injection h2 with h3
      subst h3
      simp
  | jbool b =>
      cases b <;>
      · have h2 : (Except.ok ([] : List String) : Except Unit (List String)) = .ok l := h
        injection h2 with h3
        subst h3
        simp
  | jnum z =>
      cases z <;>
      · have h2 : (Except.ok ([] : List String) : Except Unit (List String)) = .ok l := h
        injection h2 with h3
        subst h3
        simp
  | jarr l2 =>
      cases l2 <;>
      · have h2 : (Except.ok ([] : List String) : Except Unit (List String)) = .ok l := h
        injection h2 with h3
        subst h3
        simp

theorem collect_ne (obj : JVal) (l : List String)
    (h : collect_from_obj obj = .ok l) : ∀ f ∈ l, f ≠ "" :=
  collectSpec_ne obj l (collect_eq_spec obj ▸ h)

theorem collectList_ne (l : List JVal) :
    ∀ r : List String, collectList l = .ok r → ∀ f ∈ r, f ≠ "" := by
  induction l with
  | nil =>
      intro r h
      injection h with h2
      subst h2
      simp
  | cons v rest ih =>
      intro r h
      rw [collectList] at h
      cases hv : collect_from_obj v with
      | error e => rw [hv] at h; simp [except_error_bind] at h
      | ok f =>
          rw [hv, except_ok_bind] at h
          cases hr : collectList rest with
          | error e => rw [hr] at h; simp [except_error_bind] at h
          | ok r2 =>
              rw [hr, except_ok_bind] at h
              injection h with h2
              subst h2
              intro g hg
              rcases List.mem_append.1 hg with hg | hg
              · exact collect_ne v f hv g hg
              · exact ih r2 hr g hg

theorem phase1_ne (tb : List Char) (r : List String)
    (h : phase1 tb = .ok r) : ∀ f ∈ r, f ≠ "" := by
  rw [phase1] at h
  cases hj : jsonLoads tb with
  | none =>
      simp only [hj] at h
      injection h with h2; subst h2; simp
  | some jr =>
      simp only [hj] at h
      by_cases ht : truthy jr = true
      · rw [if_pos ht] at h
        cases jr with
        | jarr l => exact collectList_ne l r h
        | jnull => exact collect_ne _ r h
        | jbool b => exact collect_ne _ r h
        | jnum z => exact collect_ne _ r h
        | jstr s => exact collect_ne _ r h
        | jobj kvs => exact collect_ne _ r h
      · rw [if_neg ht] at h
        injection h with h2; subst h2; simp

theorem lineStep_ne (line : List Char) (hl : line ≠ []) (f : List String)
    (h : lineStep line = .ok f) : ∀ g ∈ f, g ≠ "" := by
  rw [lineStep] at h
  cases hj : jsonLoads line with
  | some obj => simp only [hj] at h; exact collect_ne obj f h
  | none =>
      simp only [hj] at h
      cases hr : rawDecode line with
      | some obj => simp only [hr] at h; exact collect_ne obj f h
      | none =>
          simp only [hr] at h
          injection h with h2
          subst h2
          intro g hg
          rcases List.mem_singleton.1 hg with rfl
          intro hc
          apply hl
          have : (String.mk line).data = ("" : String).data := by rw [hc]
          simpa using this

theorem phase2Acc_ne (ls : List (List Char)) :
    ∀ ps l : List String, (∀ f ∈ ps, f ≠ "") → phase2Acc ps ls = .ok l →
      ∀ f ∈ l, f ≠ "" := by
  induction ls with
  | nil =>
      intro ps l hps h
      injection h with h2
      subst h2
      exact hps
  | cons l0 rest ih =>
      intro ps l hps h
      rw [phase2Acc] at h
      by_cases hl : stripL l0 = []
      · rw [if_pos hl] at h
        exact ih ps l hps h
      · rw [if_neg hl] at h
        cases he : lineStep (stripL l0) with
        | error e => simp only [he] at h; exact absurd h (by simp)
        | ok f =>
            simp only [he] at h
            refine ih (ps ++ f) l ?_ h
            intro g hg
            rcases List.mem_append.1 hg with hg | hg
            · exact hps g hg
            · exact lineStep_ne (stripL l0) hl f he g hg

/-- C9: every fragment the extractor produces is a non-empty string, and
consequently a non-empty fragment list concatenates to a non-empty
pre-sanitization reply candidate. -/
theorem C9_fragments_nonempty (tb : List Char) (frags : List String)
    (hx : extractPieces tb = .ok frags) :
    (∀ f ∈ frags, f ≠ "") ∧ (frags ≠ [] → joinPieces frags ≠ []) := by
  have hne : ∀ f ∈ frags, f ≠ "" := by
    unfold extractPieces at hx
    cases h1 : phase1 tb with
    | error e => simp only [h1] at hx; exact absurd hx (by simp)
    | ok ps =>
        simp only [h1] at hx
        by_cases hc : ps = [] ∧ tb ≠ []
        · rw [if_pos hc] at hx
          refine phase2Acc_ne _ _ _ ?_ hx
          rw [hc.1]; simp
        · rw [if_neg hc] at hx
          injection hx with h2
          subst h2
          exact phase1_ne tb _ h1
  refine ⟨hne, ?_⟩
  intro hfe
  cases frags with
  | nil => exact absurd rfl hfe
  | cons f rest =>
      have hf : f ≠ "" := hne f (by simp)
      rw [joinPieces]
      intro hj
      rcases List.append_eq_nil.1 hj with ⟨hj1, _⟩
      apply hf
      cases f with
      | mk data =>
          simp only [String.toList] at hj1
          rw [hj1]

/-- C9 witness: concrete instance on the body `x` (a literal text line). -/
theorem C9_fragments_nonempty_witness :
    (∀ f ∈ ["x"], f ≠ "") ∧ ((["x"] : List String) ≠ [] → joinPieces ["x"] ≠ []) :=
  C9_fragments_nonempty ("x".toList) ["x"] rfl

/-- C2 counterexample: the sanitizer is not idempotent.  On `"[a\n]"` the
first pass cannot remove the bracketed substring (newline inside), the
whitespace-collapse pass then turns the newline into a space, and a second
sanitization removes the now-matchable bracket tag. -/
theorem C2_counterexample :
    sanitize (sanitize ("[a\n]".toList)) ≠ sanitize ("[a\n]".toList) := by
  decide

/-- C2 amended: the seven-pass sanitizer is idempotent on every input that
contains no newline character (newlines are what let the non-DOTALL tag
passes leave half-removed tags behind); on newline-free inputs a second
application of `sanitize` changes nothing. -/
theorem C2_sanitize_idempotent_no_newline (x : List Char) (hnl : '\n' ∉ x) :
    sanitize (sanitize x) = sanitize x := sanitize_idem_of_no_nl x hnl

/-- Witness for the amended C2 at a concrete newline-free input exercising
tags, duplicate words and whitespace runs. -/
theorem C2_sanitize_idempotent_no_newline_witness :
    ('\n' ∉ ("Hi <b>there</b> [x] the the  end.".toList)) ∧
    sanitize (sanitize ("Hi <b>there</b> [x] the the  end.".toList)) =
      sanitize ("Hi <b>there</b> [x] the the  end.".toList) :=
  ⟨by decide, C2_sanitize_idempotent_no_newline _ (by decide)⟩

end DatingApp
